import Mathlib

/-!
# ChaCha20 stream cipher (`crypto/chacha.h`)

A shallow embedding of the ChaCha20 block core (`chacha20_core`), of the
counter-mode routine `ChaCha20_ctr32` and of the streaming engine
(`chacha_init_key`, `chacha_cipher`) that keeps a cipher context between
calls, followed by the properties proved about them.

Conventions of the embedding.

* `u32` / `unsigned int` values are natural numbers; every operation that can
  leave the 32-bit range is followed by an explicit reduction `% 2 ^ 32`
  (`u32`).  `u8` values are natural numbers below `256`.
* Buffers are lists.  A call that reads `len` bytes from `inp` and writes `len`
  bytes to `out` becomes a function from the input list to the output list.
* `size_t` is taken to be wider than `unsigned int` (an LP64 host), so the
  test `sizeof(size_t) > sizeof(unsigned int)` in `chacha_cipher` is true.  No
  `size_t` operation of the code can overflow, so lengths are plain naturals.
* The host byte order, which `chacha20_core` tests through `is_endian.little`,
  is a Boolean parameter `little` of every function that reaches the core.
-/

namespace Chacha

/-! ## Machine words and macros -/

/-- Reduction of a natural number to the range of `u32` (`unsigned int`). -/
def u32 (v : Nat) : Nat := v % 2 ^ 32

/-- Reduction of a natural number to the range of `u8`: the cast `(u8)(v)`. -/
def u8 (v : Nat) : Nat := v % 2 ^ 8

def CHACHA_KEY_SIZE : Nat := 32
def CHACHA_CTR_SIZE : Nat := 16
def CHACHA_BLK_SIZE : Nat := 64

/-- The macro `CHACHA_U8TOU32(p)`: the four bytes at `p`, combined with shifts
and bitwise or into one `unsigned int`. -/
def CHACHA_U8TOU32 (p : List Nat) : Nat :=
  u32 (p.getD 0 0 ||| u32 (p.getD 1 0 <<< 8) ||| u32 (p.getD 2 0 <<< 16) |||
    u32 (p.getD 3 0 <<< 24))

/-- The macro `ROTATE(v, n)` on `u32` operands. -/
def ROTATE (v n : Nat) : Nat := u32 (v <<< n) ||| (v >>> (32 - n))

/-- The macro `U32TO8_LITTLE(p, v)`: the four bytes it stores at `p[0..3]`. -/
def U32TO8_LITTLE (v : Nat) : List Nat :=
  [u8 (v >>> 0), u8 (v >>> 8), u8 (v >>> 16), u8 (v >>> 24)]

/-- The macro `QUARTERROUND(a,b,c,d)` acting on the working array `x`: eight
assignments, in the order of the comma expression. -/
def QUARTERROUND (a b c d : Nat) (x : List Nat) : List Nat :=
  let x := x.set a (u32 (x.getD a 0 + x.getD b 0))
  let x := x.set d (ROTATE (x.getD d 0 ^^^ x.getD a 0) 16)
  let x := x.set c (u32 (x.getD c 0 + x.getD d 0))
  let x := x.set b (ROTATE (x.getD b 0 ^^^ x.getD c 0) 12)
  let x := x.set a (u32 (x.getD a 0 + x.getD b 0))
  let x := x.set d (ROTATE (x.getD d 0 ^^^ x.getD a 0) 8)
  let x := x.set c (u32 (x.getD c 0 + x.getD d 0))
  let x := x.set b (ROTATE (x.getD b 0 ^^^ x.getD c 0) 7)
  x

/-! ## The block core -/

/-- The body of the `for (i = 20; i > 0; i -= 2)` loop of `chacha20_core`:
four column quarter-rounds, then four diagonal quarter-rounds. -/
def chacha20_core_body (x : List Nat) : List Nat :=
  let x := QUARTERROUND 0 4 8 12 x
  let x := QUARTERROUND 1 5 9 13 x
  let x := QUARTERROUND 2 6 10 14 x
  let x := QUARTERROUND 3 7 11 15 x
  let x := QUARTERROUND 0 5 10 15 x
  let x := QUARTERROUND 1 6 11 12 x
  let x := QUARTERROUND 2 7 8 13 x
  let x := QUARTERROUND 3 4 9 14 x
  x

/-- The loop `for (i = 20; i > 0; i -= 2)`, as a function of the current value
of `i`.  The recursion is on the number `k` of iterations still allowed;
`chacha20_core` starts it with `i = 20` and `k = 10`, which the loop uses up
exactly. -/
def chacha20_core_loop : Nat → Nat → List Nat → List Nat
  | 0, _, x => x
  | k + 1, i, x => if i > 0 then chacha20_core_loop k (i - 2) (chacha20_core_body x) else x

/-- The working array `x` of `chacha20_core` when the loop is left. -/
def chacha20_core_rounds (input : List Nat) : List Nat :=
  chacha20_core_loop 10 20 (input.take 16)

/-- The byte view `c` of the union `chacha_buf` after the words `u` were
stored, on a host of the given byte order: each word occupies four
consecutive bytes, lowest byte first on a little-endian host and highest byte
first on a big-endian one. -/
def chacha_buf_c (little : Bool) (u : List Nat) : List Nat :=
  u.flatMap (fun w =>
    if little then [w % 256, w / 256 % 256, w / 65536 % 256, w / 16777216 % 256]
    else [w / 16777216 % 256, w / 65536 % 256, w / 256 % 256, w % 256])

/-- The function `chacha20_core`: the 64 bytes left in `output->c`.  `little`
is `is_endian.little`, the byte order of the host.  On a little-endian host
the sums are stored as words and read back through the byte view of the
union; otherwise each sum is serialised with `U32TO8_LITTLE`. -/
def chacha20_core (little : Bool) (input : List Nat) : List Nat :=
  let x := chacha20_core_rounds input
  if little then
    chacha_buf_c little ((List.range 16).map (fun i => u32 (x.getD i 0 + input.getD i 0)))
  else
    (List.range 16).flatMap (fun i => U32TO8_LITTLE (u32 (x.getD i 0 + input.getD i 0)))

/-! ## Counter mode -/

/-- The array `input` that `ChaCha20_ctr32` builds: the constant
"expand 32-byte k", the eight key words and the four counter words. -/
def ChaCha20_ctr32_input (key counter : List Nat) : List Nat :=
  [ 'e'.toNat ||| ('x'.toNat <<< 8) ||| ('p'.toNat <<< 16) ||| ('a'.toNat <<< 24),
    'n'.toNat ||| ('d'.toNat <<< 8) ||| (' '.toNat <<< 16) ||| ('3'.toNat <<< 24),
    '2'.toNat ||| ('-'.toNat <<< 8) ||| ('b'.toNat <<< 16) ||| ('y'.toNat <<< 24),
    't'.toNat ||| ('e'.toNat <<< 8) ||| (' '.toNat <<< 16) ||| ('k'.toNat <<< 24),
    key.getD 0 0, key.getD 1 0, key.getD 2 0, key.getD 3 0,
    key.getD 4 0, key.getD 5 0, key.getD 6 0, key.getD 7 0,
    counter.getD 0 0, counter.getD 1 0, counter.getD 2 0, counter.getD 3 0 ]

/-- The loop `while (len > 0)` of `ChaCha20_ctr32`; `inp` is what is left of
the input (so `len = inp.length`) and the result is what the loop writes to
`out`.  The recursion is on a bound `k` on the number of iterations; every
iteration consumes at least one byte, so `k = len` is never used up. -/
def ChaCha20_ctr32_loop (little : Bool) : Nat → List Nat → List Nat → List Nat
  | 0, _, _ => []
  | k + 1, input, inp =>
    if inp.length > 0 then
      let todo := if inp.length < 64 then inp.length else 64
      let buf := chacha20_core little input
      let out := (List.range todo).map (fun i => inp.getD i 0 ^^^ buf.getD i 0)
      out ++ ChaCha20_ctr32_loop little k (input.set 12 (u32 (input.getD 12 0 + 1)))
        (inp.drop todo)
    else []

/-- The function `ChaCha20_ctr32`: the `len = inp.length` bytes written to
`out`. -/
def ChaCha20_ctr32 (little : Bool) (inp key counter : List Nat) : List Nat :=
  ChaCha20_ctr32_loop little inp.length (ChaCha20_ctr32_input key counter) inp

/-! ## The streaming engine -/

/-- The cipher context `EVP_CHACHA_KEY`: `key` is `key.d` (8 words), `counter`
has 4 words, `buf` has 64 bytes. -/
structure EVP_CHACHA_KEY where
  key : List Nat
  counter : List Nat
  buf : List Nat
  partial_len : Nat
deriving DecidableEq

/-- The function `chacha_init_key`: the returned value and the context it
leaves.  A null `user_key` or `iv` is `none`. -/
def chacha_init_key (ctx : EVP_CHACHA_KEY) (user_key iv : Option (List Nat)) (_enc : Int) :
    Int × EVP_CHACHA_KEY :=
  let key := match user_key with
    | some k => (List.range (CHACHA_KEY_SIZE / 4)).map (fun j => CHACHA_U8TOU32 (k.drop (4 * j)))
    | none => ctx.key
  let counter := match iv with
    | some v => (List.range (CHACHA_CTR_SIZE / 4)).map (fun j => CHACHA_U8TOU32 (v.drop (4 * j)))
    | none => ctx.counter
  (1, { key := key, counter := counter, buf := ctx.buf, partial_len := 0 })

/-- The first loop of `chacha_cipher`, `while (len && n < CHACHA_BLK_SIZE)`:
from `n` and the remaining input it gives the final `n`, the bytes written
and the input that is left. -/
def chacha_cipher_drain (buf : List Nat) : Nat → List Nat → Nat × List Nat × List Nat
  | n, [] => (n, [], [])
  | n, b :: inp =>
    if n < CHACHA_BLK_SIZE then
      let r := chacha_cipher_drain buf (n + 1) inp
      (r.1, (b ^^^ buf.getD n 0) :: r.2.1, r.2.2)
    else (n, [], b :: inp)

/-- The head of one iteration of the loop `while (len >= CHACHA_BLK_SIZE)` of
`chacha_cipher`: from `len` and `ctr32` it gives the number `blocks` of blocks
the iteration hands to `ChaCha20_ctr32` and the new value of `ctr32`.  The cap
at `1U << 28` is the branch taken when `size_t` is wider than `unsigned int`;
`ctr32 += (unsigned int)blocks` wraps modulo `2 ^ 32`, and `ctr32 < blocks`
then detects the wrap and cuts `blocks` down to the overflow point. -/
def chacha_cipher_blocks_head (len ctr32 : Nat) : Nat × Nat :=
  let blocks := len / CHACHA_BLK_SIZE
  let blocks := if blocks > 1 <<< 28 then 1 <<< 28 else blocks
  let ctr32 := u32 (ctr32 + u32 blocks)
  if ctr32 < blocks then (blocks - ctr32, 0) else (blocks, ctr32)

/-- The end of one iteration of that loop: `key->counter[0] = ctr32;
if (ctr32 == 0) key->counter[1]++;`. -/
def chacha_cipher_blocks_counter (counter : List Nat) (ctr32 : Nat) : List Nat :=
  let counter := counter.set 0 ctr32
  if ctr32 = 0 then counter.set 1 (u32 (counter.getD 1 0 + 1)) else counter

/-- The loop `while (len >= CHACHA_BLK_SIZE)` of `chacha_cipher`.  `len` is the
number of whole-block bytes still to do, `ctr32` the local of that name,
`counter` the counter words of the context and `inp` the input from the
current position on.  The result is the counter words, the bytes written and
the input that is left.  The recursion is on a bound `k` on the number of
iterations; every iteration consumes at least one block. -/
def chacha_cipher_blocks (little : Bool) (key : List Nat) :
    Nat → Nat → Nat → List Nat → List Nat → List Nat × List Nat × List Nat
  | 0, _, _, counter, inp => (counter, [], inp)
  | k + 1, len, ctr32, counter, inp =>
    if len ≥ CHACHA_BLK_SIZE then
      let h := chacha_cipher_blocks_head len ctr32
      let blocks := h.1 * CHACHA_BLK_SIZE
      let out := ChaCha20_ctr32 little (inp.take blocks) key counter
      let counter := chacha_cipher_blocks_counter counter h.2
      let r := chacha_cipher_blocks little key k (len - blocks) h.2 counter (inp.drop blocks)
      (r.1, out ++ r.2.1, r.2.2)
    else (counter, [], inp)

/-- The part of `chacha_cipher` from `rem = len % CHACHA_BLK_SIZE` to the end:
whole blocks, then the tail that is kept in `buf`.  `pre` is what was already
written to `out`. -/
def chacha_cipher_rest (little : Bool) (ctx : EVP_CHACHA_KEY) (pre inp : List Nat) :
    Int × EVP_CHACHA_KEY × List Nat :=
  let rem := inp.length % CHACHA_BLK_SIZE
  let len := inp.length - rem
  let r := chacha_cipher_blocks little ctx.key (len / CHACHA_BLK_SIZE + 1) len
    (ctx.counter.getD 0 0) ctx.counter inp
  let ctx := { ctx with counter := r.1 }
  if rem ≠ 0 then
    let buf := ChaCha20_ctr32 little (List.replicate CHACHA_BLK_SIZE 0) ctx.key ctx.counter
    let tail := (List.range rem).map (fun n => r.2.2.getD n 0 ^^^ buf.getD n 0)
    (1, { ctx with buf := buf, partial_len := rem }, pre ++ r.2.1 ++ tail)
  else (1, ctx, pre ++ r.2.1)

/-- The function `chacha_cipher`: the returned value, the context it leaves
and the `len = inp.length` bytes written to `out`. -/
def chacha_cipher (little : Bool) (ctx : EVP_CHACHA_KEY) (inp : List Nat) :
    Int × EVP_CHACHA_KEY × List Nat :=
  if ctx.partial_len ≠ 0 then
    let d := chacha_cipher_drain ctx.buf ctx.partial_len inp
    let n := d.1
    let ctx := { ctx with partial_len := n }
    if d.2.2.length = 0 then (1, ctx, d.2.1)
    else
      let ctx :=
        if n = CHACHA_BLK_SIZE then
          let c0 := u32 (ctx.counter.getD 0 0 + 1)
          let counter := ctx.counter.set 0 c0
          let counter := if c0 = 0 then counter.set 1 (u32 (counter.getD 1 0 + 1)) else counter
          { ctx with partial_len := 0, counter := counter }
        else ctx
      chacha_cipher_rest little ctx d.2.1 d.2.2
  else chacha_cipher_rest little ctx [] inp


/-! ## The keystream as a function of the stream position -/

/-- The four counter words that hold the 64-bit block counter `j` (reduced
modulo `2 ^ 64`) in words 0 and 1, and the words `c2`, `c3`. -/
def ctrWords (j c2 c3 : Nat) : List Nat := [j % 2 ^ 32, j / 2 ^ 32 % 2 ^ 32, c2, c3]

/-- The keystream block of the 64-bit block counter `j`. -/
def keyblock (little : Bool) (key : List Nat) (c2 c3 j : Nat) : List Nat :=
  chacha20_core little (ChaCha20_ctr32_input key (ctrWords j c2 c3))

/-- The keystream byte at stream position `p` (byte `p % 64` of block `p / 64`). -/
def keystream (little : Bool) (key : List Nat) (c2 c3 p : Nat) : Nat :=
  (keyblock little key c2 c3 (p / 64)).getD (p % 64) 0

/-- The bytes of `l` xored with `f p`, `f (p + 1)`, ... in turn. -/
def xorStream (f : Nat → Nat) : Nat → List Nat → List Nat
  | _, [] => []
  | p, b :: l => (b ^^^ f p) :: xorStream f (p + 1) l

/-- The byte at offset `q` of the keystream `ChaCha20_ctr32` applies: byte
`q % 64` of the output of `chacha20_core` for the counter word
`(c0 + q / 64) % 2 ^ 32`, the other three counter words being as given. -/
def ctr32Stream (little : Bool) (key : List Nat) (c0 c1 c2 c3 q : Nat) : Nat :=
  (chacha20_core little
    (ChaCha20_ctr32_input key [(c0 + q / 64) % 2 ^ 32, c1, c2, c3])).getD (q % 64) 0

/-! ## The engine in closed form -/

/-- Well-formed contexts: `counter` has its four words, and the two words the
engine computes with are in the range of `unsigned int`. -/
def EVP_CHACHA_KEY.wf (ctx : EVP_CHACHA_KEY) : Prop :=
  ctx.counter.length = 4 ∧ ctx.counter.getD 0 0 < 2 ^ 32 ∧ ctx.counter.getD 1 0 < 2 ^ 32

instance (ctx : EVP_CHACHA_KEY) : Decidable ctx.wf := by
  unfold EVP_CHACHA_KEY.wf; infer_instance

/-- The 64-bit block counter held in counter words 0 (low) and 1 (high). -/
def ctr64 (ctx : EVP_CHACHA_KEY) : Nat := ctx.counter.getD 0 0 + 2 ^ 32 * ctx.counter.getD 1 0

/-- The keystream of the session of `ctx`, by stream position. -/
def ctxKeystream (little : Bool) (ctx : EVP_CHACHA_KEY) (p : Nat) : Nat :=
  keystream little ctx.key (ctx.counter.getD 2 0) (ctx.counter.getD 3 0) p

/-- The context after `len` bytes were processed starting on a block boundary
(nothing buffered): the counter has advanced by the whole blocks, and a tail
leaves its keystream block in `buf`. -/
def restAfter (little : Bool) (ctx : EVP_CHACHA_KEY) (len : Nat) : EVP_CHACHA_KEY :=
  { key := ctx.key
    counter := ctrWords (ctr64 ctx + len / 64) (ctx.counter.getD 2 0) (ctx.counter.getD 3 0)
    buf := if len % 64 ≠ 0 then
        keyblock little ctx.key (ctx.counter.getD 2 0) (ctx.counter.getD 3 0) (ctr64 ctx + len / 64)
      else ctx.buf
    partial_len := if len % 64 ≠ 0 then len % 64 else ctx.partial_len }

/-- The context after a call of `chacha_cipher` with `len` bytes of input. -/
def ctxAfter (little : Bool) (ctx : EVP_CHACHA_KEY) (len : Nat) : EVP_CHACHA_KEY :=
  if 0 < ctx.partial_len ∧ ctx.partial_len ≤ 64 then
    if len ≤ 64 - ctx.partial_len then { ctx with partial_len := ctx.partial_len + len }
    else
      restAfter little
        { ctx with
          partial_len := 0
          counter := ctrWords (ctr64 ctx + 1) (ctx.counter.getD 2 0) (ctx.counter.getD 3 0) }
        (len - (64 - ctx.partial_len))
  else restAfter little ctx len

/-- The byte that a call of `chacha_cipher` xors into input byte `q`: buffered
bytes first, when there are any, then the keystream from the next block
boundary on. -/
def ctxStream (little : Bool) (ctx : EVP_CHACHA_KEY) (q : Nat) : Nat :=
  if 0 < ctx.partial_len ∧ ctx.partial_len ≤ 64 then
    if ctx.partial_len + q < 64 then ctx.buf.getD (ctx.partial_len + q) 0
    else ctxKeystream little ctx (64 * (ctr64 ctx + 1) + (ctx.partial_len + q - 64))
  else ctxKeystream little ctx (64 * ctr64 ctx + q)

/-- The stream position of a context: 64 bytes for every block counted by the
64-bit counter, plus the bytes already used of the buffered block. -/
def pos (ctx : EVP_CHACHA_KEY) : Nat := 64 * ctr64 ctx + ctx.partial_len

/-- A context whose buffer is in step with its counter: at most 64 bytes are
marked as used and, when some are, `buf` holds the keystream block of the
current counter. -/
def Synced (little : Bool) (ctx : EVP_CHACHA_KEY) : Prop :=
  ctx.wf ∧ ctx.partial_len ≤ 64 ∧
    (0 < ctx.partial_len →
      ctx.buf = keyblock little ctx.key (ctx.counter.getD 2 0) (ctx.counter.getD 3 0) (ctr64 ctx))

instance (little : Bool) (ctx : EVP_CHACHA_KEY) : Decidable (Synced little ctx) := by
  unfold Synced; infer_instance

/-- A sequence of calls of `chacha_cipher` on the pieces, in order, each call
starting from the context the previous one left: the final context and the
concatenation of the outputs. -/
def chacha_cipher_calls (little : Bool) (ctx : EVP_CHACHA_KEY) :
    List (List Nat) → EVP_CHACHA_KEY × List Nat
  | [] => (ctx, [])
  | p :: ps =>
    let r := chacha_cipher little ctx p
    let s := chacha_cipher_calls little r.2.1 ps
    (s.1, r.2.2 ++ s.2)

/-- The little-endian 4-byte encoding of a 32-bit word, in the words of the
specification: least significant byte first. -/
def littleEndian32 (w : Nat) : List Nat :=
  [w % 2 ^ 8, w / 2 ^ 8 % 2 ^ 8, w / 2 ^ 16 % 2 ^ 8, w / 2 ^ 24 % 2 ^ 8]

/-! ## The steps of a quarter-round -/

/-- Arrays of `n` words, every word in the range of `u32`. -/
def Words (n : Nat) : Set (List Nat) :=
  {x | x.length = n ∧ ∀ i, i < n → x.getD i 0 < 2 ^ 32}

/-- One assignment `x[i] += x[j]` of `QUARTERROUND`. -/
def addStep (i j : Nat) (x : List Nat) : List Nat :=
  x.set i (u32 (x.getD i 0 + x.getD j 0))

/-- One assignment `x[i] = ROTATE((x[i] ^ x[j]), n)` of `QUARTERROUND`. -/
def xorRotStep (i j n : Nat) (x : List Nat) : List Nat :=
  x.set i (ROTATE (x.getD i 0 ^^^ x.getD j 0) n)

/-- The assignment that undoes `addStep`: `x[i] -= x[j]`. -/
def subStep (i j : Nat) (x : List Nat) : List Nat :=
  x.set i (u32 (x.getD i 0 + 2 ^ 32 - x.getD j 0))

/-- The assignment that undoes `xorRotStep`: rotate `x[i]` back, then xor
`x[j]` into it. -/
def rotXorStep (i j n : Nat) (x : List Nat) : List Nat :=
  x.set i (ROTATE (x.getD i 0) (32 - n) ^^^ x.getD j 0)

/-! ## The same functions on a byte memory

`ChaCha20_ctr32` and `chacha_cipher` receive pointers `out` and `inp`.  To speak
about calls in which the two coincide, the functions are embedded a second
time on a memory, a map from addresses to bytes, with `out` and `inp` as
addresses; every store goes to the memory the later loads read.  The cipher
context is a separate object: `out` and `inp` do not point into it. -/

/-- A byte memory. -/
abbrev Mem := Nat → Nat

/-- The store `p[0] = v` at address `p`. -/
def memWrite (mem : Mem) (p v : Nat) : Mem := fun a => if a = p then v else mem a

/-- The `len` bytes at address `p`. -/
def memRead (mem : Mem) (p len : Nat) : List Nat := (List.range len).map (fun i => mem (p + i))

/-- The memory in which the bytes `l` were stored at address `p`. -/
def memBlit (mem : Mem) (p : Nat) (l : List Nat) : Mem :=
  fun a => if p ≤ a ∧ a < p + l.length then l.getD (a - p) 0 else mem a

/-- The loops `for (i = 0; i < todo; i++) out[i] = inp[i] ^ buf[i];` of
`ChaCha20_ctr32` and of the tail of `chacha_cipher`, from the current `i` with
`k` iterations to go. -/
def xor_loop_mem (buf : List Nat) (out inp : Nat) : Nat → Nat → Mem → Mem
  | 0, _, mem => mem
  | k + 1, i, mem =>
    xor_loop_mem buf out inp k (i + 1) (memWrite mem (out + i) (mem (inp + i) ^^^ buf.getD i 0))

/-- The loop `while (len > 0)` of `ChaCha20_ctr32` on the memory; `k` bounds the
number of iterations as in `ChaCha20_ctr32_loop`. -/
def ChaCha20_ctr32_loop_mem (little : Bool) :
    Nat → List Nat → Nat → Nat → Nat → Mem → Mem
  | 0, _, _, _, _, mem => mem
  | k + 1, input, out, inp, len, mem =>
    if len > 0 then
      let todo := if len < 64 then len else 64
      let buf := chacha20_core little input
      let mem := xor_loop_mem buf out inp todo 0 mem
      ChaCha20_ctr32_loop_mem little k (input.set 12 (u32 (input.getD 12 0 + 1)))
        (out + todo) (inp + todo) (len - todo) mem
    else mem

/-- The function `ChaCha20_ctr32` on the memory: the memory it leaves. -/
def ChaCha20_ctr32_mem (little : Bool) (mem : Mem) (out inp len : Nat) (key counter : List Nat) :
    Mem :=
  ChaCha20_ctr32_loop_mem little len (ChaCha20_ctr32_input key counter) out inp len mem

/-- The first loop of `chacha_cipher` on the memory: the final `n`, `len`,
`out`, `inp` and memory. -/
def chacha_cipher_drain_mem (buf : List Nat) :
    Nat → Nat → Nat → Nat → Mem → Nat × Nat × Nat × Nat × Mem
  | 0, n, out, inp, mem => (n, 0, out, inp, mem)
  | len + 1, n, out, inp, mem =>
    if n < CHACHA_BLK_SIZE then
      chacha_cipher_drain_mem buf len (n + 1) (out + 1) (inp + 1)
        (memWrite mem out (mem inp ^^^ buf.getD n 0))
    else (n, len + 1, out, inp, mem)

/-- The loop `while (len >= CHACHA_BLK_SIZE)` of `chacha_cipher` on the memory:
the counter words, `out`, `inp` and the memory when the loop is left. -/
def chacha_cipher_blocks_mem (little : Bool) (key : List Nat) :
    Nat → Nat → Nat → List Nat → Nat → Nat → Mem → List Nat × Nat × Nat × Mem
  | 0, _, _, counter, out, inp, mem => (counter, out, inp, mem)
  | k + 1, len, ctr32, counter, out, inp, mem =>
    if len ≥ CHACHA_BLK_SIZE then
      let h := chacha_cipher_blocks_head len ctr32
      let blocks := h.1 * CHACHA_BLK_SIZE
      let mem := ChaCha20_ctr32_mem little mem out inp blocks key counter
      let counter := chacha_cipher_blocks_counter counter h.2
      chacha_cipher_blocks_mem little key k (len - blocks) h.2 counter (out + blocks)
        (inp + blocks) mem
    else (counter, out, inp, mem)

/-- The part of `chacha_cipher` from `rem = len % CHACHA_BLK_SIZE` on, on the
memory.  The tail block is produced in place in `key->buf`: the buffer is
cleared by `memset` and `ChaCha20_ctr32` is called with `out = inp = key->buf`. -/
def chacha_cipher_rest_mem (little : Bool) (ctx : EVP_CHACHA_KEY) (mem : Mem)
    (out inp len : Nat) : Int × EVP_CHACHA_KEY × Mem :=
  let rem := len % CHACHA_BLK_SIZE
  let len := len - rem
  let r := chacha_cipher_blocks_mem little ctx.key (len / CHACHA_BLK_SIZE + 1) len
    (ctx.counter.getD 0 0) ctx.counter out inp mem
  let ctx := { ctx with counter := r.1 }
  if rem ≠ 0 then
    let bufmem : Mem := fun a => if a < CHACHA_BLK_SIZE then 0 else ctx.buf.getD a 0
    let bufmem := ChaCha20_ctr32_mem little bufmem 0 0 CHACHA_BLK_SIZE ctx.key ctx.counter
    let buf := memRead bufmem 0 CHACHA_BLK_SIZE
    (1, { ctx with buf := buf, partial_len := rem }, xor_loop_mem buf r.2.1 r.2.2.1 rem 0 r.2.2.2)
  else (1, ctx, r.2.2.2)

/-- The function `chacha_cipher` on the memory: the returned value, the context
and the memory it leaves. -/
def chacha_cipher_mem (little : Bool) (ctx : EVP_CHACHA_KEY) (mem : Mem) (out inp len : Nat) :
    Int × EVP_CHACHA_KEY × Mem :=
  if ctx.partial_len ≠ 0 then
    let d := chacha_cipher_drain_mem ctx.buf len ctx.partial_len out inp mem
    let n := d.1
    let ctx := { ctx with partial_len := n }
    if d.2.1 = 0 then (1, ctx, d.2.2.2.2)
    else
      let ctx :=
        if n = CHACHA_BLK_SIZE then
          let c0 := u32 (ctx.counter.getD 0 0 + 1)
          let counter := ctx.counter.set 0 c0
          let counter := if c0 = 0 then counter.set 1 (u32 (counter.getD 1 0 + 1)) else counter
          { ctx with partial_len := 0, counter := counter }
        else ctx
      chacha_cipher_rest_mem little ctx d.2.2.2.2 d.2.2.1 d.2.2.2.1 d.2.1
  else chacha_cipher_rest_mem little ctx mem out inp len

/-- No store of a copying loop from `inp` to `out` over `len` bytes reaches a
byte the loop has still to load: the buffers coincide or `out` lies before
`inp`, or the output buffer lies wholly behind the input. -/
def NoClobber (out inp len : Nat) : Prop := out ≤ inp ∨ inp + len ≤ out

instance (out inp len : Nat) : Decidable (NoClobber out inp len) := by
  unfold NoClobber; infer_instance

/-! ## Streams of xored bytes -/

theorem xorStream_length (f : Nat → Nat) (p : Nat) (l : List Nat) :
    (xorStream f p l).length = l.length := by
  induction l generalizing p with
  | nil => rfl
  | cons b l ih => simp [xorStream, ih]

theorem xorStream_append (f : Nat → Nat) (p : Nat) (l₁ l₂ : List Nat) :
    xorStream f p (l₁ ++ l₂) = xorStream f p l₁ ++ xorStream f (p + l₁.length) l₂ := by
  induction l₁ generalizing p with
  | nil => simp [xorStream]
  | cons b l ih =>
    rw [List.cons_append, xorStream, xorStream, ih, List.length_cons,
      show p + 1 + l.length = p + (l.length + 1) by omega, List.cons_append]

theorem xorStream_congr (f g : Nat → Nat) (p q : Nat) (l : List Nat)
    (h : ∀ i, i < l.length → f (p + i) = g (q + i)) :
    xorStream f p l = xorStream g q l := by
  induction l generalizing p q with
  | nil => rfl
  | cons b l ih =>
    simp only [xorStream]
    have h0 := h 0 (by simp)
    simp only [Nat.add_zero] at h0
    rw [h0, ih (p + 1) (q + 1)]
    intro i hi
    have := h (i + 1) (by simp; omega)
    rw [show p + 1 + i = p + (i + 1) by omega, show q + 1 + i = q + (i + 1) by omega]
    exact this

theorem xorStream_take_drop (f : Nat → Nat) (p k : Nat) (l : List Nat) (hk : k ≤ l.length) :
    xorStream f p (l.take k) ++ xorStream f (p + k) (l.drop k) = xorStream f p l := by
  have h := xorStream_append f p (l.take k) (l.drop k)
  rw [List.take_append_drop, List.length_take, Nat.min_eq_left hk] at h
  exact h.symm

theorem xorStream_getD (f : Nat → Nat) (p : Nat) (l : List Nat) (i : Nat) (hi : i < l.length) :
    (xorStream f p l).getD i 0 = l.getD i 0 ^^^ f (p + i) := by
  induction l generalizing p i with
  | nil => simp at hi
  | cons b l ih =>
    cases i with
    | zero => simp [xorStream]
    | succ i =>
      simp only [xorStream, List.getD_cons_succ]
      rw [ih (p + 1) i (by simpa using hi), show p + 1 + i = p + (i + 1) by omega]

theorem xorStream_involutive (f : Nat → Nat) (p : Nat) (l : List Nat) :
    xorStream f p (xorStream f p l) = l := by
  induction l generalizing p with
  | nil => rfl
  | cons b l ih => simp [xorStream, ih, Nat.xor_assoc]

theorem xorStream_zeros (f : Nat → Nat) (p n : Nat) :
    xorStream f p (List.replicate n 0) = (List.range n).map (fun i => f (p + i)) := by
  induction n generalizing p with
  | zero => rfl
  | succ n ih =>
    rw [List.replicate_succ, xorStream, ih, List.range_succ_eq_map]
    simp only [Nat.zero_xor, Nat.add_zero, List.map_cons, List.map_map, List.cons.injEq, true_and]
    apply List.map_congr_left
    intro i _
    simp only [Function.comp, Nat.succ_eq_add_one]
    congr 1; omega

/-- The `for (i = 0; i < todo; i++) out[i] = inp[i] ^ buf[i]` loops as a stream. -/
theorem range_xor_eq (buf inp : List Nat) (t : Nat) (ht : t ≤ inp.length) :
    (List.range t).map (fun i => inp.getD i 0 ^^^ buf.getD i 0) =
      xorStream (fun i => buf.getD i 0) 0 (inp.take t) := by
  apply List.ext_getElem
  · simp [xorStream_length, Nat.min_eq_left ht]
  · intro i h1 h2
    simp only [List.length_map, List.length_range] at h1
    have h3 : i < (inp.take t).length := by simp; omega
    have := xorStream_getD (fun i => buf.getD i 0) 0 (inp.take t) i h3
    rw [List.getD_eq_getElem _ _ h2] at this
    rw [this]
    simp [List.getD_eq_getElem?_getD, List.getElem?_take, h1]

/-! ## The block core always yields 64 bytes -/

theorem length_flatMap_four {α : Type} (l : List α) (f : α → List Nat)
    (h : ∀ a, (f a).length = 4) : (l.flatMap f).length = 4 * l.length := by
  induction l with
  | nil => rfl
  | cons a l ih => rw [List.flatMap_cons, List.length_append, h, ih, List.length_cons]; omega

theorem chacha20_core_length (little : Bool) (input : List Nat) :
    (chacha20_core little input).length = 64 := by
  cases little
  · simp only [chacha20_core, Bool.false_eq_true, if_false]
    rw [length_flatMap_four (List.range 16) _ (fun i => by simp [U32TO8_LITTLE])]; rfl
  · simp only [chacha20_core, chacha_buf_c, if_true]
    rw [length_flatMap_four _ _ (fun i => by simp)]; simp

theorem getD_range_map (l : List Nat) (n : Nat) (h : l.length = n) :
    (List.range n).map (fun i => l.getD i 0) = l := by
  apply List.ext_getElem
  · simp [h]
  · intro i h1 h2
    simp [List.getD_eq_getElem?_getD, h2]

/-! ## `ChaCha20_ctr32` -/

theorem ChaCha20_ctr32_input_set (key counter : List Nat) (v : Nat) :
    (ChaCha20_ctr32_input key counter).set 12 v =
      ChaCha20_ctr32_input key [v, counter.getD 1 0, counter.getD 2 0, counter.getD 3 0] := rfl

theorem ChaCha20_ctr32_input_getD (key counter : List Nat) :
    (ChaCha20_ctr32_input key counter).getD 12 0 = counter.getD 0 0 := rfl

theorem ChaCha20_ctr32_loop_eq (little : Bool) (key : List Nat) (c1 c2 c3 : Nat) :
    ∀ (k c0 : Nat) (inp : List Nat), inp.length ≤ k → c0 < 2 ^ 32 →
      ChaCha20_ctr32_loop little k (ChaCha20_ctr32_input key [c0, c1, c2, c3]) inp =
        xorStream (ctr32Stream little key c0 c1 c2 c3) 0 inp := by
  intro k
  induction k with
  | zero =>
    intro c0 inp h _
    have : inp = [] := List.length_eq_zero.mp (by omega)
    subst this; rfl
  | succ k ih =>
    intro c0 inp h hc
    rw [ChaCha20_ctr32_loop]
    by_cases hpos : inp.length > 0
    · rw [if_pos hpos]
      simp only [ChaCha20_ctr32_input_set, ChaCha20_ctr32_input_getD, List.getD_cons_zero,
        List.getD_cons_succ]
      have hu : u32 (c0 + 1) < 2 ^ 32 := Nat.mod_lt _ (by norm_num)
      by_cases hlt : inp.length < 64
      · rw [if_pos hlt]
        rw [List.drop_length, range_xor_eq _ _ _ (Nat.le_refl _), List.take_length]
        rw [ih (u32 (c0 + 1)) [] (by simp) hu]
        simp only [xorStream, List.append_nil]
        apply xorStream_congr
        intro i hi
        have h1 : i / 64 = 0 := by omega
        have h2 : i % 64 = i := by omega
        simp only [ctr32Stream, Nat.zero_add, h1, h2, Nat.add_zero, Nat.mod_eq_of_lt hc]
      · rw [if_neg hlt]
        rw [range_xor_eq _ _ _ (by omega : 64 ≤ inp.length)]
        rw [ih (u32 (c0 + 1)) (inp.drop 64) (by simp; omega) hu]
        rw [← xorStream_take_drop (ctr32Stream little key c0 c1 c2 c3) 0 64 inp (by omega)]
        have e1 : xorStream (fun i => (chacha20_core little
            (ChaCha20_ctr32_input key [c0, c1, c2, c3])).getD i 0) 0 (List.take 64 inp) =
            xorStream (ctr32Stream little key c0 c1 c2 c3) 0 (List.take 64 inp) := by
          apply xorStream_congr
          intro i hi
          have hi' : i < 64 := by simp at hi; omega
          have h1 : i / 64 = 0 := by omega
          have h2 : i % 64 = i := by omega
          simp only [ctr32Stream, Nat.zero_add, h1, h2, Nat.add_zero, Nat.mod_eq_of_lt hc]
        rw [e1]
        apply congrArg
        · apply xorStream_congr
          intro i _
          have h1 : (0 + 64 + i) / 64 = i / 64 + 1 := by omega
          have h2 : (0 + 64 + i) % 64 = i % 64 := by omega
          have h3 : (u32 (c0 + 1) + i / 64) % 2 ^ 32 = (c0 + (i / 64 + 1)) % 2 ^ 32 := by
            unfold u32; omega
          simp only [ctr32Stream, Nat.zero_add, h1, h2, h3]
    · rw [if_neg hpos]
      have : inp = [] := List.length_eq_zero.mp (by omega)
      subst this; rfl

theorem ChaCha20_ctr32_eq (little : Bool) (inp key counter : List Nat)
    (hc : counter.getD 0 0 < 2 ^ 32) :
    ChaCha20_ctr32 little inp key counter =
      xorStream (ctr32Stream little key (counter.getD 0 0) (counter.getD 1 0)
        (counter.getD 2 0) (counter.getD 3 0)) 0 inp := by
  unfold ChaCha20_ctr32
  exact ChaCha20_ctr32_loop_eq little key _ _ _ inp.length _ inp (Nat.le_refl _) hc

/-! ## The keystream by position -/

theorem ctrWords_of_lt (c0 c1 c2 c3 : Nat) (h0 : c0 < 2 ^ 32) (h1 : c1 < 2 ^ 32) :
    ctrWords (c0 + 2 ^ 32 * c1) c2 c3 = [c0, c1, c2, c3] := by
  have e0 : (c0 + 2 ^ 32 * c1) % 2 ^ 32 = c0 := by omega
  have e1 : (c0 + 2 ^ 32 * c1) / 2 ^ 32 % 2 ^ 32 = c1 := by omega
  simp only [ctrWords, e0, e1]

theorem ctrWords_mod (j c2 c3 : Nat) : ctrWords (j % 2 ^ 64) c2 c3 = ctrWords j c2 c3 := by
  have e0 : j % 2 ^ 64 % 2 ^ 32 = j % 2 ^ 32 := by omega
  have e1 : j % 2 ^ 64 / 2 ^ 32 % 2 ^ 32 = j / 2 ^ 32 % 2 ^ 32 := by omega
  simp only [ctrWords, e0, e1]

theorem ctrWords_add_mod (j n c2 c3 : Nat) :
    ctrWords (j % 2 ^ 64 + n) c2 c3 = ctrWords (j + n) c2 c3 := by
  have e0 : (j % 2 ^ 64 + n) % 2 ^ 32 = (j + n) % 2 ^ 32 := by omega
  have e1 : (j % 2 ^ 64 + n) / 2 ^ 32 % 2 ^ 32 = (j + n) / 2 ^ 32 % 2 ^ 32 := by omega
  simp only [ctrWords, e0, e1]

theorem keystream_add_mod (little : Bool) (key : List Nat) (c2 c3 j q : Nat) :
    keystream little key c2 c3 (64 * (j % 2 ^ 64) + q) = keystream little key c2 c3 (64 * j + q) := by
  have e1 : (64 * (j % 2 ^ 64) + q) / 64 = j % 2 ^ 64 + q / 64 := by omega
  have e2 : (64 * j + q) / 64 = j + q / 64 := by omega
  have e3 : (64 * (j % 2 ^ 64) + q) % 64 = q % 64 := by omega
  have e4 : (64 * j + q) % 64 = q % 64 := by omega
  simp only [keystream, keyblock, e1, e2, e3, e4, ctrWords_add_mod]

theorem ctr32Stream_eq_keystream (little : Bool) (key : List Nat) (c0 c1 c2 c3 q : Nat)
    (h1 : c1 < 2 ^ 32) (hq : c0 + q / 64 < 2 ^ 32) :
    ctr32Stream little key c0 c1 c2 c3 q =
      keystream little key c2 c3 (64 * (c0 + 2 ^ 32 * c1) + q) := by
  have e1 : (64 * (c0 + 2 ^ 32 * c1) + q) / 64 = (c0 + q / 64) + 2 ^ 32 * c1 := by omega
  have e2 : (64 * (c0 + 2 ^ 32 * c1) + q) % 64 = q % 64 := by omega
  simp only [keystream, keyblock, ctr32Stream, e1, e2, ctrWords_of_lt _ _ _ _ hq h1,
    Nat.mod_eq_of_lt hq]

/-- One call of `ChaCha20_ctr32` that does not take the counter word past
`2 ^ 32` applies the keystream at the position of the 64-bit counter. -/
theorem ChaCha20_ctr32_keystream (little : Bool) (inp key : List Nat) (c0 c1 c2 c3 b : Nat)
    (h1 : c1 < 2 ^ 32) (hb : c0 + b ≤ 2 ^ 32) (hlen : inp.length ≤ 64 * b) (hb1 : 1 ≤ b) :
    ChaCha20_ctr32 little inp key [c0, c1, c2, c3] =
      xorStream (keystream little key c2 c3) (64 * (c0 + 2 ^ 32 * c1)) inp := by
  rw [ChaCha20_ctr32_eq little inp key [c0, c1, c2, c3] (by simp; omega)]
  simp only [List.getD_cons_zero, List.getD_cons_succ]
  apply xorStream_congr
  intro i hi
  rw [Nat.zero_add]
  exact ctr32Stream_eq_keystream little key c0 c1 c2 c3 i h1 (by omega)

/-! ## The whole-block loop of `chacha_cipher` -/

theorem chacha_cipher_blocks_head_spec (len c0 : Nat) (hlen : 64 ≤ len) (h0 : c0 < 2 ^ 32) :
    1 ≤ (chacha_cipher_blocks_head len c0).1 ∧ (chacha_cipher_blocks_head len c0).1 ≤ len / 64 ∧
    c0 + (chacha_cipher_blocks_head len c0).1 ≤ 2 ^ 32 ∧
    (chacha_cipher_blocks_head len c0).2 = (c0 + (chacha_cipher_blocks_head len c0).1) % 2 ^ 32 := by
  have e28 : 1 <<< 28 = 268435456 := by decide
  simp only [chacha_cipher_blocks_head, CHACHA_BLK_SIZE, u32, e28]
  by_cases hcap : len / 64 > 268435456
  · simp only [hcap, if_true]
    by_cases hov : (c0 + 268435456 % 2 ^ 32) % 2 ^ 32 < 268435456
    · simp only [hov, if_true]; omega
    · simp only [hov, if_false]; omega
  · simp only [hcap, if_false]
    by_cases hov : (c0 + len / 64 % 2 ^ 32) % 2 ^ 32 < len / 64
    · simp only [hov, if_true]; omega
    · simp only [hov, if_false]; omega

theorem chacha_cipher_blocks_counter_spec (c0 c1 c2 c3 b : Nat) (hb : 1 ≤ b)
    (hb2 : c0 + b ≤ 2 ^ 32) (h1 : c1 < 2 ^ 32) :
    chacha_cipher_blocks_counter [c0, c1, c2, c3] ((c0 + b) % 2 ^ 32) =
      ctrWords (c0 + 2 ^ 32 * c1 + b) c2 c3 := by
  simp only [chacha_cipher_blocks_counter, ctrWords, u32, List.set_cons_zero, List.set_cons_succ,
    List.getD_cons_succ, List.getD_cons_zero]
  have e0 : (c0 + 2 ^ 32 * c1 + b) % 2 ^ 32 = (c0 + b) % 2 ^ 32 := by omega
  by_cases hz : (c0 + b) % 2 ^ 32 = 0
  · have e1 : (c0 + 2 ^ 32 * c1 + b) / 2 ^ 32 % 2 ^ 32 = (c1 + 1) % 2 ^ 32 := by omega
    simp only [hz, if_true, e0, e1]
  · have e1 : (c0 + 2 ^ 32 * c1 + b) / 2 ^ 32 % 2 ^ 32 = c1 := by omega
    simp only [hz, if_false, e0, e1]

theorem take_take_drop (l : List Nat) (a b : Nat) :
    l.take a ++ (l.drop a).take b = l.take (a + b) := by
  rw [List.take_add]

theorem chacha_cipher_blocks_eq (little : Bool) (key : List Nat) (c2 c3 : Nat) :
    ∀ (k N c0 c1 : Nat) (inp : List Nat), N ≤ k → 64 * N ≤ inp.length → c0 < 2 ^ 32 →
      c1 < 2 ^ 32 →
      chacha_cipher_blocks little key k (64 * N) c0 [c0, c1, c2, c3] inp =
        (ctrWords (c0 + 2 ^ 32 * c1 + N) c2 c3,
         xorStream (keystream little key c2 c3) (64 * (c0 + 2 ^ 32 * c1)) (inp.take (64 * N)),
         inp.drop (64 * N)) := by
  intro k
  induction k with
  | zero =>
    intro N c0 c1 inp hN _ h0 h1
    have : N = 0 := by omega
    subst this
    simp only [chacha_cipher_blocks, Nat.mul_zero, Nat.add_zero, List.take_zero, List.drop_zero,
      xorStream, ctrWords_of_lt _ _ _ _ h0 h1]
  | succ k ih =>
    intro N c0 c1 inp hN hlen h0 h1
    rw [chacha_cipher_blocks]
    by_cases hN0 : N = 0
    · subst hN0
      simp only [CHACHA_BLK_SIZE, Nat.mul_zero, ge_iff_le, Nat.le_zero_eq, OfNat.ofNat_ne_zero,
        if_false, Nat.add_zero, List.take_zero, List.drop_zero, xorStream,
        ctrWords_of_lt _ _ _ _ h0 h1]
    · have h64 : 64 ≤ 64 * N := by omega
      rw [if_pos (by simpa [CHACHA_BLK_SIZE] using h64)]
      obtain ⟨hb1, hb2, hb3, hb4⟩ := chacha_cipher_blocks_head_spec (64 * N) c0 h64 h0
      simp only [CHACHA_BLK_SIZE]
      generalize (chacha_cipher_blocks_head (64 * N) c0).1 = b at hb1 hb2 hb3 hb4 ⊢
      generalize (chacha_cipher_blocks_head (64 * N) c0).2 = c at hb4 ⊢
      subst hb4
      have hbN : b ≤ N := by omega
      rw [chacha_cipher_blocks_counter_spec c0 c1 c2 c3 b hb1 hb3 h1]
      have elen : 64 * N - b * 64 = 64 * (N - b) := by omega
      have ectr : (c0 + b) % 2 ^ 32 = (c0 + 2 ^ 32 * c1 + b) % 2 ^ 32 := by omega
      rw [elen, ectr]
      have hih := ih (N - b) ((c0 + 2 ^ 32 * c1 + b) % 2 ^ 32)
        ((c0 + 2 ^ 32 * c1 + b) / 2 ^ 32 % 2 ^ 32) (inp.drop (b * 64)) (by omega)
        (by rw [List.length_drop]; omega) (Nat.mod_lt _ (by norm_num)) (Nat.mod_lt _ (by norm_num))
      simp only [ctrWords] at hih ⊢
      rw [hih]
      have e64 : (c0 + 2 ^ 32 * c1 + b) % 2 ^ 32 + 2 ^ 32 * ((c0 + 2 ^ 32 * c1 + b) / 2 ^ 32 % 2 ^ 32)
          = (c0 + 2 ^ 32 * c1 + b) % 2 ^ 64 := by omega
      rw [e64]
      have ew := ctrWords_add_mod (c0 + 2 ^ 32 * c1 + b) (N - b) c2 c3
      simp only [ctrWords] at ew
      rw [ew, show c0 + 2 ^ 32 * c1 + b + (N - b) = c0 + 2 ^ 32 * c1 + N by omega]
      rw [ChaCha20_ctr32_keystream little _ key c0 c1 c2 c3 b h1 hb3
        (by rw [List.length_take]; omega) hb1]
      rw [List.drop_drop]
      rw [show b * 64 + 64 * (N - b) = 64 * N by omega]
      simp only []
      have est : xorStream (keystream little key c2 c3) (64 * ((c0 + 2 ^ 32 * c1 + b) % 2 ^ 64))
          (List.take (64 * (N - b)) (List.drop (b * 64) inp)) =
          xorStream (keystream little key c2 c3) (64 * (c0 + 2 ^ 32 * c1) + b * 64)
          (List.take (64 * (N - b)) (List.drop (b * 64) inp)) := by
        apply xorStream_congr
        intro i _
        rw [keystream_add_mod]
        congr 1; omega
      rw [est]
      have happ := xorStream_append (keystream little key c2 c3) (64 * (c0 + 2 ^ 32 * c1))
        (List.take (b * 64) inp) (List.take (64 * (N - b)) (List.drop (b * 64) inp))
      rw [List.length_take, Nat.min_eq_left (by omega), take_take_drop,
        show b * 64 + 64 * (N - b) = 64 * N by omega] at happ
      rw [happ]

/-! ## `chacha_cipher` in closed form -/

theorem counter_eq_of_wf (ctx : EVP_CHACHA_KEY) (h : ctx.wf) :
    ctx.counter = [ctx.counter.getD 0 0, ctx.counter.getD 1 0, ctx.counter.getD 2 0,
      ctx.counter.getD 3 0] := by
  obtain ⟨h4, _, _⟩ := h
  match hc : ctx.counter, h4 with
  | [a, b, c, d], _ => rfl

theorem keyblock_getD (little : Bool) (key : List Nat) (c2 c3 j i : Nat) (hi : i < 64) :
    (keyblock little key c2 c3 j).getD i 0 = keystream little key c2 c3 (64 * j + i) := by
  have e1 : (64 * j + i) / 64 = j := by omega
  have e2 : (64 * j + i) % 64 = i := by omega
  simp only [keystream, e1, e2]

theorem ChaCha20_ctr32_zeros (little : Bool) (key : List Nat) (j c2 c3 : Nat) :
    ChaCha20_ctr32 little (List.replicate 64 0) key (ctrWords j c2 c3) =
      keyblock little key c2 c3 j := by
  have hlt : j % 2 ^ 32 < 2 ^ 32 := Nat.mod_lt _ (by norm_num)
  rw [ChaCha20_ctr32_eq little _ key _ (by simpa [ctrWords] using hlt), xorStream_zeros]
  have hl : (keyblock little key c2 c3 j).length = 64 := chacha20_core_length _ _
  rw [← getD_range_map (keyblock little key c2 c3 j) 64 hl]
  apply List.map_congr_left
  intro i hi
  have hi' : i < 64 := List.mem_range.mp hi
  have e1 : (0 + i) / 64 = 0 := by omega
  have e2 : (0 + i) % 64 = i := by omega
  simp only [ctr32Stream, keyblock, ctrWords, List.getD_cons_zero, List.getD_cons_succ, e1, e2,
    Nat.add_zero, Nat.mod_mod]

theorem chacha_cipher_rest_eq (little : Bool) (ctx : EVP_CHACHA_KEY) (pre inp : List Nat)
    (h : ctx.wf) :
    chacha_cipher_rest little ctx pre inp =
      (1, restAfter little ctx inp.length,
        pre ++ xorStream (ctxKeystream little ctx) (64 * ctr64 ctx) inp) := by
  have hc := counter_eq_of_wf ctx h
  obtain ⟨_, h0, h1⟩ := h
  generalize ctx.counter.getD 0 0 = c0 at hc h0
  generalize ctx.counter.getD 1 0 = c1 at hc h1
  generalize hc2 : ctx.counter.getD 2 0 = c2 at hc
  generalize hc3 : ctx.counter.getD 3 0 = c3 at hc
  have hks : ctxKeystream little ctx = keystream little ctx.key c2 c3 := by
    funext p
    simp only [ctxKeystream, hc, List.getD_cons_zero, List.getD_cons_succ]
  have hN : inp.length - inp.length % 64 = 64 * (inp.length / 64) := by omega
  have hb := chacha_cipher_blocks_eq little ctx.key c2 c3 (64 * (inp.length / 64) / 64 + 1)
    (inp.length / 64) c0 c1 inp (by omega) (by omega) h0 h1
  unfold chacha_cipher_rest
  simp only [CHACHA_BLK_SIZE, hN, hc, List.getD_cons_zero, hb]
  have hsplit := xorStream_take_drop (keystream little ctx.key c2 c3) (64 * (c0 + 2 ^ 32 * c1))
    (64 * (inp.length / 64)) inp (by omega)
  by_cases hrem : inp.length % 64 = 0
  · simp only [hrem, ne_eq, not_true_eq_false, if_false]
    have hd : inp.drop (64 * (inp.length / 64)) = [] := by
      apply List.drop_eq_nil_of_le; omega
    rw [hd] at hsplit
    simp only [xorStream, List.append_nil] at hsplit
    simp only [restAfter, ctr64, hks, hc, List.getD_cons_zero, List.getD_cons_succ, hrem,
      ne_eq, not_true_eq_false, if_false, hsplit, List.append_assoc]
  · simp only [ne_eq, hrem, not_false_eq_true, if_true]
    rw [ChaCha20_ctr32_zeros]
    have hdl : (inp.drop (64 * (inp.length / 64))).length = inp.length % 64 := by
      rw [List.length_drop]; omega
    rw [range_xor_eq _ _ _ (by omega), ← hdl, List.take_length]
    have htail : xorStream
        (fun i => (keyblock little ctx.key c2 c3 (c0 + 2 ^ 32 * c1 + inp.length / 64)).getD i 0) 0
        (inp.drop (64 * (inp.length / 64))) =
        xorStream (keystream little ctx.key c2 c3)
          (64 * (c0 + 2 ^ 32 * c1) + 64 * (inp.length / 64))
          (inp.drop (64 * (inp.length / 64))) := by
      apply xorStream_congr
      intro i hi
      rw [keyblock_getD _ _ _ _ _ _ (by omega)]
      congr 1; omega
    rw [htail]
    simp only [restAfter, ctr64, hks, hc, List.getD_cons_zero, List.getD_cons_succ, hrem,
      ne_eq, not_false_eq_true, if_true, List.append_assoc, hsplit, hdl]

theorem chacha_cipher_drain_eq (buf : List Nat) :
    ∀ (inp : List Nat) (n : Nat), n ≤ 64 →
      chacha_cipher_drain buf n inp =
        (n + min inp.length (64 - n), xorStream (fun i => buf.getD i 0) n (inp.take (64 - n)),
          inp.drop (64 - n)) := by
  intro inp
  induction inp with
  | nil => intro n _; simp [chacha_cipher_drain, xorStream]
  | cons b inp ih =>
    intro n hn
    rw [chacha_cipher_drain]
    by_cases hlt : n < 64
    · rw [if_pos (by simpa [CHACHA_BLK_SIZE] using hlt), ih (n + 1) (by omega)]
      have e : 64 - n = (64 - (n + 1)) + 1 := by omega
      rw [e, List.take_succ_cons, List.drop_succ_cons, xorStream, List.length_cons]
      simp only [Prod.mk.injEq, and_true]
      omega
    · rw [if_neg (by simpa [CHACHA_BLK_SIZE] using hlt)]
      have e : 64 - n = 0 := by omega
      simp [e, xorStream]

theorem chacha_cipher_drain_big (buf : List Nat) (inp : List Nat) (n : Nat) (hn : 64 ≤ n) :
    chacha_cipher_drain buf n inp = (n, [], inp) := by
  cases inp with
  | nil => rfl
  | cons b inp =>
    rw [chacha_cipher_drain, if_neg (by simp [CHACHA_BLK_SIZE]; omega)]

theorem restAfter_zero (little : Bool) (ctx : EVP_CHACHA_KEY) (h : ctx.wf) :
    restAfter little ctx 0 = ctx := by
  have hc := counter_eq_of_wf ctx h
  obtain ⟨_, h0, h1⟩ := h
  cases ctx with
  | mk key counter buf pl =>
    simp only at hc h0 h1
    simp only [restAfter, ctr64, Nat.zero_div, Nat.add_zero, Nat.zero_mod, ne_eq, not_true_eq_false,
      if_false, ctrWords_of_lt _ _ _ _ h0 h1]
    rw [← hc]

theorem wf_bump (ctx : EVP_CHACHA_KEY) (j : Nat) :
    ({ ctx with
        partial_len := 0
        counter := ctrWords j (ctx.counter.getD 2 0) (ctx.counter.getD 3 0) } :
      EVP_CHACHA_KEY).wf := by
  refine ⟨rfl, ?_, ?_⟩
  · exact Nat.mod_lt _ (by norm_num)
  · exact Nat.mod_lt _ (by norm_num)

/-- The closed form of `chacha_cipher`: the call returns `1`, leaves the context
`ctxAfter` and xors the input with `ctxStream`, both of which depend on the
context and on the length of the input only. -/
theorem chacha_cipher_eq (little : Bool) (ctx : EVP_CHACHA_KEY) (inp : List Nat) (h : ctx.wf) :
    chacha_cipher little ctx inp =
      (1, ctxAfter little ctx inp.length, xorStream (ctxStream little ctx) 0 inp) := by
  unfold chacha_cipher
  by_cases hn0 : ctx.partial_len = 0
  · rw [if_neg (by simpa using hn0), chacha_cipher_rest_eq little ctx [] inp h]
    have hcond : ¬ (0 < ctx.partial_len ∧ ctx.partial_len ≤ 64) := by omega
    simp only [ctxAfter, hcond, if_false, List.nil_append, Prod.mk.injEq, true_and]
    apply xorStream_congr
    intro i _
    simp only [ctxStream, hcond, if_false, Nat.zero_add]
  · rw [if_pos hn0]
    by_cases hbig : 64 < ctx.partial_len
    · have hcond : ¬ (0 < ctx.partial_len ∧ ctx.partial_len ≤ 64) := by omega
      rw [chacha_cipher_drain_big _ _ _ (by omega)]
      have hne : ¬ ctx.partial_len = CHACHA_BLK_SIZE := by simp only [CHACHA_BLK_SIZE]; omega
      simp only [hne, if_false]
      have hstream : xorStream (ctxStream little ctx) 0 inp =
          xorStream (ctxKeystream little ctx) (64 * ctr64 ctx) inp := by
        apply xorStream_congr
        intro i _
        simp only [ctxStream, hcond, if_false, Nat.zero_add]
      by_cases hlen : inp.length = 0
      · have : inp = [] := List.length_eq_zero.mp hlen
        subst this
        simp only [List.length_nil, if_true, ctxAfter, hcond, if_false, restAfter_zero little ctx h,
          xorStream]
      · rw [if_neg hlen, chacha_cipher_rest_eq little ctx [] inp h]
        simp only [ctxAfter, hcond, if_false, List.nil_append, hstream]
    · have hcond : 0 < ctx.partial_len ∧ ctx.partial_len ≤ 64 := by omega
      rw [chacha_cipher_drain_eq _ _ _ (by omega)]
      simp only [List.length_drop]
      by_cases hlen : inp.length ≤ 64 - ctx.partial_len
      · have hz : inp.length - (64 - ctx.partial_len) = 0 := by omega
        rw [if_pos hz]
        simp only [ctxAfter, hcond, and_self, if_true, hlen, Nat.min_eq_left hlen,
          List.take_of_length_le hlen, Prod.mk.injEq, true_and]
        apply xorStream_congr
        intro i hi
        have : ctx.partial_len + i < 64 := by omega
        simp only [ctxStream, hcond, and_self, if_true, this, Nat.zero_add]
      · have hz : ¬ inp.length - (64 - ctx.partial_len) = 0 := by omega
        rw [if_neg hz]
        have hmin : ctx.partial_len + min inp.length (64 - ctx.partial_len) = CHACHA_BLK_SIZE := by
          simp only [CHACHA_BLK_SIZE]; omega
        simp only [hmin, if_true]
        have hc := counter_eq_of_wf ctx h
        have h0 := h.2.1
        have h1 := h.2.2
        have hcnt : (if u32 (ctx.counter.getD 0 0 + 1) = 0 then
              (ctx.counter.set 0 (u32 (ctx.counter.getD 0 0 + 1))).set 1
                (u32 ((ctx.counter.set 0 (u32 (ctx.counter.getD 0 0 + 1))).getD 1 0 + 1))
            else ctx.counter.set 0 (u32 (ctx.counter.getD 0 0 + 1))) =
            ctrWords (ctr64 ctx + 1) (ctx.counter.getD 2 0) (ctx.counter.getD 3 0) := by
          have := chacha_cipher_blocks_counter_spec (ctx.counter.getD 0 0) (ctx.counter.getD 1 0)
            (ctx.counter.getD 2 0) (ctx.counter.getD 3 0) 1 (Nat.le_refl _) (by omega) h1
          rw [← hc] at this
          simp only [chacha_cipher_blocks_counter] at this
          exact this
        rw [hcnt, chacha_cipher_rest_eq little _ _ _ (wf_bump ctx _)]
        simp only [ctxAfter, hcond, and_self, if_true, hlen, if_false, List.length_drop,
          Prod.mk.injEq, true_and]
        rw [← xorStream_take_drop (ctxStream little ctx) 0 (64 - ctx.partial_len) inp (by omega)]
        have e1 : xorStream (fun i => ctx.buf.getD i 0) ctx.partial_len
            (List.take (64 - ctx.partial_len) inp) =
            xorStream (ctxStream little ctx) 0 (List.take (64 - ctx.partial_len) inp) := by
          apply xorStream_congr
          intro i hi
          have : ctx.partial_len + i < 64 := by
            rw [List.length_take] at hi; omega
          simp only [ctxStream, hcond, and_self, if_true, this, Nat.zero_add]
        rw [e1]
        apply congrArg
        apply xorStream_congr
        intro i _
        have hnl : ¬ ctx.partial_len + (0 + (64 - ctx.partial_len) + i) < 64 := by omega
        simp only [ctxStream, hcond, and_self, if_true, hnl, if_false, ctxKeystream, ctr64,
          ctrWords, List.getD_cons_zero, List.getD_cons_succ]
        have e64 : (ctx.counter.getD 0 0 + 2 ^ 32 * ctx.counter.getD 1 0 + 1) % 2 ^ 32 +
            2 ^ 32 * ((ctx.counter.getD 0 0 + 2 ^ 32 * ctx.counter.getD 1 0 + 1) / 2 ^ 32 % 2 ^ 32)
            = (ctx.counter.getD 0 0 + 2 ^ 32 * ctx.counter.getD 1 0 + 1) % 2 ^ 64 := by omega
        rw [e64, keystream_add_mod]
        congr 1; omega

/-! ## Frame, position and synchronisation after a call -/

theorem ctrWords_getD (j c2 c3 : Nat) :
    (ctrWords j c2 c3).getD 0 0 = j % 2 ^ 32 ∧ (ctrWords j c2 c3).getD 1 0 = j / 2 ^ 32 % 2 ^ 32 ∧
    (ctrWords j c2 c3).getD 2 0 = c2 ∧ (ctrWords j c2 c3).getD 3 0 = c3 := ⟨rfl, rfl, rfl, rfl⟩

theorem restAfter_props (little : Bool) (ctx : EVP_CHACHA_KEY) (len : Nat) :
    (restAfter little ctx len).wf ∧
    (restAfter little ctx len).key = ctx.key ∧
    (restAfter little ctx len).counter.getD 2 0 = ctx.counter.getD 2 0 ∧
    (restAfter little ctx len).counter.getD 3 0 = ctx.counter.getD 3 0 ∧
    ctr64 (restAfter little ctx len) = (ctr64 ctx + len / 64) % 2 ^ 64 ∧
    (restAfter little ctx len).partial_len = (if len % 64 ≠ 0 then len % 64 else ctx.partial_len) ∧
    (len % 64 ≠ 0 → (restAfter little ctx len).buf =
      keyblock little ctx.key (ctx.counter.getD 2 0) (ctx.counter.getD 3 0)
        (ctr64 (restAfter little ctx len))) := by
  have hw : (restAfter little ctx len).wf :=
    ⟨rfl, Nat.mod_lt _ (by norm_num), Nat.mod_lt _ (by norm_num)⟩
  have h64 : ctr64 (restAfter little ctx len) = (ctr64 ctx + len / 64) % 2 ^ 64 := by
    simp only [ctr64, restAfter, ctrWords, List.getD_cons_zero, List.getD_cons_succ]
    omega
  refine ⟨hw, rfl, rfl, rfl, h64, rfl, ?_⟩
  intro hne
  rw [h64]
  simp only [restAfter, hne, if_true, keyblock, ctrWords_mod, ne_eq, not_false_eq_true]

theorem ctxAfter_frame (little : Bool) (ctx : EVP_CHACHA_KEY) (len : Nat) :
    (ctxAfter little ctx len).key = ctx.key ∧
    (ctxAfter little ctx len).counter.getD 2 0 = ctx.counter.getD 2 0 ∧
    (ctxAfter little ctx len).counter.getD 3 0 = ctx.counter.getD 3 0 := by
  unfold ctxAfter
  split
  · split
    · exact ⟨rfl, rfl, rfl⟩
    · exact ⟨rfl, rfl, rfl⟩
  · exact ⟨rfl, rfl, rfl⟩

theorem ctxAfter_wf (little : Bool) (ctx : EVP_CHACHA_KEY) (len : Nat) (h : ctx.wf) :
    (ctxAfter little ctx len).wf := by
  unfold ctxAfter
  split
  · split
    · exact h
    · exact (restAfter_props little _ _).1
  · exact (restAfter_props little _ _).1

theorem ctxAfter_partial_len_le (little : Bool) (ctx : EVP_CHACHA_KEY) (len : Nat)
    (h : ctx.partial_len ≤ 64) : (ctxAfter little ctx len).partial_len ≤ 64 := by
  unfold ctxAfter
  split
  · split
    · simp only; omega
    · rw [(restAfter_props little _ _).2.2.2.2.2.1]
      split
      · omega
      · simp
  · rw [(restAfter_props little _ _).2.2.2.2.2.1]
    split
    · omega
    · exact h

theorem ctxAfter_pos (little : Bool) (ctx : EVP_CHACHA_KEY) (len : Nat)
    (h : ctx.partial_len ≤ 64) :
    pos (ctxAfter little ctx len) % 2 ^ 70 = (pos ctx + len) % 2 ^ 70 := by
  unfold ctxAfter
  by_cases hcond : 0 < ctx.partial_len ∧ ctx.partial_len ≤ 64
  · rw [if_pos hcond]
    by_cases hlen : len ≤ 64 - ctx.partial_len
    · rw [if_pos hlen]
      simp only [pos, ctr64]
      omega
    · rw [if_neg hlen]
      obtain ⟨_, _, _, _, h64, hpl, _⟩ := restAfter_props little
        { ctx with
          partial_len := 0
          counter := ctrWords (ctr64 ctx + 1) (ctx.counter.getD 2 0) (ctx.counter.getD 3 0) }
        (len - (64 - ctx.partial_len))
      have hc1 : ctr64 { ctx with
          partial_len := 0
          counter := ctrWords (ctr64 ctx + 1) (ctx.counter.getD 2 0) (ctx.counter.getD 3 0) } =
          (ctr64 ctx + 1) % 2 ^ 64 := by
        simp only [ctr64, ctrWords, List.getD_cons_zero, List.getD_cons_succ]
        omega
      rw [hc1] at h64
      simp only [pos]
      rw [h64, hpl]
      simp only
      have hpl2 : (if (len - (64 - ctx.partial_len)) % 64 ≠ 0 then
          (len - (64 - ctx.partial_len)) % 64 else 0) = (len - (64 - ctx.partial_len)) % 64 := by
        split <;> omega
      rw [hpl2]
      omega
  · rw [if_neg hcond]
    obtain ⟨_, _, _, _, h64, hpl, _⟩ := restAfter_props little ctx len
    have h0 : ctx.partial_len = 0 := by omega
    simp only [pos]
    rw [h64, hpl, h0]
    have hpl2 : (if len % 64 ≠ 0 then len % 64 else 0) = len % 64 := by
      split <;> omega
    rw [hpl2]
    omega

theorem ctxAfter_synced (little : Bool) (ctx : EVP_CHACHA_KEY) (len : Nat)
    (h : Synced little ctx) : Synced little (ctxAfter little ctx len) := by
  obtain ⟨hwf, hle, hbuf⟩ := h
  refine ⟨ctxAfter_wf little ctx len hwf, ctxAfter_partial_len_le little ctx len hle, ?_⟩
  unfold ctxAfter
  by_cases hcond : 0 < ctx.partial_len ∧ ctx.partial_len ≤ 64
  · rw [if_pos hcond]
    by_cases hlen : len ≤ 64 - ctx.partial_len
    · rw [if_pos hlen]
      intro _
      exact hbuf hcond.1
    · rw [if_neg hlen]
      obtain ⟨_, hk, h2, h3, _, hpl, hb⟩ := restAfter_props little
        { ctx with
          partial_len := 0
          counter := ctrWords (ctr64 ctx + 1) (ctx.counter.getD 2 0) (ctx.counter.getD 3 0) }
        (len - (64 - ctx.partial_len))
      intro hp
      rw [hpl] at hp
      have hne : (len - (64 - ctx.partial_len)) % 64 ≠ 0 := by
        intro h0
        rw [if_neg (by simpa using h0)] at hp
        simp at hp
      rw [hk, h2, h3]
      exact hb hne
  · rw [if_neg hcond]
    obtain ⟨_, hk, h2, h3, _, hpl, hb⟩ := restAfter_props little ctx len
    intro hp
    rw [hpl] at hp
    have hne : len % 64 ≠ 0 := by
      intro h0
      rw [if_neg (by simpa using h0)] at hp
      omega
    rw [hk, h2, h3]
    exact hb hne

theorem keystream_mod (little : Bool) (key : List Nat) (c2 c3 p : Nat) :
    keystream little key c2 c3 (p % 2 ^ 70) = keystream little key c2 c3 p := by
  have e1 : p % 2 ^ 70 = 64 * ((p / 64) % 2 ^ 64) + p % 64 := by omega
  have e2 : 64 * (p / 64) + p % 64 = p := by omega
  rw [e1, keystream_add_mod, e2]

theorem keystream_congr_mod (little : Bool) (key : List Nat) (c2 c3 p q : Nat)
    (h : p % 2 ^ 70 = q % 2 ^ 70) :
    keystream little key c2 c3 p = keystream little key c2 c3 q := by
  rw [← keystream_mod little key c2 c3 p, h, keystream_mod]

theorem ctxKeystream_after (little : Bool) (ctx : EVP_CHACHA_KEY) (len : Nat) :
    ctxKeystream little (ctxAfter little ctx len) = ctxKeystream little ctx := by
  funext p
  obtain ⟨hk, h2, h3⟩ := ctxAfter_frame little ctx len
  simp only [ctxKeystream, hk, h2, h3]

/-- In a synchronised context the bytes a call applies are the keystream from
the stream position of the context on. -/
theorem ctxStream_synced (little : Bool) (ctx : EVP_CHACHA_KEY) (h : Synced little ctx)
    (q : Nat) : ctxStream little ctx q = ctxKeystream little ctx (pos ctx + q) := by
  obtain ⟨_, hle, hbuf⟩ := h
  unfold ctxStream
  by_cases hcond : 0 < ctx.partial_len ∧ ctx.partial_len ≤ 64
  · rw [if_pos hcond]
    by_cases hlt : ctx.partial_len + q < 64
    · rw [if_pos hlt, hbuf hcond.1, keyblock_getD _ _ _ _ _ _ hlt]
      simp only [ctxKeystream, pos]
      congr 1; omega
    · rw [if_neg hlt]
      simp only [ctxKeystream, pos]
      congr 1; omega
  · rw [if_neg hcond]
    have h0 : ctx.partial_len = 0 := by omega
    simp only [pos, h0, Nat.add_zero]

theorem chacha_cipher_synced (little : Bool) (ctx : EVP_CHACHA_KEY) (inp : List Nat)
    (h : Synced little ctx) :
    chacha_cipher little ctx inp =
      (1, ctxAfter little ctx inp.length, xorStream (ctxKeystream little ctx) (pos ctx) inp) := by
  rw [chacha_cipher_eq little ctx inp h.1]
  simp only [Prod.mk.injEq, true_and]
  apply xorStream_congr
  intro i _
  rw [Nat.zero_add]
  exact ctxStream_synced little ctx h i

theorem chacha_cipher_calls_synced (little : Bool) :
    ∀ (pieces : List (List Nat)) (ctx : EVP_CHACHA_KEY), Synced little ctx →
      (chacha_cipher_calls little ctx pieces).2 =
        xorStream (ctxKeystream little ctx) (pos ctx) pieces.flatten := by
  intro pieces
  induction pieces with
  | nil => intro ctx _; rfl
  | cons p ps ih =>
    intro ctx h
    simp only [chacha_cipher_calls, chacha_cipher_synced little ctx p h, List.flatten_cons,
      xorStream_append]
    rw [ih _ (ctxAfter_synced little ctx p.length h), ctxKeystream_after]
    apply congrArg
    apply xorStream_congr
    intro i _
    apply keystream_congr_mod
    have := ctxAfter_pos little ctx p.length h.2.1
    omega

/-! ## Initialisation -/

theorem chacha_init_key_synced (little : Bool) (ctx : EVP_CHACHA_KEY)
    (user_key : Option (List Nat)) (iv : List Nat) (enc : Int) :
    Synced little (chacha_init_key ctx user_key (some iv) enc).2 := by
  refine ⟨⟨rfl, ?_, ?_⟩, Nat.zero_le _, ?_⟩
  · exact Nat.mod_lt _ (by norm_num)
  · exact Nat.mod_lt _ (by norm_num)
  · intro h
    exact absurd h (Nat.lt_irrefl 0)


theorem chacha_cipher_zero_block (little : Bool) (ctx : EVP_CHACHA_KEY) (h : ctx.wf)
    (hp : ctx.partial_len = 0) :
    (chacha_cipher little ctx (List.replicate 64 0)).2.2 =
      keyblock little ctx.key (ctx.counter.getD 2 0) (ctx.counter.getD 3 0) (ctr64 ctx) := by
  have hs : Synced little ctx := ⟨h, by omega, fun h0 => absurd h0 (by omega)⟩
  rw [chacha_cipher_synced little ctx _ hs, xorStream_zeros]
  have hl : (keyblock little ctx.key (ctx.counter.getD 2 0) (ctx.counter.getD 3 0)
      (ctr64 ctx)).length = 64 := chacha20_core_length _ _
  simp only
  rw [← getD_range_map _ 64 hl]
  apply List.map_congr_left
  intro i hi
  have hi' : i < 64 := List.mem_range.mp hi
  rw [keyblock_getD _ _ _ _ _ _ hi']
  simp only [ctxKeystream, pos, hp, Nat.add_zero]


theorem ChaCha20_ctr32_input_eq (key counter : List Nat) :
    ChaCha20_ctr32_input key counter =
      [0x61707865, 0x3320646e, 0x79622d32, 0x6b206574,
       key.getD 0 0, key.getD 1 0, key.getD 2 0, key.getD 3 0,
       key.getD 4 0, key.getD 5 0, key.getD 6 0, key.getD 7 0,
       counter.getD 0 0, counter.getD 1 0, counter.getD 2 0, counter.getD 3 0] := by
  simp only [ChaCha20_ctr32_input, List.cons.injEq, and_true, true_and]
  decide

theorem ctxAfter_of_partial_len_zero (little : Bool) (ctx : EVP_CHACHA_KEY) (len : Nat)
    (hp : ctx.partial_len = 0) : ctxAfter little ctx len = restAfter little ctx len := by
  unfold ctxAfter
  rw [if_neg (by omega)]

theorem ctxStream_of_partial_len_zero (little : Bool) (ctx : EVP_CHACHA_KEY) (q : Nat)
    (hp : ctx.partial_len = 0) :
    ctxStream little ctx q = ctxKeystream little ctx (64 * ctr64 ctx + q) := by
  unfold ctxStream
  rw [if_neg (by omega)]

/-- From a block boundary, byte `i` of output block `j` is input byte xor byte
`i` of the keystream block of the 64-bit counter advanced by `j`. -/
theorem chacha_cipher_block_getD (little : Bool) (s : EVP_CHACHA_KEY) (inp : List Nat)
    (hs : s.wf) (hp : s.partial_len = 0) (j i : Nat) (hi : i < 64)
    (hj : 64 * j + i < inp.length) :
    (chacha_cipher little s inp).2.2.getD (64 * j + i) 0 =
      inp.getD (64 * j + i) 0 ^^^
        (keyblock little s.key (s.counter.getD 2 0) (s.counter.getD 3 0) (ctr64 s + j)).getD i 0 := by
  rw [chacha_cipher_eq little s inp hs]
  simp only
  rw [xorStream_getD _ _ _ _ hj, Nat.zero_add, ctxStream_of_partial_len_zero little s _ hp,
    keyblock_getD _ _ _ _ _ _ hi]
  simp only [ctxKeystream]
  congr 2; omega

/-- After calls whose lengths are all multiples of 64, from a block boundary:
the 64-bit counter has advanced by the number of blocks and nothing is
buffered. -/
theorem chacha_cipher_calls_counter (little : Bool) :
    ∀ (pieces : List (List Nat)) (s : EVP_CHACHA_KEY), s.wf → s.partial_len = 0 →
      (∀ p ∈ pieces, p.length % 64 = 0) →
      (chacha_cipher_calls little s pieces).1.counter =
        ctrWords (ctr64 s + (pieces.map List.length).sum / 64) (s.counter.getD 2 0)
          (s.counter.getD 3 0) ∧
      (chacha_cipher_calls little s pieces).1.partial_len = 0 := by
  intro pieces
  induction pieces with
  | nil =>
    intro s hs hp _
    have hc := counter_eq_of_wf s hs
    refine ⟨?_, hp⟩
    simp only [chacha_cipher_calls, List.map_nil, List.sum_nil, Nat.zero_div, Nat.add_zero, ctr64,
      ctrWords_of_lt _ _ _ _ hs.2.1 hs.2.2]
    exact hc
  | cons p ps ih =>
    intro s hs hp hm
    have hpm : p.length % 64 = 0 := hm p (List.mem_cons_self _ _)
    simp only [chacha_cipher_calls, chacha_cipher_eq little s p hs,
      ctxAfter_of_partial_len_zero little s _ hp]
    obtain ⟨hw, _, h2, h3, h64, hpl, _⟩ := restAfter_props little s p.length
    have hpl0 : (restAfter little s p.length).partial_len = 0 := by
      rw [hpl, if_neg (by simpa using hpm), hp]
    obtain ⟨e1, e2⟩ := ih (restAfter little s p.length) hw hpl0
      (fun q hq => hm q (List.mem_cons_of_mem _ hq))
    refine ⟨?_, e2⟩
    rw [e1, h2, h3, h64, ctrWords_add_mod, List.map_cons, List.sum_cons]
    congr 1; omega

/-! ## Bytes and words -/

theorem getD_lt_of_forall (l : List Nat) (n : Nat) (h : ∀ b ∈ l, b < 256) : l.getD n 0 < 256 := by
  rw [List.getD_eq_getElem?_getD]
  cases hn : l[n]? with
  | none => simp
  | some b =>
    simp only [Option.getD_some]
    exact h b (List.getElem?_mem hn)

theorem CHACHA_U8TOU32_eq (p : List Nat) (h : ∀ b ∈ p, b < 256) :
    CHACHA_U8TOU32 p =
      p.getD 0 0 + 2 ^ 8 * p.getD 1 0 + 2 ^ 16 * p.getD 2 0 + 2 ^ 24 * p.getD 3 0 := by
  have ha := getD_lt_of_forall p 0 h
  have hb := getD_lt_of_forall p 1 h
  have hc := getD_lt_of_forall p 2 h
  have hd := getD_lt_of_forall p 3 h
  simp only [CHACHA_U8TOU32, u32, Nat.shiftLeft_eq]
  generalize p.getD 0 0 = a at ha ⊢
  generalize p.getD 1 0 = b at hb ⊢
  generalize p.getD 2 0 = c at hc ⊢
  generalize p.getD 3 0 = d at hd ⊢
  have eb : b * 2 ^ 8 % 2 ^ 32 = 2 ^ 8 * b := by omega
  have ec : c * 2 ^ 16 % 2 ^ 32 = 2 ^ 16 * c := by omega
  have ed : d * 2 ^ 24 % 2 ^ 32 = 2 ^ 24 * d := by omega
  rw [eb, ec, ed]
  have h1 : a ||| 2 ^ 8 * b = 2 ^ 8 * b + a := by
    rw [Nat.or_comm]; exact (Nat.mul_add_lt_is_or (by omega) b).symm
  have h2 : (2 ^ 8 * b + a) ||| 2 ^ 16 * c = 2 ^ 16 * c + (2 ^ 8 * b + a) := by
    rw [Nat.or_comm]; exact (Nat.mul_add_lt_is_or (by omega) c).symm
  have h3 : (2 ^ 16 * c + (2 ^ 8 * b + a)) ||| 2 ^ 24 * d =
      2 ^ 24 * d + (2 ^ 16 * c + (2 ^ 8 * b + a)) := by
    rw [Nat.or_comm]; exact (Nat.mul_add_lt_is_or (by omega) d).symm
  rw [h1, h2, h3]
  omega

theorem getD_range_map_fun (f : Nat → Nat) (n j : Nat) (hj : j < n) :
    ((List.range n).map f).getD j 0 = f j := by
  simp [List.getD_eq_getElem?_getD, List.getElem?_range hj]

theorem getD_drop (l : List Nat) (i j : Nat) : (l.drop i).getD j 0 = l.getD (i + j) 0 := by
  simp only [List.getD_eq_getElem?_getD, List.getElem?_drop]

theorem chacha_cipher_rest_partial_len (little : Bool) (ctx : EVP_CHACHA_KEY)
    (pre inp : List Nat) :
    (chacha_cipher_rest little ctx pre inp).2.1.partial_len =
      if inp.length % 64 ≠ 0 then inp.length % 64 else ctx.partial_len := by
  unfold chacha_cipher_rest
  simp only [CHACHA_BLK_SIZE]
  split <;> rfl

theorem chacha_cipher_drain_fst (buf : List Nat) (inp : List Nat) (n : Nat) :
    (chacha_cipher_drain buf n inp).1 = n + min inp.length (64 - n) ∧
    (chacha_cipher_drain buf n inp).2.2.length = inp.length - (64 - n) := by
  by_cases hn : n ≤ 64
  · rw [chacha_cipher_drain_eq buf inp n hn]
    simp
  · rw [chacha_cipher_drain_big buf inp n (by omega)]
    simp only
    omega

theorem chacha20_core_rounds_eq (input : List Nat) :
    chacha20_core_rounds input = chacha20_core_body^[10] (input.take 16) := by
  simp only [chacha20_core_rounds, chacha20_core_loop, gt_iff_lt, Nat.lt_add_one,
    Nat.reduceSub, Nat.reduceLT, if_true, Function.iterate_succ, Function.iterate_zero,
    Function.comp, id]

theorem U32TO8_LITTLE_eq (v : Nat) : U32TO8_LITTLE v = littleEndian32 v := by
  simp only [U32TO8_LITTLE, littleEndian32, u8, Nat.shiftRight_eq_div_pow, Nat.pow_zero,
    Nat.div_one]

/-! ## Reading a list after a store -/

theorem getD_set_self (x : List Nat) (i v : Nat) (h : i < x.length) :
    (x.set i v).getD i 0 = v := by
  simp only [List.getD_eq_getElem?_getD, List.getElem?_set_self h, Option.getD_some]

theorem getD_set_ne (x : List Nat) (i j v : Nat) (h : i ≠ j) :
    (x.set i v).getD j 0 = x.getD j 0 := by
  simp only [List.getD_eq_getElem?_getD, List.getElem?_set_ne h]

/-! ## Frame of `chacha_cipher` -/

theorem chacha_cipher_blocks_counter_frame (counter : List Nat) (ctr32 : Nat) :
    (chacha_cipher_blocks_counter counter ctr32).length = counter.length ∧
    (chacha_cipher_blocks_counter counter ctr32).getD 2 0 = counter.getD 2 0 ∧
    (chacha_cipher_blocks_counter counter ctr32).getD 3 0 = counter.getD 3 0 := by
  unfold chacha_cipher_blocks_counter
  simp only
  split
  · refine ⟨by simp, ?_, ?_⟩
    · rw [getD_set_ne _ 1 2 _ (by decide), getD_set_ne _ 0 2 _ (by decide)]
    · rw [getD_set_ne _ 1 3 _ (by decide), getD_set_ne _ 0 3 _ (by decide)]
  · refine ⟨by simp, ?_, ?_⟩
    · rw [getD_set_ne _ 0 2 _ (by decide)]
    · rw [getD_set_ne _ 0 3 _ (by decide)]

theorem chacha_cipher_blocks_frame (little : Bool) (key : List Nat) :
    ∀ (k len ctr32 : Nat) (counter inp : List Nat),
      (chacha_cipher_blocks little key k len ctr32 counter inp).1.length = counter.length ∧
      (chacha_cipher_blocks little key k len ctr32 counter inp).1.getD 2 0 = counter.getD 2 0 ∧
      (chacha_cipher_blocks little key k len ctr32 counter inp).1.getD 3 0 = counter.getD 3 0 := by
  intro k
  induction k with
  | zero => intro len ctr32 counter inp; exact ⟨rfl, rfl, rfl⟩
  | succ k ih =>
    intro len ctr32 counter inp
    rw [chacha_cipher_blocks]
    split
    · simp only
      obtain ⟨h1, h2, h3⟩ := ih (len - (chacha_cipher_blocks_head len ctr32).1 * CHACHA_BLK_SIZE)
        (chacha_cipher_blocks_head len ctr32).2
        (chacha_cipher_blocks_counter counter (chacha_cipher_blocks_head len ctr32).2)
        (inp.drop ((chacha_cipher_blocks_head len ctr32).1 * CHACHA_BLK_SIZE))
      obtain ⟨g1, g2, g3⟩ := chacha_cipher_blocks_counter_frame counter
        (chacha_cipher_blocks_head len ctr32).2
      exact ⟨h1.trans g1, h2.trans g2, h3.trans g3⟩
    · exact ⟨rfl, rfl, rfl⟩

theorem chacha_cipher_rest_frame (little : Bool) (ctx : EVP_CHACHA_KEY) (pre inp : List Nat) :
    (chacha_cipher_rest little ctx pre inp).2.1.key = ctx.key ∧
    (chacha_cipher_rest little ctx pre inp).2.1.counter.length = ctx.counter.length ∧
    (chacha_cipher_rest little ctx pre inp).2.1.counter.getD 2 0 = ctx.counter.getD 2 0 ∧
    (chacha_cipher_rest little ctx pre inp).2.1.counter.getD 3 0 = ctx.counter.getD 3 0 := by
  unfold chacha_cipher_rest
  simp only
  split
  · exact ⟨rfl, chacha_cipher_blocks_frame little ctx.key _ _ _ _ _⟩
  · exact ⟨rfl, chacha_cipher_blocks_frame little ctx.key _ _ _ _ _⟩

theorem chacha_cipher_frame (little : Bool) (ctx : EVP_CHACHA_KEY) (inp : List Nat) :
    (chacha_cipher little ctx inp).2.1.key = ctx.key ∧
    (chacha_cipher little ctx inp).2.1.counter.length = ctx.counter.length ∧
    (chacha_cipher little ctx inp).2.1.counter.getD 2 0 = ctx.counter.getD 2 0 ∧
    (chacha_cipher little ctx inp).2.1.counter.getD 3 0 = ctx.counter.getD 3 0 := by
  unfold chacha_cipher
  split
  · simp only
    split
    · exact ⟨rfl, rfl, rfl, rfl⟩
    · split
      · obtain ⟨h1, h2, h3, h4⟩ := chacha_cipher_rest_frame little
          { key := ctx.key,
            counter := (if u32 (ctx.counter.getD 0 0 + 1) = 0 then
                (ctx.counter.set 0 (u32 (ctx.counter.getD 0 0 + 1))).set 1
                  (u32 ((ctx.counter.set 0 (u32 (ctx.counter.getD 0 0 + 1))).getD 1 0 + 1))
              else ctx.counter.set 0 (u32 (ctx.counter.getD 0 0 + 1))),
            buf := ctx.buf, partial_len := 0 }
          (chacha_cipher_drain ctx.buf ctx.partial_len inp).2.1
          (chacha_cipher_drain ctx.buf ctx.partial_len inp).2.2
        obtain ⟨g1, g2, g3⟩ := chacha_cipher_blocks_counter_frame ctx.counter
          (u32 (ctx.counter.getD 0 0 + 1))
        simp only [chacha_cipher_blocks_counter] at g1 g2 g3
        exact ⟨h1, h2.trans g1, h3.trans g2, h4.trans g3⟩
      · exact chacha_cipher_rest_frame little _ _ _
  · exact chacha_cipher_rest_frame little ctx [] inp

theorem chacha_cipher_calls_frame (little : Bool) :
    ∀ (pieces : List (List Nat)) (ctx : EVP_CHACHA_KEY),
      (chacha_cipher_calls little ctx pieces).1.key = ctx.key ∧
      (chacha_cipher_calls little ctx pieces).1.counter.length = ctx.counter.length ∧
      (chacha_cipher_calls little ctx pieces).1.counter.getD 2 0 = ctx.counter.getD 2 0 ∧
      (chacha_cipher_calls little ctx pieces).1.counter.getD 3 0 = ctx.counter.getD 3 0 := by
  intro pieces
  induction pieces with
  | nil => intro ctx; exact ⟨rfl, rfl, rfl, rfl⟩
  | cons p ps ih =>
    intro ctx
    simp only [chacha_cipher_calls]
    obtain ⟨h1, h2, h3, h4⟩ := ih (chacha_cipher little ctx p).2.1
    obtain ⟨g1, g2, g3, g4⟩ := chacha_cipher_frame little ctx p
    exact ⟨h1.trans g1, h2.trans g2, h3.trans g3, h4.trans g4⟩

theorem chacha_cipher_calls_wf (little : Bool) :
    ∀ (pieces : List (List Nat)) (ctx : EVP_CHACHA_KEY), ctx.wf →
      (chacha_cipher_calls little ctx pieces).1.wf := by
  intro pieces
  induction pieces with
  | nil => intro ctx h; exact h
  | cons p ps ih =>
    intro ctx h
    simp only [chacha_cipher_calls]
    apply ih
    rw [chacha_cipher_eq little ctx p h]
    exact ctxAfter_wf little ctx p.length h

/-- The 64-bit counter after a call has advanced by some number `k` of blocks,
at most one more than the whole blocks of the input. -/
theorem ctxAfter_ctr64 (little : Bool) (ctx : EVP_CHACHA_KEY) (len : Nat) (h : ctx.wf) :
    ∃ k, k ≤ len / 64 + 1 ∧ ctr64 (ctxAfter little ctx len) = (ctr64 ctx + k) % 2 ^ 64 := by
  have h0 := h.2.1
  have h1 := h.2.2
  unfold ctxAfter
  by_cases hcond : 0 < ctx.partial_len ∧ ctx.partial_len ≤ 64
  · rw [if_pos hcond]
    by_cases hlen : len ≤ 64 - ctx.partial_len
    · rw [if_pos hlen]
      refine ⟨0, by omega, ?_⟩
      simp only [ctr64]
      omega
    · rw [if_neg hlen]
      refine ⟨1 + (len - (64 - ctx.partial_len)) / 64, by omega, ?_⟩
      rw [(restAfter_props little _ _).2.2.2.2.1]
      simp only [ctr64, ctrWords, List.getD_cons_zero, List.getD_cons_succ]
      omega
  · rw [if_neg hcond]
    refine ⟨len / 64, by omega, ?_⟩
    exact (restAfter_props little _ _).2.2.2.2.1

/-! ## The mixing rounds are a permutation -/

theorem QUARTERROUND_eq_steps (a b c d : Nat) (x : List Nat) :
    QUARTERROUND a b c d x =
      xorRotStep b c 7 (addStep c d (xorRotStep d a 8 (addStep a b
        (xorRotStep b c 12 (addStep c d (xorRotStep d a 16 (addStep a b x))))))) := rfl

/-- A rotation by one of the amounts that occur, as arithmetic. -/
theorem ROTATE_eq (v n : Nat) (hv : v < 2 ^ 32)
    (hn : n = 7 ∨ n = 8 ∨ n = 12 ∨ n = 16 ∨ n = 20 ∨ n = 24 ∨ n = 25) :
    ROTATE v n = 2 ^ n * (v % 2 ^ (32 - n)) + v / 2 ^ (32 - n) := by
  simp only [ROTATE, u32, Nat.shiftLeft_eq, Nat.shiftRight_eq_div_pow]
  rcases hn with h | h | h | h | h | h | h <;> subst h
  · rw [show v * 2 ^ 7 % 2 ^ 32 = 2 ^ 7 * (v % 2 ^ (32 - 7)) by omega]
    exact (Nat.mul_add_lt_is_or (by omega) _).symm
  · rw [show v * 2 ^ 8 % 2 ^ 32 = 2 ^ 8 * (v % 2 ^ (32 - 8)) by omega]
    exact (Nat.mul_add_lt_is_or (by omega) _).symm
  · rw [show v * 2 ^ 12 % 2 ^ 32 = 2 ^ 12 * (v % 2 ^ (32 - 12)) by omega]
    exact (Nat.mul_add_lt_is_or (by omega) _).symm
  · rw [show v * 2 ^ 16 % 2 ^ 32 = 2 ^ 16 * (v % 2 ^ (32 - 16)) by omega]
    exact (Nat.mul_add_lt_is_or (by omega) _).symm
  · rw [show v * 2 ^ 20 % 2 ^ 32 = 2 ^ 20 * (v % 2 ^ (32 - 20)) by omega]
    exact (Nat.mul_add_lt_is_or (by omega) _).symm
  · rw [show v * 2 ^ 24 % 2 ^ 32 = 2 ^ 24 * (v % 2 ^ (32 - 24)) by omega]
    exact (Nat.mul_add_lt_is_or (by omega) _).symm
  · rw [show v * 2 ^ 25 % 2 ^ 32 = 2 ^ 25 * (v % 2 ^ (32 - 25)) by omega]
    exact (Nat.mul_add_lt_is_or (by omega) _).symm

theorem ROTATE_lt (v n : Nat) (hv : v < 2 ^ 32)
    (hn : n = 7 ∨ n = 8 ∨ n = 12 ∨ n = 16 ∨ n = 20 ∨ n = 24 ∨ n = 25) :
    ROTATE v n < 2 ^ 32 := by
  rw [ROTATE_eq v n hv hn]
  rcases hn with h | h | h | h | h | h | h <;> subst h <;> omega

theorem ROTATE_ROTATE (v n : Nat) (hv : v < 2 ^ 32)
    (hn : n = 7 ∨ n = 8 ∨ n = 12 ∨ n = 16 ∨ n = 20 ∨ n = 24 ∨ n = 25) :
    ROTATE (ROTATE v n) (32 - n) = v := by
  have hlt := ROTATE_lt v n hv hn
  have hn' : 32 - n = 7 ∨ 32 - n = 8 ∨ 32 - n = 12 ∨ 32 - n = 16 ∨ 32 - n = 20 ∨
      32 - n = 24 ∨ 32 - n = 25 := by omega
  rw [ROTATE_eq _ (32 - n) hlt hn']
  rw [ROTATE_eq v n hv hn] at hlt ⊢
  rcases hn with h | h | h | h | h | h | h <;> subst h <;> omega

theorem set_getD_self (x : List Nat) (a : Nat) (h : a < x.length) :
    x.set a (x.getD a 0) = x := by
  apply List.ext_getElem?
  intro j
  by_cases hj : a = j
  · subst hj
    rw [List.getElem?_set_self h, List.getD_eq_getElem?_getD, List.getElem?_eq_getElem h]
    rfl
  · rw [List.getElem?_set_ne hj]

theorem set_mem_Words (n : Nat) (x : List Nat) (i v : Nat) (hx : x ∈ Words n)
    (hv : v < 2 ^ 32) : x.set i v ∈ Words n := by
  obtain ⟨hl, hb⟩ := hx
  refine ⟨by rw [List.length_set, hl], ?_⟩
  intro j hj
  by_cases hij : i = j
  · subst hij
    rw [getD_set_self x i v (by omega)]
    exact hv
  · rw [getD_set_ne x i j v hij]
    exact hb j hj

theorem addStep_bijOn (n i j : Nat) (hi : i < n) (hj : j < n) (hij : i ≠ j) :
    Set.BijOn (addStep i j) (Words n) (Words n) := by
  have hmk : Set.InvOn (subStep i j) (addStep i j) (Words n) (Words n) →
      Set.MapsTo (addStep i j) (Words n) (Words n) →
      Set.MapsTo (subStep i j) (Words n) (Words n) →
      Set.BijOn (addStep i j) (Words n) (Words n) := fun h h1 h2 => h.bijOn h1 h2
  refine hmk ⟨?_, ?_⟩ ?_ ?_
  · intro x hx
    have hl : i < x.length := by rw [hx.1]; exact hi
    have bi := hx.2 i hi
    have bj := hx.2 j hj
    simp only [subStep, addStep, getD_set_self _ _ _ hl, getD_set_ne _ _ _ _ hij, List.set_set,
      u32]
    rw [show ((x.getD i 0 + x.getD j 0) % 2 ^ 32 + 2 ^ 32 - x.getD j 0) % 2 ^ 32 = x.getD i 0 by
      omega]
    exact set_getD_self x i hl
  · intro x hx
    have hl : i < x.length := by rw [hx.1]; exact hi
    have bi := hx.2 i hi
    have bj := hx.2 j hj
    simp only [subStep, addStep, getD_set_self _ _ _ hl, getD_set_ne _ _ _ _ hij, List.set_set,
      u32]
    rw [show ((x.getD i 0 + 2 ^ 32 - x.getD j 0) % 2 ^ 32 + x.getD j 0) % 2 ^ 32 = x.getD i 0 by
      omega]
    exact set_getD_self x i hl
  · intro x hx
    exact set_mem_Words n x i _ hx (Nat.mod_lt _ (by norm_num))
  · intro x hx
    exact set_mem_Words n x i _ hx (Nat.mod_lt _ (by norm_num))

theorem xor_xor_cancel (a b : Nat) : (a ^^^ b) ^^^ b = a := by
  rw [Nat.xor_assoc, Nat.xor_self, Nat.xor_zero]

theorem xorRotStep_bijOn (n i j r : Nat) (hi : i < n) (hj : j < n) (hij : i ≠ j)
    (hr : r = 7 ∨ r = 8 ∨ r = 12 ∨ r = 16) :
    Set.BijOn (xorRotStep i j r) (Words n) (Words n) := by
  have hr1 : r = 7 ∨ r = 8 ∨ r = 12 ∨ r = 16 ∨ r = 20 ∨ r = 24 ∨ r = 25 := by omega
  have hr2 : 32 - r = 7 ∨ 32 - r = 8 ∨ 32 - r = 12 ∨ 32 - r = 16 ∨ 32 - r = 20 ∨ 32 - r = 24 ∨
      32 - r = 25 := by omega
  have hrr : 32 - (32 - r) = r := by omega
  have hmk : Set.InvOn (rotXorStep i j r) (xorRotStep i j r) (Words n) (Words n) →
      Set.MapsTo (xorRotStep i j r) (Words n) (Words n) →
      Set.MapsTo (rotXorStep i j r) (Words n) (Words n) →
      Set.BijOn (xorRotStep i j r) (Words n) (Words n) := fun h h1 h2 => h.bijOn h1 h2
  refine hmk ⟨?_, ?_⟩ ?_ ?_
  · intro x hx
    have hl : i < x.length := by rw [hx.1]; exact hi
    have bx : x.getD i 0 ^^^ x.getD j 0 < 2 ^ 32 := Nat.xor_lt_two_pow (hx.2 i hi) (hx.2 j hj)
    simp only [rotXorStep, xorRotStep, getD_set_self _ _ _ hl, getD_set_ne _ _ _ _ hij,
      List.set_set]
    rw [ROTATE_ROTATE _ r bx hr1, xor_xor_cancel]
    exact set_getD_self x i hl
  · intro x hx
    have hl : i < x.length := by rw [hx.1]; exact hi
    simp only [rotXorStep, xorRotStep, getD_set_self _ _ _ hl, getD_set_ne _ _ _ _ hij,
      List.set_set]
    rw [xor_xor_cancel]
    have := ROTATE_ROTATE (x.getD i 0) (32 - r) (hx.2 i hi) hr2
    rw [hrr] at this
    rw [this]
    exact set_getD_self x i hl
  · intro x hx
    exact set_mem_Words n x i _ hx
      (ROTATE_lt _ r (Nat.xor_lt_two_pow (hx.2 i hi) (hx.2 j hj)) hr1)
  · intro x hx
    exact set_mem_Words n x i _ hx
      (Nat.xor_lt_two_pow (ROTATE_lt _ (32 - r) (hx.2 i hi) hr2) (hx.2 j hj))

theorem QUARTERROUND_bijOn (n a b c d : Nat) (ha : a < n) (hb : b < n) (hc : c < n) (hd : d < n)
    (hab : a ≠ b) (hbc : b ≠ c) (hcd : c ≠ d) (hda : d ≠ a) :
    Set.BijOn (QUARTERROUND a b c d) (Words n) (Words n) := by
  have h1 := addStep_bijOn n a b ha hb hab
  have h2 := xorRotStep_bijOn n d a 16 hd ha hda (by omega)
  have h3 := addStep_bijOn n c d hc hd hcd
  have h4 := xorRotStep_bijOn n b c 12 hb hc hbc (by omega)
  have h6 := xorRotStep_bijOn n d a 8 hd ha hda (by omega)
  have h8 := xorRotStep_bijOn n b c 7 hb hc hbc (by omega)
  have := h8.comp (h3.comp (h6.comp (h1.comp (h4.comp (h3.comp (h2.comp h1))))))
  refine this.congr ?_
  intro x _
  rfl

theorem chacha20_core_body_bijOn : Set.BijOn chacha20_core_body (Words 16) (Words 16) := by
  have q1 := QUARTERROUND_bijOn 16 0 4 8 12 (by decide) (by decide) (by decide) (by decide)
    (by decide) (by decide) (by decide) (by decide)
  have q2 := QUARTERROUND_bijOn 16 1 5 9 13 (by decide) (by decide) (by decide) (by decide)
    (by decide) (by decide) (by decide) (by decide)
  have q3 := QUARTERROUND_bijOn 16 2 6 10 14 (by decide) (by decide) (by decide) (by decide)
    (by decide) (by decide) (by decide) (by decide)
  have q4 := QUARTERROUND_bijOn 16 3 7 11 15 (by decide) (by decide) (by decide) (by decide)
    (by decide) (by decide) (by decide) (by decide)
  have q5 := QUARTERROUND_bijOn 16 0 5 10 15 (by decide) (by decide) (by decide) (by decide)
    (by decide) (by decide) (by decide) (by decide)
  have q6 := QUARTERROUND_bijOn 16 1 6 11 12 (by decide) (by decide) (by decide) (by decide)
    (by decide) (by decide) (by decide) (by decide)
  have q7 := QUARTERROUND_bijOn 16 2 7 8 13 (by decide) (by decide) (by decide) (by decide)
    (by decide) (by decide) (by decide) (by decide)
  have q8 := QUARTERROUND_bijOn 16 3 4 9 14 (by decide) (by decide) (by decide) (by decide)
    (by decide) (by decide) (by decide) (by decide)
  have := q8.comp (q7.comp (q6.comp (q5.comp (q4.comp (q3.comp (q2.comp q1))))))
  refine this.congr ?_
  intro x _
  simp only [Function.comp, chacha20_core_body]

theorem chacha20_core_rounds_bijOn : Set.BijOn chacha20_core_rounds (Words 16) (Words 16) := by
  refine (chacha20_core_body_bijOn.iterate 10).congr ?_
  intro x hx
  rw [chacha20_core_rounds_eq, List.take_of_length_le (by rw [hx.1])]

/-! ## Reading and storing in a memory -/

theorem memRead_length (mem : Mem) (p len : Nat) : (memRead mem p len).length = len := by
  simp [memRead]

theorem memRead_getD (mem : Mem) (p len i : Nat) (h : i < len) :
    (memRead mem p len).getD i 0 = mem (p + i) := by
  simp [memRead, List.getD_eq_getElem?_getD, List.getElem?_range h]

theorem memRead_congr (m1 m2 : Mem) (p len : Nat) (h : ∀ i, i < len → m1 (p + i) = m2 (p + i)) :
    memRead m1 p len = memRead m2 p len := by
  unfold memRead
  apply List.map_congr_left
  intro i hi
  exact h i (List.mem_range.mp hi)

theorem list_ext_getD (l1 l2 : List Nat) (hl : l1.length = l2.length)
    (h : ∀ i, i < l1.length → l1.getD i 0 = l2.getD i 0) : l1 = l2 := by
  apply List.ext_getElem hl
  intro i h1 h2
  have := h i h1
  rw [List.getD_eq_getElem?_getD, List.getD_eq_getElem?_getD, List.getElem?_eq_getElem h1,
    List.getElem?_eq_getElem h2] at this
  exact this

theorem getD_of_length_le (l : List Nat) (i : Nat) (h : l.length ≤ i) : l.getD i 0 = 0 := by
  rw [List.getD_eq_getElem?_getD, List.getElem?_eq_none h]; rfl

theorem getD_take (l : List Nat) (t i : Nat) (h : i < t) : (l.take t).getD i 0 = l.getD i 0 := by
  simp only [List.getD_eq_getElem?_getD, List.getElem?_take, h, if_true]

theorem memRead_drop (mem : Mem) (p len t : Nat) :
    (memRead mem p len).drop t = memRead mem (p + t) (len - t) := by
  apply list_ext_getD
  · simp only [List.length_drop, memRead_length]
  · intro i hi
    simp only [List.length_drop, memRead_length] at hi
    rw [getD_drop, memRead_getD _ _ _ _ (by omega), memRead_getD _ _ _ _ hi, Nat.add_assoc]

theorem memRead_take (mem : Mem) (p len t : Nat) (h : t ≤ len) :
    (memRead mem p len).take t = memRead mem p t := by
  apply list_ext_getD
  · simp only [List.length_take, memRead_length]; omega
  · intro i hi
    simp only [List.length_take, memRead_length] at hi
    rw [getD_take _ _ _ (by omega), memRead_getD _ _ _ _ (by omega),
      memRead_getD _ _ _ _ (by omega)]

theorem memRead_succ (mem : Mem) (p len : Nat) :
    memRead mem p (len + 1) = mem p :: memRead mem (p + 1) len := by
  apply list_ext_getD
  · simp only [List.length_cons, memRead_length]
  · intro i hi
    simp only [memRead_length] at hi
    rw [memRead_getD _ _ _ _ hi]
    cases i with
    | zero => rfl
    | succ i =>
      rw [List.getD_cons_succ, memRead_getD _ _ _ _ (by omega)]
      congr 1; omega

theorem memBlit_nil (mem : Mem) (p : Nat) : memBlit mem p [] = mem := by
  funext a
  simp only [memBlit, List.length_nil, Nat.add_zero]
  rw [if_neg (by omega)]

theorem memBlit_outside (mem : Mem) (p : Nat) (l : List Nat) (a : Nat)
    (h : a < p ∨ p + l.length ≤ a) : memBlit mem p l a = mem a := by
  simp only [memBlit]
  rw [if_neg (by omega)]

theorem memBlit_inside (mem : Mem) (p : Nat) (l : List Nat) (i : Nat) (h : i < l.length) :
    memBlit mem p l (p + i) = l.getD i 0 := by
  simp only [memBlit]
  rw [if_pos (by omega), Nat.add_sub_cancel_left]

theorem getD_append_left (l1 l2 : List Nat) (i : Nat) (h : i < l1.length) :
    (l1 ++ l2).getD i 0 = l1.getD i 0 := by
  simp only [List.getD_eq_getElem?_getD, List.getElem?_append_left h]

theorem getD_append_right (l1 l2 : List Nat) (i : Nat) (h : l1.length ≤ i) :
    (l1 ++ l2).getD i 0 = l2.getD (i - l1.length) 0 := by
  simp only [List.getD_eq_getElem?_getD, List.getElem?_append_right h]

theorem memBlit_append (mem : Mem) (p : Nat) (l1 l2 : List Nat) :
    memBlit (memBlit mem p l1) (p + l1.length) l2 = memBlit mem p (l1 ++ l2) := by
  funext a
  simp only [memBlit, List.length_append]
  by_cases h2 : p + l1.length ≤ a ∧ a < p + l1.length + l2.length
  · rw [if_pos h2, if_pos (by omega), getD_append_right _ _ _ (by omega)]
    congr 1; omega
  · rw [if_neg h2]
    by_cases h1 : p ≤ a ∧ a < p + l1.length
    · rw [if_pos h1, if_pos (by omega), getD_append_left _ _ _ (by omega)]
    · rw [if_neg h1, if_neg (by omega)]

theorem memRead_blit (mem : Mem) (p : Nat) (l : List Nat) :
    memRead (memBlit mem p l) p l.length = l := by
  apply list_ext_getD
  · exact memRead_length _ _ _
  · intro i hi
    rw [memRead_length] at hi
    rw [memRead_getD _ _ _ _ hi, memBlit_inside _ _ _ _ hi]

/-- After `t` bytes were stored at `out`, the input from byte `t` on is what it
was, when no store reaches a byte still to be loaded. -/
theorem memRead_blit_rest (mem : Mem) (out inp len : Nat) (l : List Nat)
    (h : NoClobber out inp len) (hl : l.length ≤ len) :
    memRead (memBlit mem out l) (inp + l.length) (len - l.length) =
      memRead mem (inp + l.length) (len - l.length) := by
  apply memRead_congr
  intro i hi
  apply memBlit_outside
  unfold NoClobber at h
  omega

theorem NoClobber_advance (out inp len t : Nat) (h : NoClobber out inp len) (ht : t ≤ len) :
    NoClobber (out + t) (inp + t) (len - t) := by
  unfold NoClobber at h ⊢
  omega

theorem NoClobber_mono (out inp len t : Nat) (h : NoClobber out inp len) (ht : t ≤ len) :
    NoClobber out inp t := by
  unfold NoClobber at h ⊢
  omega

/-! ## The copying loop -/

theorem xor_loop_mem_eq (buf : List Nat) (out inp : Nat) :
    ∀ (k i : Nat) (mem : Mem),
      (∀ j j', i ≤ j → j < j' → j' < i + k → out + j ≠ inp + j') →
      xor_loop_mem buf out inp k i mem =
        fun a => if out + i ≤ a ∧ a < out + i + k then
          mem (inp + (a - out)) ^^^ buf.getD (a - out) 0 else mem a := by
  intro k
  induction k with
  | zero =>
    intro i mem _
    funext a
    simp only [xor_loop_mem, Nat.add_zero]
    rw [if_neg (by omega)]
  | succ k ih =>
    intro i mem h
    rw [xor_loop_mem, ih (i + 1) _ (fun j j' h1 h2 h3 => h j j' (by omega) h2 (by omega))]
    funext a
    by_cases h1 : out + (i + 1) ≤ a ∧ a < out + (i + 1) + k
    · rw [if_pos h1, if_pos (by omega)]
      have hne : inp + (a - out) ≠ out + i := by
        have := h i (a - out) (Nat.le_refl _) (by omega) (by omega)
        omega
      simp only [memWrite, hne, if_false]
    · rw [if_neg h1]
      by_cases h2 : a = out + i
      · subst h2
        simp only [memWrite, if_true]
        rw [if_pos (by omega), Nat.add_sub_cancel_left]
      · simp only [memWrite, h2, if_false]
        rw [if_neg (by omega)]

/-- When no store reaches a byte still to be loaded, the copying loop leaves
in `out[0..todo)` the input bytes xored with `buf`, as the list model has it. -/
theorem xor_loop_mem_blit (buf : List Nat) (mem : Mem) (out inp len todo : Nat)
    (h : NoClobber out inp len) (ht : todo ≤ len) :
    xor_loop_mem buf out inp todo 0 mem =
      memBlit mem out
        ((List.range todo).map (fun i => (memRead mem inp len).getD i 0 ^^^ buf.getD i 0)) := by
  rw [xor_loop_mem_eq buf out inp todo 0 mem (by
    intro j j' _ h2 h3
    unfold NoClobber at h
    omega)]
  funext a
  simp only [memBlit, List.length_map, List.length_range, Nat.add_zero]
  by_cases ha : out ≤ a ∧ a < out + todo
  · rw [if_pos ha, if_pos ha, getD_range_map_fun _ todo (a - out) (by omega),
      memRead_getD _ _ _ _ (by omega)]
  · rw [if_neg ha, if_neg ha]

/-! ## `ChaCha20_ctr32` on the memory -/

theorem ChaCha20_ctr32_loop_length (little : Bool) :
    ∀ (k : Nat) (input inp : List Nat), inp.length ≤ k →
      (ChaCha20_ctr32_loop little k input inp).length = inp.length := by
  intro k
  induction k with
  | zero =>
    intro input inp h
    have : inp = [] := List.length_eq_zero.mp (by omega)
    subst this; rfl
  | succ k ih =>
    intro input inp h
    rw [ChaCha20_ctr32_loop]
    split
    · simp only [List.length_append, List.length_map, List.length_range]
      rw [ih _ _ (by rw [List.length_drop]; split <;> omega), List.length_drop]
      split <;> omega
    · simp only [List.length_nil]; omega

theorem ChaCha20_ctr32_length (little : Bool) (inp key counter : List Nat) :
    (ChaCha20_ctr32 little inp key counter).length = inp.length :=
  ChaCha20_ctr32_loop_length little _ _ _ (Nat.le_refl _)

theorem ChaCha20_ctr32_loop_mem_eq (little : Bool) :
    ∀ (k : Nat) (input : List Nat) (out inp len : Nat) (mem : Mem), len ≤ k →
      NoClobber out inp len →
      ChaCha20_ctr32_loop_mem little k input out inp len mem =
        memBlit mem out (ChaCha20_ctr32_loop little k input (memRead mem inp len)) := by
  intro k
  induction k with
  | zero =>
    intro input out inp len mem h _
    have : len = 0 := by omega
    subst this
    simp only [ChaCha20_ctr32_loop_mem, ChaCha20_ctr32_loop, memBlit_nil]
  | succ k ih =>
    intro input out inp len mem h hnc
    rw [ChaCha20_ctr32_loop_mem, ChaCha20_ctr32_loop]
    simp only [memRead_length]
    by_cases hpos : len > 0
    · rw [if_pos hpos, if_pos hpos]
      generalize htodo : (if len < 64 then len else 64) = todo
      have ht : todo ≤ len := by rw [← htodo]; split <;> omega
      have ht1 : 1 ≤ todo := by rw [← htodo]; split <;> omega
      rw [xor_loop_mem_blit _ mem out inp len todo hnc ht]
      generalize hchunk : List.map (fun i => (memRead mem inp len).getD i 0 ^^^
        (chacha20_core little input).getD i 0) (List.range todo) = chunk
      have hcl : chunk.length = todo := by rw [← hchunk]; simp
      rw [ih _ _ _ _ _ (by omega) (NoClobber_advance out inp len todo hnc ht)]
      have hrest := memRead_blit_rest mem out inp len chunk hnc (by omega)
      rw [hcl] at hrest
      rw [hrest, ← memRead_drop, ← memBlit_append, hcl]
    · rw [if_neg hpos, if_neg hpos, memBlit_nil]

theorem ChaCha20_ctr32_mem_eq (little : Bool) (mem : Mem) (out inp len : Nat)
    (key counter : List Nat) (h : NoClobber out inp len) :
    ChaCha20_ctr32_mem little mem out inp len key counter =
      memBlit mem out (ChaCha20_ctr32 little (memRead mem inp len) key counter) := by
  unfold ChaCha20_ctr32_mem ChaCha20_ctr32
  rw [memRead_length]
  exact ChaCha20_ctr32_loop_mem_eq little len _ out inp len mem (Nat.le_refl _) h

/-! ## `chacha_cipher` on the memory -/

theorem memBlit_cons (mem : Mem) (p v : Nat) (l : List Nat) :
    memBlit (memWrite mem p v) (p + 1) l = memBlit mem p (v :: l) := by
  funext a
  simp only [memBlit, memWrite, List.length_cons]
  by_cases h2 : p + 1 ≤ a ∧ a < p + 1 + l.length
  · rw [if_pos h2, if_pos (by omega)]
    have : a - p = (a - (p + 1)) + 1 := by omega
    rw [this, List.getD_cons_succ]
  · rw [if_neg h2]
    by_cases h1 : a = p
    · subst h1
      rw [if_pos rfl, if_pos (by omega), Nat.sub_self, List.getD_cons_zero]
    · rw [if_neg h1, if_neg (by omega)]

theorem chacha_cipher_drain_all (buf inp : List Nat) (n : Nat) :
    chacha_cipher_drain buf n inp =
      (n + min inp.length (64 - n), xorStream (fun i => buf.getD i 0) n (inp.take (64 - n)),
        inp.drop (64 - n)) := by
  by_cases hn : n ≤ 64
  · exact chacha_cipher_drain_eq buf inp n hn
  · rw [chacha_cipher_drain_big buf inp n (by omega)]
    have : 64 - n = 0 := by omega
    simp only [this, Nat.min_zero, Nat.add_zero, List.take_zero, List.drop_zero, xorStream]

theorem chacha_cipher_drain_mem_eq (buf : List Nat) :
    ∀ (len n out inp : Nat) (mem : Mem), NoClobber out inp len →
      chacha_cipher_drain_mem buf len n out inp mem =
        (n + min len (64 - n), len - min len (64 - n), out + min len (64 - n),
          inp + min len (64 - n),
          memBlit mem out
            (xorStream (fun i => buf.getD i 0) n (memRead mem inp (min len (64 - n))))) := by
  intro len
  induction len with
  | zero =>
    intro n out inp mem _
    simp only [chacha_cipher_drain_mem, Nat.zero_min, Nat.add_zero, Nat.sub_zero, memRead,
      List.range_zero, List.map_nil, xorStream, memBlit_nil]
  | succ len ih =>
    intro n out inp mem hnc
    rw [chacha_cipher_drain_mem]
    by_cases hlt : n < 64
    · rw [if_pos (by simpa [CHACHA_BLK_SIZE] using hlt)]
      have hnc' : NoClobber (out + 1) (inp + 1) len := by
        unfold NoClobber at hnc ⊢; omega
      rw [ih (n + 1) (out + 1) (inp + 1) _ hnc']
      have ht : min (len + 1) (64 - n) = min len (64 - (n + 1)) + 1 := by omega
      rw [ht]
      obtain ⟨t', ht', htl⟩ : ∃ t', min len (64 - (n + 1)) = t' ∧ t' ≤ len :=
        ⟨_, rfl, by omega⟩
      rw [ht']
      have hread : memRead (memWrite mem out (mem inp ^^^ buf.getD n 0)) (inp + 1) t' =
          memRead mem (inp + 1) t' := by
        apply memRead_congr
        intro i _
        simp only [memWrite]
        rw [if_neg]
        unfold NoClobber at hnc
        omega
      rw [hread, memBlit_cons, memRead_succ, xorStream]
      simp only [Prod.mk.injEq, and_true]
      omega
    · rw [if_neg (by simpa [CHACHA_BLK_SIZE] using hlt)]
      have : min (len + 1) (64 - n) = 0 := by omega
      simp only [this, Nat.add_zero, Nat.sub_zero, memRead, List.range_zero, List.map_nil,
        xorStream, memBlit_nil]

theorem chacha_cipher_blocks_head_bounds (len ctr32 : Nat) (hlen : 64 ≤ len) :
    1 ≤ (chacha_cipher_blocks_head len ctr32).1 ∧
    (chacha_cipher_blocks_head len ctr32).1 ≤ len / 64 := by
  have e28 : 1 <<< 28 = 268435456 := by decide
  simp only [chacha_cipher_blocks_head, CHACHA_BLK_SIZE, u32, e28]
  by_cases hcap : len / 64 > 268435456
  · simp only [hcap, if_true]
    by_cases hov : (ctr32 + 268435456 % 2 ^ 32) % 2 ^ 32 < 268435456
    · simp only [hov, if_true]; omega
    · simp only [hov, if_false]; omega
  · simp only [hcap, if_false]
    by_cases hov : (ctr32 + len / 64 % 2 ^ 32) % 2 ^ 32 < len / 64
    · simp only [hov, if_true]; omega
    · simp only [hov, if_false]; omega

theorem chacha_cipher_blocks_mem_eq (little : Bool) (key : List Nat) :
    ∀ (k len ctr32 : Nat) (counter : List Nat) (out inp total : Nat) (mem : Mem),
      len % 64 = 0 → len / 64 ≤ k → len ≤ total → NoClobber out inp total →
      chacha_cipher_blocks_mem little key k len ctr32 counter out inp mem =
        ((chacha_cipher_blocks little key k len ctr32 counter (memRead mem inp total)).1,
          out + len, inp + len,
          memBlit mem out
            (chacha_cipher_blocks little key k len ctr32 counter (memRead mem inp total)).2.1) ∧
      (chacha_cipher_blocks little key k len ctr32 counter (memRead mem inp total)).2.1.length =
        len ∧
      (chacha_cipher_blocks little key k len ctr32 counter (memRead mem inp total)).2.2 =
        memRead mem (inp + len) (total - len) := by
  intro k
  induction k with
  | zero =>
    intro len ctr32 counter out inp total mem hm hk _ _
    have : len = 0 := by omega
    subst this
    simp only [chacha_cipher_blocks_mem, chacha_cipher_blocks, memBlit_nil, Nat.add_zero,
      List.length_nil, Nat.sub_zero, and_self]
  | succ k ih =>
    intro len ctr32 counter out inp total mem hm hk htot hnc
    rw [chacha_cipher_blocks_mem, chacha_cipher_blocks]
    by_cases hge : len ≥ 64
    · rw [if_pos (by simpa [CHACHA_BLK_SIZE] using hge),
        if_pos (by simpa [CHACHA_BLK_SIZE] using hge)]
      obtain ⟨hb1, hb2⟩ := chacha_cipher_blocks_head_bounds len ctr32 hge
      simp only [CHACHA_BLK_SIZE]
      generalize (chacha_cipher_blocks_head len ctr32).1 = nb at hb1 hb2 ⊢
      generalize (chacha_cipher_blocks_head len ctr32).2 = c'
      have hb : nb * 64 ≤ len := by omega
      rw [ChaCha20_ctr32_mem_eq little mem out inp (nb * 64) key counter
        (NoClobber_mono out inp total _ hnc (by omega))]
      rw [memRead_take mem inp total (nb * 64) (by omega), memRead_drop]
      generalize ho1 : ChaCha20_ctr32 little (memRead mem inp (nb * 64)) key counter = o1
      have hl1 : o1.length = nb * 64 := by
        rw [← ho1, ChaCha20_ctr32_length, memRead_length]
      have hrest : memRead (memBlit mem out o1) (inp + nb * 64) (total - nb * 64) =
          memRead mem (inp + nb * 64) (total - nb * 64) := by
        have := memRead_blit_rest mem out inp total o1 hnc (by omega)
        rw [hl1] at this
        exact this
      obtain ⟨e1, e2, e3⟩ := ih (len - nb * 64) c' (chacha_cipher_blocks_counter counter c')
        (out + nb * 64) (inp + nb * 64) (total - nb * 64) (memBlit mem out o1) (by omega)
        (by omega) (by omega) (NoClobber_advance out inp total _ hnc (by omega))
      rw [hrest] at e1 e2 e3
      rw [e1]
      refine ⟨?_, ?_, ?_⟩
      · simp only [Prod.mk.injEq, true_and]
        refine ⟨by omega, by omega, ?_⟩
        rw [← memBlit_append, hl1]
      · rw [List.length_append, hl1, e2]; omega
      · rw [e3]
        have hfr : memRead (memBlit mem out o1) (inp + nb * 64 + (len - nb * 64))
            (total - nb * 64 - (len - nb * 64)) =
            memRead mem (inp + nb * 64 + (len - nb * 64)) (total - nb * 64 - (len - nb * 64)) := by
          apply memRead_congr
          intro i hi
          apply memBlit_outside
          unfold NoClobber at hnc
          omega
        rw [hfr]
        congr 1
        · omega
        · omega
    · have : len = 0 := by omega
      subst this
      simp only [CHACHA_BLK_SIZE, ge_iff_le, Nat.le_zero_eq, OfNat.ofNat_ne_zero, if_false,
        memBlit_nil, Nat.add_zero, List.length_nil, Nat.sub_zero, and_self]

theorem memRead_take_min (mem : Mem) (p len t : Nat) :
    (memRead mem p len).take t = memRead mem p (min len t) := by
  by_cases h : t ≤ len
  · rw [memRead_take mem p len t h, Nat.min_eq_right h]
  · rw [List.take_of_length_le (by rw [memRead_length]; omega), Nat.min_eq_left (by omega)]

theorem memRead_drop_min (mem : Mem) (p len t : Nat) :
    (memRead mem p len).drop t = memRead mem (p + min len t) (len - min len t) := by
  by_cases h : t ≤ len
  · rw [memRead_drop, Nat.min_eq_right h]
  · rw [List.drop_of_length_le (by rw [memRead_length]; omega), Nat.min_eq_left (by omega),
      Nat.sub_self]
    rfl

theorem chacha_cipher_rest_pre (little : Bool) (ctx : EVP_CHACHA_KEY) (pre inp : List Nat) :
    chacha_cipher_rest little ctx pre inp =
      ((chacha_cipher_rest little ctx [] inp).1, (chacha_cipher_rest little ctx [] inp).2.1,
        pre ++ (chacha_cipher_rest little ctx [] inp).2.2) := by
  simp only [chacha_cipher_rest]
  by_cases hr : inp.length % CHACHA_BLK_SIZE ≠ 0
  · simp only [if_pos hr, List.nil_append, List.append_assoc]
  · simp only [if_neg hr, List.nil_append]

theorem memRead_zeroed (buf : List Nat) :
    memRead (fun a => if a < CHACHA_BLK_SIZE then 0 else buf.getD a 0) 0 CHACHA_BLK_SIZE =
      List.replicate CHACHA_BLK_SIZE 0 := by
  apply list_ext_getD
  · simp only [memRead_length, List.length_replicate]
  · intro i hi
    rw [memRead_length] at hi
    rw [memRead_getD _ _ _ _ hi]
    simp only [Nat.zero_add, if_pos hi, List.getD_eq_getElem?_getD, List.getElem?_replicate,
      if_pos hi, Option.getD_some]

theorem chacha_cipher_rest_mem_eq (little : Bool) (ctx : EVP_CHACHA_KEY) (mem : Mem)
    (out inp len : Nat) (h : NoClobber out inp len) :
    chacha_cipher_rest_mem little ctx mem out inp len =
      ((chacha_cipher_rest little ctx [] (memRead mem inp len)).1,
        (chacha_cipher_rest little ctx [] (memRead mem inp len)).2.1,
        memBlit mem out (chacha_cipher_rest little ctx [] (memRead mem inp len)).2.2) ∧
    (chacha_cipher_rest little ctx [] (memRead mem inp len)).2.2.length = len := by
  simp only [chacha_cipher_rest_mem, chacha_cipher_rest, memRead_length, List.nil_append]
  obtain ⟨e1, e2, e3⟩ := chacha_cipher_blocks_mem_eq little ctx.key
    ((len - len % CHACHA_BLK_SIZE) / CHACHA_BLK_SIZE + 1) (len - len % CHACHA_BLK_SIZE)
    (ctx.counter.getD 0 0) ctx.counter out inp len mem
    (by simp only [CHACHA_BLK_SIZE]; omega) (by simp only [CHACHA_BLK_SIZE]; omega) (by omega) h
  rw [e1]
  generalize chacha_cipher_blocks little ctx.key
    ((len - len % CHACHA_BLK_SIZE) / CHACHA_BLK_SIZE + 1) (len - len % CHACHA_BLK_SIZE)
    (ctx.counter.getD 0 0) ctx.counter (memRead mem inp len) = r at e2 e3 ⊢
  by_cases hr : len % CHACHA_BLK_SIZE ≠ 0
  · simp only [if_pos hr]
    have hb : memRead (ChaCha20_ctr32_mem little
        (fun a => if a < CHACHA_BLK_SIZE then 0 else ctx.buf.getD a 0) 0 0 CHACHA_BLK_SIZE
        ctx.key r.1) 0 CHACHA_BLK_SIZE =
        ChaCha20_ctr32 little (List.replicate CHACHA_BLK_SIZE 0) ctx.key r.1 := by
      rw [ChaCha20_ctr32_mem_eq little _ 0 0 CHACHA_BLK_SIZE ctx.key r.1 (Or.inl (Nat.le_refl 0)),
        memRead_zeroed]
      generalize hX : ChaCha20_ctr32 little (List.replicate CHACHA_BLK_SIZE 0) ctx.key r.1 = X
      have hl : X.length = CHACHA_BLK_SIZE := by
        rw [← hX, ChaCha20_ctr32_length, List.length_replicate]
      have := memRead_blit (fun a => if a < CHACHA_BLK_SIZE then 0 else ctx.buf.getD a 0) 0 X
      rw [hl] at this
      exact this
    rw [hb]
    generalize ChaCha20_ctr32 little (List.replicate CHACHA_BLK_SIZE 0) ctx.key r.1 = buf
    have hlt : len - (len - len % CHACHA_BLK_SIZE) = len % CHACHA_BLK_SIZE := by
      have := Nat.mod_le len CHACHA_BLK_SIZE
      omega
    have hnc := NoClobber_advance out inp len (len - len % CHACHA_BLK_SIZE) h (by omega)
    rw [hlt] at hnc e3
    rw [xor_loop_mem_blit buf _ _ _ (len % CHACHA_BLK_SIZE) (len % CHACHA_BLK_SIZE) hnc
      (Nat.le_refl _)]
    have hrest : memRead (memBlit mem out r.2.1) (inp + (len - len % CHACHA_BLK_SIZE))
        (len % CHACHA_BLK_SIZE) = r.2.2 := by
      rw [e3]
      have := memRead_blit_rest mem out inp len r.2.1 h (by omega)
      rw [e2, hlt] at this
      exact this
    rw [hrest]
    refine ⟨?_, ?_⟩
    · have := memBlit_append mem out r.2.1
        (List.map (fun i => r.2.2.getD i 0 ^^^ buf.getD i 0) (List.range (len % CHACHA_BLK_SIZE)))
      rw [e2] at this
      rw [this]
    · rw [List.length_append, e2, List.length_map, List.length_range]
      have := Nat.mod_le len CHACHA_BLK_SIZE
      omega
  · simp only [if_neg hr]
    refine ⟨trivial, ?_⟩
    rw [e2]
    omega

theorem chacha_cipher_mem_eq (little : Bool) (ctx : EVP_CHACHA_KEY) (mem : Mem)
    (out inp len : Nat) (h : NoClobber out inp len) :
    chacha_cipher_mem little ctx mem out inp len =
      ((chacha_cipher little ctx (memRead mem inp len)).1,
        (chacha_cipher little ctx (memRead mem inp len)).2.1,
        memBlit mem out (chacha_cipher little ctx (memRead mem inp len)).2.2) ∧
    (chacha_cipher little ctx (memRead mem inp len)).2.2.length = len := by
  simp only [chacha_cipher_mem, chacha_cipher]
  by_cases hp : ctx.partial_len ≠ 0
  · simp only [if_pos hp]
    rw [chacha_cipher_drain_mem_eq ctx.buf len ctx.partial_len out inp mem h,
      chacha_cipher_drain_all, memRead_take_min, memRead_drop_min]
    simp only [memRead_length]
    generalize ht : min len (64 - ctx.partial_len) = t
    have htl : t ≤ len := by omega
    generalize hX : xorStream (fun i => ctx.buf.getD i 0) ctx.partial_len (memRead mem inp t) = X
    have hXl : X.length = t := by rw [← hX, xorStream_length, memRead_length]
    by_cases hz : len - t = 0
    · simp only [hz, if_true]
      refine ⟨trivial, ?_⟩
      rw [hXl]; omega
    · simp only [if_neg hz]
      generalize (if ctx.partial_len + t = CHACHA_BLK_SIZE then
        ({ key := ctx.key,
           counter :=
            if u32 (ctx.counter.getD 0 0 + 1) = 0 then
              (ctx.counter.set 0 (u32 (ctx.counter.getD 0 0 + 1))).set 1
                (u32 ((ctx.counter.set 0 (u32 (ctx.counter.getD 0 0 + 1))).getD 1 0 + 1))
            else ctx.counter.set 0 (u32 (ctx.counter.getD 0 0 + 1)),
           buf := ctx.buf, partial_len := 0 } : EVP_CHACHA_KEY)
        else { key := ctx.key, counter := ctx.counter, buf := ctx.buf,
               partial_len := ctx.partial_len + t }) = ctx2
      rw [chacha_cipher_rest_pre]
      obtain ⟨g1, g2⟩ := chacha_cipher_rest_mem_eq little ctx2 (memBlit mem out X) (out + t)
        (inp + t) (len - t) (NoClobber_advance out inp len t h htl)
      have hrest : memRead (memBlit mem out X) (inp + t) (len - t) =
          memRead mem (inp + t) (len - t) := by
        have := memRead_blit_rest mem out inp len X h (by omega)
        rw [hXl] at this
        exact this
      rw [hrest] at g1 g2
      rw [g1]
      refine ⟨?_, ?_⟩
      · have := memBlit_append mem out X
          (chacha_cipher_rest little ctx2 [] (memRead mem (inp + t) (len - t))).2.2
        rw [hXl] at this
        rw [this]
      · rw [List.length_append, hXl, g2]; omega
  · simp only [if_neg hp]
    exact chacha_cipher_rest_mem_eq little ctx mem out inp len h

/-- The memory model tells overlapping buffers from coinciding ones: with
`out = inp + 1` the second load of the copying loop sees the first store, and
the two bytes written differ from the ones an in-place run writes. -/
theorem xor_loop_mem_overlap :
    memRead (xor_loop_mem [1, 2] 1 0 2 0 (fun _ => 0)) 1 2 = [1, 3] ∧
    memRead (xor_loop_mem [1, 2] 0 0 2 0 (fun _ => 0)) 0 2 = [1, 2] := by
  decide

/-! ## The claims -/

/-- C1 (chunking invariance): from the context that `chacha_init_key` leaves for
any key and iv, the concatenation of the outputs of `chacha_cipher` on the
pieces `p1, ..., pk` of a message, called in order with the context threaded
through, is the output of one call on the whole message `p1 ++ ... ++ pk`.
Pieces may have any length, zero included. -/
theorem chunking_invariance (little : Bool) (ctx : EVP_CHACHA_KEY) (key iv : List Nat) (enc : Int)
    (pieces : List (List Nat)) :
    (chacha_cipher_calls little (chacha_init_key ctx (some key) (some iv) enc).2 pieces).2 =
      (chacha_cipher little (chacha_init_key ctx (some key) (some iv) enc).2 pieces.flatten).2.2 := by
  have hs := chacha_init_key_synced little ctx (some key) iv enc
  rw [chacha_cipher_calls_synced little pieces _ hs, chacha_cipher_synced little _ _ hs]

/-- C2 (self-inverse): for every well-formed context `s` and every message `m`,
`chacha_cipher` applied from `s` to the output of `chacha_cipher` on `m` from
the same `s` gives back `m`. -/
theorem self_inverse (little : Bool) (s : EVP_CHACHA_KEY) (hs : s.wf) (m : List Nat) :
    (chacha_cipher little s (chacha_cipher little s m).2.2).2.2 = m := by
  rw [chacha_cipher_eq little s m hs, chacha_cipher_eq little s _ hs]
  exact xorStream_involutive _ _ _

theorem self_inverse_witness :
    (chacha_cipher true
        (chacha_init_key ⟨[], [], [], 0⟩ (some (List.range 32)) (some (List.range 16)) 1).2
        (chacha_cipher true
          (chacha_init_key ⟨[], [], [], 0⟩ (some (List.range 32)) (some (List.range 16)) 1).2
          [1, 2, 3]).2.2).2.2 = [1, 2, 3] :=
  self_inverse true _ (by decide) [1, 2, 3]

set_option maxRecDepth 100000 in
/-- C3 (known answer, RFC 7539 section 2.3.2): with the key bytes `00 01 ... 1f`
and the iv bytes `01 00 00 00 | 00 00 00 09 | 00 00 00 4a | 00 00 00 00`,
`chacha_init_key` followed by `chacha_cipher` on 64 zero bytes writes the 64
bytes `10 f1 e7 e4 ... a2 50 3c 4e` of the RFC, on a host of either byte order
and whatever the context held before. -/
theorem known_answer_rfc7539 (little : Bool) (ctx : EVP_CHACHA_KEY) (enc : Int) :
    (chacha_cipher little
      (chacha_init_key ctx (some (List.range 32))
        (some [0x01, 0x00, 0x00, 0x00, 0x00, 0x00, 0x00, 0x09, 0x00, 0x00, 0x00, 0x4a,
          0x00, 0x00, 0x00, 0x00]) enc).2
      (List.replicate 64 0)).2.2 =
    [0x10, 0xf1, 0xe7, 0xe4, 0xd1, 0x3b, 0x59, 0x15, 0x50, 0x0f, 0xdd, 0x1f, 0xa3, 0x20, 0x71, 0xc4,
     0xc7, 0xd1, 0xf4, 0xc7, 0x33, 0xc0, 0x68, 0x03, 0x04, 0x22, 0xaa, 0x9a, 0xc3, 0xd4, 0x6c, 0x4e,
     0xd2, 0x82, 0x64, 0x46, 0x07, 0x9f, 0xaa, 0x09, 0x14, 0xc2, 0xd7, 0x05, 0xd9, 0x8b, 0x02, 0xa2,
     0xb5, 0x12, 0x9c, 0xd1, 0xde, 0x16, 0x4e, 0xb9, 0xcb, 0xd0, 0x83, 0xe8, 0xa2, 0x50, 0x3c, 0x4e] := by
  rw [chacha_cipher_zero_block little _ (chacha_init_key_synced little ctx _ _ enc).1 rfl]
  simp only [chacha_init_key, ctr64]
  cases little <;> decide

set_option maxRecDepth 100000 in
/-- C4 (known answer, zero key, zero nonce, counter 0): with a key of 32 zero
bytes and an iv of 16 zero bytes, `chacha_init_key` followed by `chacha_cipher`
on 64 zero bytes writes the 64 bytes `76 b8 e0 ad ... b2 ee 65 86`, on a host of
either byte order and whatever the context held before. -/
theorem known_answer_zero (little : Bool) (ctx : EVP_CHACHA_KEY) (enc : Int) :
    (chacha_cipher little
      (chacha_init_key ctx (some (List.replicate 32 0)) (some (List.replicate 16 0)) enc).2
      (List.replicate 64 0)).2.2 =
    [0x76, 0xb8, 0xe0, 0xad, 0xa0, 0xf1, 0x3d, 0x90, 0x40, 0x5d, 0x6a, 0xe5, 0x53, 0x86, 0xbd, 0x28,
     0xbd, 0xd2, 0x19, 0xb8, 0xa0, 0x8d, 0xed, 0x1a, 0xa8, 0x36, 0xef, 0xcc, 0x8b, 0x77, 0x0d, 0xc7,
     0xda, 0x41, 0x59, 0x7c, 0x51, 0x57, 0x48, 0x8d, 0x77, 0x24, 0xe0, 0x3f, 0xb8, 0xd8, 0x4a, 0x37,
     0x6a, 0x43, 0xb8, 0xf4, 0x15, 0x18, 0xa1, 0x1c, 0xc3, 0x87, 0xb6, 0x69, 0xb2, 0xee, 0x65, 0x86] := by
  rw [chacha_cipher_zero_block little _ (chacha_init_key_synced little ctx _ _ enc).1 rfl]
  simp only [chacha_init_key, ctr64]
  cases little <;> decide

/-- C5, as amended (overflow carry): from a block boundary, with counter words
`(c0, c1, c2, c3)` and an input of `64 * N` bytes, `N ≥ 1`, `c0 + N > 2 ^ 32`:
output block `j` is input block `j` xor the block `chacha20_core` computes for
the counter words `((c0 + j) % 2 ^ 32, (c1 + (c0 + j) / 2 ^ 32) % 2 ^ 32, c2, c3)`;
these pairs of words are pairwise different for the blocks of one call of at
most `2 ^ 64` blocks; afterwards `counter[0] = (c0 + N) % 2 ^ 32` and
`counter[1] = (c1 + (c0 + N) / 2 ^ 32) % 2 ^ 32`.  When `c0 + N < 2 ^ 33` (one
carry) the high word used for block `j` is `c1` before the overflow point and
`(c1 + 1) % 2 ^ 32` from it on, and `counter[1]` ends as `(c1 + 1) % 2 ^ 32`. -/
theorem overflow_carry (little : Bool) (s : EVP_CHACHA_KEY) (c0 c1 c2 c3 N : Nat)
    (inp : List Nat) (hc : s.counter = [c0, c1, c2, c3]) (h0 : c0 < 2 ^ 32) (h1 : c1 < 2 ^ 32)
    (hp : s.partial_len = 0) (hlen : inp.length = 64 * N) (_hN : 1 ≤ N)
    (_hov : 2 ^ 32 < c0 + N) :
    (∀ j i, j < N → i < 64 →
      (chacha_cipher little s inp).2.2.getD (64 * j + i) 0 =
        inp.getD (64 * j + i) 0 ^^^
          (chacha20_core little (ChaCha20_ctr32_input s.key
            [(c0 + j) % 2 ^ 32, (c1 + (c0 + j) / 2 ^ 32) % 2 ^ 32, c2, c3])).getD i 0) ∧
    (∀ j j', j < j' → j' < N → N ≤ 2 ^ 64 →
      ((c0 + j) % 2 ^ 32, (c1 + (c0 + j) / 2 ^ 32) % 2 ^ 32) ≠
        ((c0 + j') % 2 ^ 32, (c1 + (c0 + j') / 2 ^ 32) % 2 ^ 32)) ∧
    (chacha_cipher little s inp).2.1.counter.getD 0 0 = (c0 + N) % 2 ^ 32 ∧
    (chacha_cipher little s inp).2.1.counter.getD 1 0 = (c1 + (c0 + N) / 2 ^ 32) % 2 ^ 32 ∧
    (c0 + N < 2 ^ 33 →
      (chacha_cipher little s inp).2.1.counter.getD 1 0 = (c1 + 1) % 2 ^ 32 ∧
      ∀ j, j < N → (c1 + (c0 + j) / 2 ^ 32) % 2 ^ 32 =
        if c0 + j < 2 ^ 32 then c1 else (c1 + 1) % 2 ^ 32) := by
  have hs : s.wf := by
    refine ⟨by rw [hc]; rfl, ?_, ?_⟩
    · rw [hc]; exact h0
    · rw [hc]; exact h1
  have hctr : (chacha_cipher little s inp).2.1.counter =
      ctrWords (c0 + 2 ^ 32 * c1 + N) c2 c3 := by
    rw [chacha_cipher_eq little s inp hs]
    simp only [ctxAfter_of_partial_len_zero little s _ hp, restAfter, ctr64, hc, hlen,
      List.getD_cons_zero, List.getD_cons_succ]
    congr 1; omega
  have e0 : (c0 + 2 ^ 32 * c1 + N) % 2 ^ 32 = (c0 + N) % 2 ^ 32 := by omega
  have e1 : (c0 + 2 ^ 32 * c1 + N) / 2 ^ 32 % 2 ^ 32 = (c1 + (c0 + N) / 2 ^ 32) % 2 ^ 32 := by
    omega
  refine ⟨?_, ?_, ?_, ?_, ?_⟩
  · intro j i hj hi
    rw [chacha_cipher_block_getD little s inp hs hp j i hi (by omega)]
    have w0 : (c0 + 2 ^ 32 * c1 + j) % 2 ^ 32 = (c0 + j) % 2 ^ 32 := by omega
    have w1 : (c0 + 2 ^ 32 * c1 + j) / 2 ^ 32 % 2 ^ 32 = (c1 + (c0 + j) / 2 ^ 32) % 2 ^ 32 := by
      omega
    simp only [keyblock, ctrWords, ctr64, hc, List.getD_cons_zero, List.getD_cons_succ, w0, w1]
  · intro j j' hjj hj' hN64 heq
    simp only [Prod.mk.injEq] at heq
    omega
  · rw [hctr]; exact e0
  · rw [hctr]; exact e1
  · intro h33
    refine ⟨?_, ?_⟩
    · rw [hctr]
      simp only [ctrWords, List.getD_cons_zero, List.getD_cons_succ]
      omega
    · intro j hj
      split <;> omega

theorem overflow_carry_witness :
    (∀ j i, j < 2 → i < 64 →
      (chacha_cipher true ⟨List.replicate 8 0, [0xFFFFFFFF, 0, 0, 0], List.replicate 64 0, 0⟩
          (List.replicate 128 0)).2.2.getD (64 * j + i) 0 =
        (List.replicate 128 0).getD (64 * j + i) 0 ^^^
          (chacha20_core true (ChaCha20_ctr32_input (List.replicate 8 0)
            [(0xFFFFFFFF + j) % 2 ^ 32, (0 + (0xFFFFFFFF + j) / 2 ^ 32) % 2 ^ 32, 0, 0])).getD i 0) ∧
    (∀ j j', j < j' → j' < 2 → 2 ≤ 2 ^ 64 →
      ((0xFFFFFFFF + j) % 2 ^ 32, (0 + (0xFFFFFFFF + j) / 2 ^ 32) % 2 ^ 32) ≠
        ((0xFFFFFFFF + j') % 2 ^ 32, (0 + (0xFFFFFFFF + j') / 2 ^ 32) % 2 ^ 32)) ∧
    (chacha_cipher true ⟨List.replicate 8 0, [0xFFFFFFFF, 0, 0, 0], List.replicate 64 0, 0⟩
        (List.replicate 128 0)).2.1.counter.getD 0 0 = (0xFFFFFFFF + 2) % 2 ^ 32 ∧
    (chacha_cipher true ⟨List.replicate 8 0, [0xFFFFFFFF, 0, 0, 0], List.replicate 64 0, 0⟩
        (List.replicate 128 0)).2.1.counter.getD 1 0 = (0 + (0xFFFFFFFF + 2) / 2 ^ 32) % 2 ^ 32 ∧
    (0xFFFFFFFF + 2 < 2 ^ 33 →
      (chacha_cipher true ⟨List.replicate 8 0, [0xFFFFFFFF, 0, 0, 0], List.replicate 64 0, 0⟩
          (List.replicate 128 0)).2.1.counter.getD 1 0 = (0 + 1) % 2 ^ 32 ∧
      ∀ j, j < 2 → (0 + (0xFFFFFFFF + j) / 2 ^ 32) % 2 ^ 32 =
        if 0xFFFFFFFF + j < 2 ^ 32 then 0 else (0 + 1) % 2 ^ 32) :=
  overflow_carry true ⟨List.replicate 8 0, [0xFFFFFFFF, 0, 0, 0], List.replicate 64 0, 0⟩
    0xFFFFFFFF 0 0 0 2 (List.replicate 128 0) rfl (by decide) (by decide) rfl rfl (by decide)
    (by decide)

/-- C5 as stated fails: from a block boundary with `counter[0] = 0xFFFFFFFF`,
`counter[1] = 0` and an input of `2 ^ 32 + 1` blocks (so `c0 + N = 2 ^ 33`), the
call leaves `counter[1] = 2`, not `(c1 + 1) % 2 ^ 32 = 1`. -/
theorem overflow_carry_counterexample :
    (⟨List.replicate 8 0, [0xFFFFFFFF, 0, 0, 0], List.replicate 64 0, 0⟩ :
        EVP_CHACHA_KEY).partial_len = 0 ∧
    (List.replicate (64 * (2 ^ 32 + 1)) 0).length = 64 * (2 ^ 32 + 1) ∧
    2 ^ 32 < 0xFFFFFFFF + (2 ^ 32 + 1) ∧
    (chacha_cipher true ⟨List.replicate 8 0, [0xFFFFFFFF, 0, 0, 0], List.replicate 64 0, 0⟩
        (List.replicate (64 * (2 ^ 32 + 1)) 0)).2.1.counter.getD 1 0 = 2 ∧
    ¬ ((chacha_cipher true ⟨List.replicate 8 0, [0xFFFFFFFF, 0, 0, 0], List.replicate 64 0, 0⟩
        (List.replicate (64 * (2 ^ 32 + 1)) 0)).2.1.counter.getD 1 0 = (0 + 1) % 2 ^ 32) := by
  have hs : (⟨List.replicate 8 0, [0xFFFFFFFF, 0, 0, 0], List.replicate 64 0, 0⟩ :
      EVP_CHACHA_KEY).wf := by decide
  have h2 : (chacha_cipher true ⟨List.replicate 8 0, [0xFFFFFFFF, 0, 0, 0], List.replicate 64 0, 0⟩
        (List.replicate (64 * (2 ^ 32 + 1)) 0)).2.1.counter.getD 1 0 = 2 := by
    rw [chacha_cipher_eq true _ _ hs, List.length_replicate]
    simp only [ctxAfter_of_partial_len_zero, restAfter, ctr64, ctrWords, List.getD_cons_zero,
      List.getD_cons_succ]
    decide
  refine ⟨rfl, List.length_replicate _ _, by decide, h2, ?_⟩
  rw [h2]
  decide

/-- C6 (counter advancement): from a well-formed context on a block boundary
(`partial_len = 0`) with `counter[0] = C` and `counter[1] = D`, after any
sequence of calls whose lengths are multiples of 64 and sum to `64 * N`, and in
particular after one call of `64 * N` bytes, `counter[0] = (C + N) % 2 ^ 32`,
`counter[1] = (D + (C + N) / 2 ^ 32) % 2 ^ 32` and `partial_len` is still `0`. -/
theorem counter_advancement (little : Bool) (s : EVP_CHACHA_KEY) (hs : s.wf)
    (hp : s.partial_len = 0) (N : Nat) :
    (∀ pieces : List (List Nat), (∀ p ∈ pieces, p.length % 64 = 0) →
      (pieces.map List.length).sum = 64 * N →
      (chacha_cipher_calls little s pieces).1.counter.getD 0 0 =
        (s.counter.getD 0 0 + N) % 2 ^ 32 ∧
      (chacha_cipher_calls little s pieces).1.counter.getD 1 0 =
        (s.counter.getD 1 0 + (s.counter.getD 0 0 + N) / 2 ^ 32) % 2 ^ 32 ∧
      (chacha_cipher_calls little s pieces).1.partial_len = 0) ∧
    (∀ m : List Nat, m.length = 64 * N →
      (chacha_cipher little s m).2.1.counter.getD 0 0 = (s.counter.getD 0 0 + N) % 2 ^ 32 ∧
      (chacha_cipher little s m).2.1.counter.getD 1 0 =
        (s.counter.getD 1 0 + (s.counter.getD 0 0 + N) / 2 ^ 32) % 2 ^ 32 ∧
      (chacha_cipher little s m).2.1.partial_len = 0) := by
  have key : ∀ pieces : List (List Nat), (∀ p ∈ pieces, p.length % 64 = 0) →
      (pieces.map List.length).sum = 64 * N →
      (chacha_cipher_calls little s pieces).1.counter.getD 0 0 =
        (s.counter.getD 0 0 + N) % 2 ^ 32 ∧
      (chacha_cipher_calls little s pieces).1.counter.getD 1 0 =
        (s.counter.getD 1 0 + (s.counter.getD 0 0 + N) / 2 ^ 32) % 2 ^ 32 ∧
      (chacha_cipher_calls little s pieces).1.partial_len = 0 := by
    intro pieces hm hsum
    obtain ⟨e1, e2⟩ := chacha_cipher_calls_counter little pieces s hs hp hm
    have h0 := hs.2.1
    have h1 := hs.2.2
    rw [e1, hsum]
    simp only [ctrWords, ctr64, List.getD_cons_zero, List.getD_cons_succ]
    refine ⟨?_, ?_, e2⟩
    · omega
    · omega
  refine ⟨key, ?_⟩
  intro m hm
  have := key [m] (by
    intro p hp'
    rw [List.mem_singleton] at hp'
    rw [hp', hm]; omega) (by simp [hm])
  simpa only [chacha_cipher_calls] using this

theorem counter_advancement_witness :
    (∀ pieces : List (List Nat), (∀ p ∈ pieces, p.length % 64 = 0) →
      (pieces.map List.length).sum = 64 * 3 →
      (chacha_cipher_calls true
        ⟨List.replicate 8 0, [0xFFFFFFFE, 7, 0, 0], List.replicate 64 0, 0⟩ pieces).1.counter.getD
          0 0 = ((⟨List.replicate 8 0, [0xFFFFFFFE, 7, 0, 0], List.replicate 64 0, 0⟩ :
            EVP_CHACHA_KEY).counter.getD 0 0 + 3) % 2 ^ 32 ∧
      (chacha_cipher_calls true
        ⟨List.replicate 8 0, [0xFFFFFFFE, 7, 0, 0], List.replicate 64 0, 0⟩ pieces).1.counter.getD
          1 0 = ((⟨List.replicate 8 0, [0xFFFFFFFE, 7, 0, 0], List.replicate 64 0, 0⟩ :
            EVP_CHACHA_KEY).counter.getD 1 0 +
          ((⟨List.replicate 8 0, [0xFFFFFFFE, 7, 0, 0], List.replicate 64 0, 0⟩ :
            EVP_CHACHA_KEY).counter.getD 0 0 + 3) / 2 ^ 32) % 2 ^ 32 ∧
      (chacha_cipher_calls true
        ⟨List.replicate 8 0, [0xFFFFFFFE, 7, 0, 0], List.replicate 64 0, 0⟩ pieces).1.partial_len
          = 0) ∧
    (∀ m : List Nat, m.length = 64 * 3 →
      (chacha_cipher true
        ⟨List.replicate 8 0, [0xFFFFFFFE, 7, 0, 0], List.replicate 64 0, 0⟩ m).2.1.counter.getD
          0 0 = ((⟨List.replicate 8 0, [0xFFFFFFFE, 7, 0, 0], List.replicate 64 0, 0⟩ :
            EVP_CHACHA_KEY).counter.getD 0 0 + 3) % 2 ^ 32 ∧
      (chacha_cipher true
        ⟨List.replicate 8 0, [0xFFFFFFFE, 7, 0, 0], List.replicate 64 0, 0⟩ m).2.1.counter.getD
          1 0 = ((⟨List.replicate 8 0, [0xFFFFFFFE, 7, 0, 0], List.replicate 64 0, 0⟩ :
            EVP_CHACHA_KEY).counter.getD 1 0 +
          ((⟨List.replicate 8 0, [0xFFFFFFFE, 7, 0, 0], List.replicate 64 0, 0⟩ :
            EVP_CHACHA_KEY).counter.getD 0 0 + 3) / 2 ^ 32) % 2 ^ 32 ∧
      (chacha_cipher true
        ⟨List.replicate 8 0, [0xFFFFFFFE, 7, 0, 0], List.replicate 64 0, 0⟩ m).2.1.partial_len
          = 0) :=
  counter_advancement true ⟨List.replicate 8 0, [0xFFFFFFFE, 7, 0, 0], List.replicate 64 0, 0⟩
    (by decide) rfl 3

/-- C7 (`ChaCha20_ctr32` reference semantics): for every key, counter (with
`counter[0]` in the range of `unsigned int`) and input of any length,
`ChaCha20_ctr32` writes exactly `len` bytes, byte `i` being
`inp[i] xor K(i / 64)[i % 64]` where `K(j)` is the output of `chacha20_core` on
the words `0x61707865, 0x3320646e, 0x79622d32, 0x6b206574`, the eight key words,
`(counter[0] + j) % 2 ^ 32` and `counter[1..3]` unchanged (no carry into
`counter[1]`); the four constants are the little-endian words of the ASCII
string "expand 32-byte k". -/
theorem ChaCha20_ctr32_reference (little : Bool) (inp key counter : List Nat)
    (hc : counter.getD 0 0 < 2 ^ 32) :
    (ChaCha20_ctr32 little inp key counter).length = inp.length ∧
    (∀ i, i < inp.length →
      (ChaCha20_ctr32 little inp key counter).getD i 0 =
        inp.getD i 0 ^^^
          (chacha20_core little
            [0x61707865, 0x3320646e, 0x79622d32, 0x6b206574,
             key.getD 0 0, key.getD 1 0, key.getD 2 0, key.getD 3 0,
             key.getD 4 0, key.getD 5 0, key.getD 6 0, key.getD 7 0,
             (counter.getD 0 0 + i / 64) % 2 ^ 32, counter.getD 1 0, counter.getD 2 0,
             counter.getD 3 0]).getD (i % 64) 0) ∧
    [0x61707865, 0x3320646e, 0x79622d32, 0x6b206574] =
      (List.range 4).map
        (fun j => CHACHA_U8TOU32 (("expand 32-byte k".toList.map Char.toNat).drop (4 * j))) := by
  rw [ChaCha20_ctr32_eq little inp key counter hc]
  refine ⟨xorStream_length _ _ _, ?_, by decide⟩
  intro i hi
  rw [xorStream_getD _ _ _ _ hi, Nat.zero_add]
  simp only [ctr32Stream, ChaCha20_ctr32_input_eq, List.getD_cons_zero, List.getD_cons_succ]

theorem ChaCha20_ctr32_reference_witness :
    (ChaCha20_ctr32 true (List.range 70) (List.range 8) [0xFFFFFFFF, 5, 6, 7]).length =
      (List.range 70).length ∧
    (∀ i, i < (List.range 70).length →
      (ChaCha20_ctr32 true (List.range 70) (List.range 8) [0xFFFFFFFF, 5, 6, 7]).getD i 0 =
        (List.range 70).getD i 0 ^^^
          (chacha20_core true
            [0x61707865, 0x3320646e, 0x79622d32, 0x6b206574,
             (List.range 8).getD 0 0, (List.range 8).getD 1 0, (List.range 8).getD 2 0,
             (List.range 8).getD 3 0, (List.range 8).getD 4 0, (List.range 8).getD 5 0,
             (List.range 8).getD 6 0, (List.range 8).getD 7 0,
             (([0xFFFFFFFF, 5, 6, 7] : List Nat).getD 0 0 + i / 64) % 2 ^ 32,
             ([0xFFFFFFFF, 5, 6, 7] : List Nat).getD 1 0,
             ([0xFFFFFFFF, 5, 6, 7] : List Nat).getD 2 0,
             ([0xFFFFFFFF, 5, 6, 7] : List Nat).getD 3 0]).getD (i % 64) 0) ∧
    [0x61707865, 0x3320646e, 0x79622d32, 0x6b206574] =
      (List.range 4).map
        (fun j => CHACHA_U8TOU32 (("expand 32-byte k".toList.map Char.toNat).drop (4 * j))) :=
  ChaCha20_ctr32_reference true (List.range 70) (List.range 8) [0xFFFFFFFF, 5, 6, 7] (by decide)

/-- C8 (initialisation): for every key `k` and iv `v` made of bytes (both
supplied), every value of `enc` and whatever the context held before,
`chacha_init_key` returns `1` and leaves key word `j` equal to
`k[4j] + 2^8 k[4j+1] + 2^16 k[4j+2] + 2^24 k[4j+3]` for `j < 8`, counter word `j`
equal to the same expression in `v` for `j < 4`, eight key words, four counter
words and `partial_len = 0`. -/
theorem initialisation (ctx : EVP_CHACHA_KEY) (k v : List Nat) (enc : Int)
    (hk : ∀ b ∈ k, b < 256) (hv : ∀ b ∈ v, b < 256) :
    (chacha_init_key ctx (some k) (some v) enc).1 = 1 ∧
    (chacha_init_key ctx (some k) (some v) enc).2.key.length = 8 ∧
    (∀ j, j < 8 → (chacha_init_key ctx (some k) (some v) enc).2.key.getD j 0 =
      k.getD (4 * j) 0 + 2 ^ 8 * k.getD (4 * j + 1) 0 + 2 ^ 16 * k.getD (4 * j + 2) 0 +
        2 ^ 24 * k.getD (4 * j + 3) 0) ∧
    (chacha_init_key ctx (some k) (some v) enc).2.counter.length = 4 ∧
    (∀ j, j < 4 → (chacha_init_key ctx (some k) (some v) enc).2.counter.getD j 0 =
      v.getD (4 * j) 0 + 2 ^ 8 * v.getD (4 * j + 1) 0 + 2 ^ 16 * v.getD (4 * j + 2) 0 +
        2 ^ 24 * v.getD (4 * j + 3) 0) ∧
    (chacha_init_key ctx (some k) (some v) enc).2.partial_len = 0 := by
  refine ⟨rfl, rfl, ?_, rfl, ?_, rfl⟩
  · intro j hj
    simp only [chacha_init_key, CHACHA_KEY_SIZE]
    rw [getD_range_map_fun _ (32 / 4) j (by omega),
      CHACHA_U8TOU32_eq _ (fun b hb => hk b (List.mem_of_mem_drop hb))]
    simp only [getD_drop, Nat.add_zero]
  · intro j hj
    simp only [chacha_init_key, CHACHA_CTR_SIZE]
    rw [getD_range_map_fun _ (16 / 4) j (by omega),
      CHACHA_U8TOU32_eq _ (fun b hb => hv b (List.mem_of_mem_drop hb))]
    simp only [getD_drop, Nat.add_zero]

theorem initialisation_witness :
    (chacha_init_key ⟨[], [], [], 9⟩ (some (List.range 32)) (some (List.range 16)) 0).1 = 1 ∧
    (chacha_init_key ⟨[], [], [], 9⟩ (some (List.range 32))
      (some (List.range 16)) 0).2.key.length = 8 ∧
    (∀ j, j < 8 → (chacha_init_key ⟨[], [], [], 9⟩ (some (List.range 32))
        (some (List.range 16)) 0).2.key.getD j 0 =
      (List.range 32).getD (4 * j) 0 + 2 ^ 8 * (List.range 32).getD (4 * j + 1) 0 +
        2 ^ 16 * (List.range 32).getD (4 * j + 2) 0 +
        2 ^ 24 * (List.range 32).getD (4 * j + 3) 0) ∧
    (chacha_init_key ⟨[], [], [], 9⟩ (some (List.range 32))
      (some (List.range 16)) 0).2.counter.length = 4 ∧
    (∀ j, j < 4 → (chacha_init_key ⟨[], [], [], 9⟩ (some (List.range 32))
        (some (List.range 16)) 0).2.counter.getD j 0 =
      (List.range 16).getD (4 * j) 0 + 2 ^ 8 * (List.range 16).getD (4 * j + 1) 0 +
        2 ^ 16 * (List.range 16).getD (4 * j + 2) 0 +
        2 ^ 24 * (List.range 16).getD (4 * j + 3) 0) ∧
    (chacha_init_key ⟨[], [], [], 9⟩ (some (List.range 32))
      (some (List.range 16)) 0).2.partial_len = 0 :=
  initialisation ⟨[], [], [], 9⟩ (List.range 32) (List.range 16) 0 (by decide) (by decide)

/-- C9, as amended (buffered-count invariant): `partial_len` is always in
`[0, 64]`.  It is `0` after `chacha_init_key`, and from every context in which
it is at most 64 and for every input it is at most 64 again after
`chacha_cipher`; the value 64 is left exactly by a call that uses the buffered
block up to its last byte and no more (`0 < partial_len` and
`partial_len + len = 64` before the call). -/
theorem buffered_count_le (little : Bool) (ctx0 ctx : EVP_CHACHA_KEY)
    (user_key iv : Option (List Nat)) (enc : Int) (inp : List Nat)
    (h : ctx.partial_len ≤ 64) :
    (chacha_init_key ctx0 user_key iv enc).2.partial_len = 0 ∧
    (chacha_cipher little ctx inp).2.1.partial_len ≤ 64 ∧
    ((chacha_cipher little ctx inp).2.1.partial_len = 64 ↔
      (0 < ctx.partial_len ∧ ctx.partial_len + inp.length = 64)) := by
  refine ⟨rfl, ?_⟩
  unfold chacha_cipher
  obtain ⟨hd1, hd2⟩ := chacha_cipher_drain_fst ctx.buf inp ctx.partial_len
  by_cases hn0 : ctx.partial_len = 0
  · rw [if_neg (by simpa using hn0), chacha_cipher_rest_partial_len]
    split <;> omega
  · rw [if_pos hn0]
    by_cases hz : (chacha_cipher_drain ctx.buf ctx.partial_len inp).2.2.length = 0
    · simp only [hz, if_true, hd1]
      omega
    · simp only [hz, if_false]
      rw [chacha_cipher_rest_partial_len, hd2]
      have h64 : (chacha_cipher_drain ctx.buf ctx.partial_len inp).1 = CHACHA_BLK_SIZE := by
        rw [hd1]; simp only [CHACHA_BLK_SIZE]; omega
      simp only [h64, if_true]
      split <;> omega

theorem buffered_count_le_witness :
    (chacha_init_key ⟨[], [], [], 9⟩ (some (List.range 32))
      (some (List.range 16)) 0).2.partial_len = 0 ∧
    (chacha_cipher true ⟨List.range 8, [0, 0, 0, 0], List.range 64, 1⟩
      (List.replicate 63 0)).2.1.partial_len ≤ 64 ∧
    ((chacha_cipher true ⟨List.range 8, [0, 0, 0, 0], List.range 64, 1⟩
      (List.replicate 63 0)).2.1.partial_len = 64 ↔
      (0 < (⟨List.range 8, [0, 0, 0, 0], List.range 64, 1⟩ : EVP_CHACHA_KEY).partial_len ∧
        (⟨List.range 8, [0, 0, 0, 0], List.range 64, 1⟩ : EVP_CHACHA_KEY).partial_len +
          (List.replicate 63 0).length = 64)) :=
  buffered_count_le true ⟨[], [], [], 9⟩ ⟨List.range 8, [0, 0, 0, 0], List.range 64, 1⟩
    (some (List.range 32)) (some (List.range 16)) 0 (List.replicate 63 0) (by decide)

/-- C9 as stated fails: after `chacha_init_key`, a call with 1 byte leaves
`partial_len = 1`, which is in `[0, 64)`, and a following call with 63 bytes
leaves `partial_len = 64`, which is not. -/
theorem buffered_count_counterexample :
    (chacha_cipher true
      (chacha_init_key ⟨[], [], [], 0⟩ (some (List.replicate 32 0))
        (some (List.replicate 16 0)) 1).2 [0]).2.1.partial_len < 64 ∧
    ¬ ((chacha_cipher true
      (chacha_cipher true
        (chacha_init_key ⟨[], [], [], 0⟩ (some (List.replicate 32 0))
          (some (List.replicate 16 0)) 1).2 [0]).2.1
      (List.replicate 63 0)).2.1.partial_len < 64) := by
  decide

/-- C10 (host byte order): for every 16-word input and on a host of either
byte order, the 64 bytes of `chacha20_core` are, for `i = 0..15`, the
little-endian 4-byte encoding of `(x[i] + input[i]) % 2 ^ 32`, where `x` is the
input after 10 iterations of the 8 quarter-rounds; so the branch that stores
words through the union (little-endian host) and the branch that serialises
with `U32TO8_LITTLE` (big-endian host) give the same bytes. -/
theorem core_byte_order (little : Bool) (input : List Nat) :
    chacha20_core little input =
      (List.range 16).flatMap (fun i =>
        littleEndian32
          (((chacha20_core_body^[10] (input.take 16)).getD i 0 + input.getD i 0) % 2 ^ 32)) ∧
    chacha20_core true input = chacha20_core false input := by
  have hl : ∀ b : Bool, chacha20_core b input =
      (List.range 16).flatMap (fun i =>
        littleEndian32
          (((chacha20_core_body^[10] (input.take 16)).getD i 0 + input.getD i 0) % 2 ^ 32)) := by
    intro b
    cases b
    · simp only [chacha20_core, Bool.false_eq_true, if_false, U32TO8_LITTLE_eq,
        chacha20_core_rounds_eq, u32]
    · simp only [chacha20_core, if_true, chacha_buf_c, List.flatMap_map,
        chacha20_core_rounds_eq, u32, littleEndian32]
      rfl
  exact ⟨hl little, (hl true).trans (hl false).symm⟩

/-- C11 (aliasing): for every context `ctx`, memory `mem`, input buffer of `len`
bytes at address `p` and separate output buffer at address `q` (the two do not
overlap), `chacha_cipher` called in place (`out = inp = p`) returns the same
value and leaves the same context as the call with `out = q`, and the bytes it
leaves in the buffer at `p` are the bytes the other call leaves at `q`, namely
the output of `chacha_cipher` on the bytes read from `p`; the same holds for
`ChaCha20_ctr32`.  The reason is the last part: the copying loop run in place
stores at every index the byte that was there before the loop, xored with the
keystream byte, so every load sees the original input.  The context is an
object of its own, not a part of the buffers. -/
theorem aliasing (little : Bool) (ctx : EVP_CHACHA_KEY) (mem : Mem) (p q len : Nat)
    (key counter buf : List Nat) (hsep : q + len ≤ p ∨ p + len ≤ q) :
    (chacha_cipher_mem little ctx mem p p len).1 = (chacha_cipher_mem little ctx mem q p len).1 ∧
    (chacha_cipher_mem little ctx mem p p len).2.1 =
      (chacha_cipher_mem little ctx mem q p len).2.1 ∧
    memRead (chacha_cipher_mem little ctx mem p p len).2.2 p len =
      memRead (chacha_cipher_mem little ctx mem q p len).2.2 q len ∧
    memRead (chacha_cipher_mem little ctx mem p p len).2.2 p len =
      (chacha_cipher little ctx (memRead mem p len)).2.2 ∧
    (chacha_cipher_mem little ctx mem p p len).2.1 =
      (chacha_cipher little ctx (memRead mem p len)).2.1 ∧
    memRead (ChaCha20_ctr32_mem little mem p p len key counter) p len =
      memRead (ChaCha20_ctr32_mem little mem q p len key counter) q len ∧
    memRead (ChaCha20_ctr32_mem little mem p p len key counter) p len =
      ChaCha20_ctr32 little (memRead mem p len) key counter ∧
    xor_loop_mem buf p p len 0 mem =
      (fun a => if p ≤ a ∧ a < p + len then mem a ^^^ buf.getD (a - p) 0 else mem a) := by
  have hin : NoClobber p p len := Or.inl (Nat.le_refl p)
  have hout : NoClobber q p len := by unfold NoClobber; omega
  obtain ⟨a1, a2⟩ := chacha_cipher_mem_eq little ctx mem p p len hin
  obtain ⟨b1, _⟩ := chacha_cipher_mem_eq little ctx mem q p len hout
  have hc : ∀ r : Nat, memRead (memBlit mem r (chacha_cipher little ctx (memRead mem p len)).2.2)
      r len = (chacha_cipher little ctx (memRead mem p len)).2.2 := by
    intro r
    have := memRead_blit mem r (chacha_cipher little ctx (memRead mem p len)).2.2
    rw [a2] at this
    exact this
  have hl : (ChaCha20_ctr32 little (memRead mem p len) key counter).length = len := by
    rw [ChaCha20_ctr32_length, memRead_length]
  have hk : ∀ r : Nat, memRead (memBlit mem r (ChaCha20_ctr32 little (memRead mem p len) key
      counter)) r len = ChaCha20_ctr32 little (memRead mem p len) key counter := by
    intro r
    have := memRead_blit mem r (ChaCha20_ctr32 little (memRead mem p len) key counter)
    rw [hl] at this
    exact this
  rw [a1, b1, ChaCha20_ctr32_mem_eq little mem p p len key counter hin,
    ChaCha20_ctr32_mem_eq little mem q p len key counter hout]
  refine ⟨rfl, rfl, ?_, hc p, rfl, ?_, hk p, ?_⟩
  · show memRead (memBlit mem p _) p len = memRead (memBlit mem q _) q len
    rw [hc p, hc q]
  · rw [hk p, hk q]
  · rw [xor_loop_mem_eq buf p p len 0 mem (by intro j j' _ h2 _; omega)]
    funext a
    simp only [Nat.add_zero]
    by_cases ha : p ≤ a ∧ a < p + len
    · rw [if_pos ha, if_pos ha]
      have : p + (a - p) = a := by omega
      rw [this]
    · rw [if_neg ha, if_neg ha]

theorem aliasing_witness :
    ((100 : Nat) + 70 ≤ 0 ∨ 0 + 70 ≤ 100) ∧
    (chacha_cipher_mem true ⟨List.replicate 8 0, [0, 0, 0, 0], List.replicate 64 0, 0⟩
        (fun a => a % 256) 0 0 70).2.1 =
      (chacha_cipher_mem true ⟨List.replicate 8 0, [0, 0, 0, 0], List.replicate 64 0, 0⟩
        (fun a => a % 256) 100 0 70).2.1 ∧
    memRead (chacha_cipher_mem true ⟨List.replicate 8 0, [0, 0, 0, 0], List.replicate 64 0, 0⟩
        (fun a => a % 256) 0 0 70).2.2 0 70 =
      memRead (chacha_cipher_mem true ⟨List.replicate 8 0, [0, 0, 0, 0], List.replicate 64 0, 0⟩
        (fun a => a % 256) 100 0 70).2.2 100 70 :=
  ⟨by decide,
    (aliasing true ⟨List.replicate 8 0, [0, 0, 0, 0], List.replicate 64 0, 0⟩
      (fun a => a % 256) 0 100 70 (List.replicate 8 0) [0, 0, 0, 0] [] (by decide)).2.1,
    (aliasing true ⟨List.replicate 8 0, [0, 0, 0, 0], List.replicate 64 0, 0⟩
      (fun a => a % 256) 0 100 70 (List.replicate 8 0) [0, 0, 0, 0] [] (by decide)).2.2.1⟩

/-- C12, as amended (the drain advances the counter lazily): from a context
with `0 < partial_len = n < 64` and counter words `(c0, c1, c2, c3)`, a call with
exactly `64 - n` bytes leaves `partial_len = 64` and every other field,
the counter included, as it was; the next call with at least one byte behaves
as a call from the context with `partial_len = 0` and the counter advanced by 1,
`counter[0] = (c0 + 1) % 2 ^ 32` and `counter[1] = (c1 + 1) % 2 ^ 32` if
`c0 = 0xFFFFFFFF`, else `c1`. -/
theorem drain_advances_lazily (little : Bool) (s : EVP_CHACHA_KEY) (c0 c1 c2 c3 : Nat)
    (inp : List Nat) (hc : s.counter = [c0, c1, c2, c3]) (h0 : c0 < 2 ^ 32)
    (hn : 0 < s.partial_len) (hn64 : s.partial_len < 64)
    (hlen : inp.length = 64 - s.partial_len) :
    (chacha_cipher little s inp).2.1 = { s with partial_len := 64 } ∧
    (∀ inp2 : List Nat, inp2 ≠ [] →
      chacha_cipher little (chacha_cipher little s inp).2.1 inp2 =
        chacha_cipher little
          { s with
            partial_len := 0
            counter := [(c0 + 1) % 2 ^ 32,
              if c0 = 0xFFFFFFFF then (c1 + 1) % 2 ^ 32 else c1, c2, c3] } inp2) := by
  have hfirst : (chacha_cipher little s inp).2.1 = { s with partial_len := 64 } := by
    unfold chacha_cipher
    rw [if_pos (by omega), chacha_cipher_drain_eq _ _ _ (by omega)]
    simp only [List.length_drop, hlen, Nat.sub_self, if_true, Nat.min_self]
    congr 1
    omega
  refine ⟨hfirst, ?_⟩
  intro inp2 hne
  rw [hfirst]
  have hl : inp2.length ≠ 0 := fun h => hne (List.length_eq_zero.mp h)
  have hcnt : (if u32 (c0 + 1) = 0 then
        ([c0, c1, c2, c3].set 0 (u32 (c0 + 1))).set 1
          (u32 (([c0, c1, c2, c3].set 0 (u32 (c0 + 1))).getD 1 0 + 1))
      else [c0, c1, c2, c3].set 0 (u32 (c0 + 1))) =
      [(c0 + 1) % 2 ^ 32, if c0 = 0xFFFFFFFF then (c1 + 1) % 2 ^ 32 else c1, c2, c3] := by
    simp only [u32, List.set_cons_zero, List.set_cons_succ, List.getD_cons_zero,
      List.getD_cons_succ]
    by_cases hz : c0 = 0xFFFFFFFF
    · have : (c0 + 1) % 2 ^ 32 = 0 := by omega
      rw [if_pos this, if_pos hz]
    · have : ¬ (c0 + 1) % 2 ^ 32 = 0 := by omega
      rw [if_neg this, if_neg hz]
  conv_lhs => unfold chacha_cipher
  conv_rhs => unfold chacha_cipher
  simp only [ne_eq, OfNat.ofNat_ne_zero, not_false_eq_true, if_true,
    chacha_cipher_drain_big _ _ 64 (Nat.le_refl _), hl, if_false, CHACHA_BLK_SIZE, hc, hcnt,
    List.getD_cons_zero, not_true_eq_false]

theorem drain_advances_lazily_witness :
    (chacha_cipher true ⟨List.range 8, [0xFFFFFFFF, 5, 6, 7], List.range 64, 1⟩
        (List.replicate 63 0)).2.1 =
      { (⟨List.range 8, [0xFFFFFFFF, 5, 6, 7], List.range 64, 1⟩ : EVP_CHACHA_KEY) with
        partial_len := 64 } ∧
    (∀ inp2 : List Nat, inp2 ≠ [] →
      chacha_cipher true
          (chacha_cipher true ⟨List.range 8, [0xFFFFFFFF, 5, 6, 7], List.range 64, 1⟩
            (List.replicate 63 0)).2.1 inp2 =
        chacha_cipher true
          { (⟨List.range 8, [0xFFFFFFFF, 5, 6, 7], List.range 64, 1⟩ : EVP_CHACHA_KEY) with
            partial_len := 0
            counter := [(0xFFFFFFFF + 1) % 2 ^ 32,
              if 0xFFFFFFFF = 0xFFFFFFFF then (5 + 1) % 2 ^ 32 else 5, 6, 7] } inp2) :=
  drain_advances_lazily true ⟨List.range 8, [0xFFFFFFFF, 5, 6, 7], List.range 64, 1⟩
    0xFFFFFFFF 5 6 7 (List.replicate 63 0) rfl (by decide) (by decide) (by decide) rfl

/-- C12 as stated fails: from `partial_len = 1` and counter words `(0, 0, 0, 0)`,
a call with exactly `63` bytes leaves `partial_len = 64`, not `0`, and
`counter[0] = 0`, not `1`. -/
theorem drain_advances_counterexample :
    (chacha_cipher true ⟨List.replicate 8 0, [0, 0, 0, 0], List.replicate 64 0, 1⟩
        (List.replicate 63 0)).2.1.partial_len = 64 ∧
    (chacha_cipher true ⟨List.replicate 8 0, [0, 0, 0, 0], List.replicate 64 0, 1⟩
        (List.replicate 63 0)).2.1.counter = [0, 0, 0, 0] ∧
    ¬ ((chacha_cipher true ⟨List.replicate 8 0, [0, 0, 0, 0], List.replicate 64 0, 1⟩
        (List.replicate 63 0)).2.1.partial_len = 0 ∧
      (chacha_cipher true ⟨List.replicate 8 0, [0, 0, 0, 0], List.replicate 64 0, 1⟩
        (List.replicate 63 0)).2.1.counter.getD 0 0 = (0 + 1) % 2 ^ 32) := by
  decide

/-- C13 (lazy tail handling): from a context on a block boundary
(`partial_len = 0`) and for an input of length `L` with `r = L % 64 ≠ 0`, the
call leaves `partial_len = r`; the counter has advanced by `L / 64` only; `buf`
is the 64-byte block `chacha20_core` produces for that resulting counter, and
its first `r` bytes are the ones xored into the last `r` output bytes; and a
following call xors its first `min len (64 - r)` input bytes with `buf[r]`,
`buf[r + 1]`, ..., which holds for whatever a context has in `buf`. -/
theorem lazy_tail (little : Bool) (s : EVP_CHACHA_KEY) (c0 c1 c2 c3 : Nat) (inp : List Nat)
    (hc : s.counter = [c0, c1, c2, c3]) (h0 : c0 < 2 ^ 32) (h1 : c1 < 2 ^ 32)
    (hp : s.partial_len = 0) (hr : inp.length % 64 ≠ 0) :
    (chacha_cipher little s inp).2.1.partial_len = inp.length % 64 ∧
    (chacha_cipher little s inp).2.1.counter =
      [(c0 + inp.length / 64) % 2 ^ 32, (c1 + (c0 + inp.length / 64) / 2 ^ 32) % 2 ^ 32, c2, c3] ∧
    (chacha_cipher little s inp).2.1.buf =
      chacha20_core little
        (ChaCha20_ctr32_input s.key (chacha_cipher little s inp).2.1.counter) ∧
    (chacha_cipher little s inp).2.1.buf.length = 64 ∧
    (∀ i, i < inp.length % 64 →
      (chacha_cipher little s inp).2.2.getD (64 * (inp.length / 64) + i) 0 =
        inp.getD (64 * (inp.length / 64) + i) 0 ^^^
          (chacha_cipher little s inp).2.1.buf.getD i 0) ∧
    (∀ (inp2 : List Nat) (i : Nat), i < min inp2.length (64 - inp.length % 64) →
      (chacha_cipher little (chacha_cipher little s inp).2.1 inp2).2.2.getD i 0 =
        inp2.getD i 0 ^^^ (chacha_cipher little s inp).2.1.buf.getD (inp.length % 64 + i) 0) ∧
    (∀ (t : EVP_CHACHA_KEY) (inp2 : List Nat) (i : Nat), t.wf → 0 < t.partial_len →
      i < min inp2.length (64 - t.partial_len) →
      (chacha_cipher little t inp2).2.2.getD i 0 =
        inp2.getD i 0 ^^^ t.buf.getD (t.partial_len + i) 0) := by
  have hs : s.wf := by
    refine ⟨by rw [hc]; rfl, ?_, ?_⟩
    · rw [hc]; exact h0
    · rw [hc]; exact h1
  have hgen : ∀ (t : EVP_CHACHA_KEY) (inp2 : List Nat) (i : Nat), t.wf → 0 < t.partial_len →
      i < min inp2.length (64 - t.partial_len) →
      (chacha_cipher little t inp2).2.2.getD i 0 =
        inp2.getD i 0 ^^^ t.buf.getD (t.partial_len + i) 0 := by
    intro t inp2 i ht hpos hi
    rw [chacha_cipher_eq little t inp2 ht]
    simp only
    rw [xorStream_getD _ _ _ _ (by omega), Nat.zero_add]
    unfold ctxStream
    rw [if_pos (by omega), if_pos (by omega)]
  have hst : (chacha_cipher little s inp).2.1 = restAfter little s inp.length := by
    rw [chacha_cipher_eq little s inp hs, ctxAfter_of_partial_len_zero little s _ hp]
  have hcnt : (restAfter little s inp.length).counter =
      [(c0 + inp.length / 64) % 2 ^ 32, (c1 + (c0 + inp.length / 64) / 2 ^ 32) % 2 ^ 32,
        c2, c3] := by
    simp only [restAfter, ctrWords, ctr64, hc, List.getD_cons_zero, List.getD_cons_succ]
    have e0 : (c0 + 2 ^ 32 * c1 + inp.length / 64) % 2 ^ 32 = (c0 + inp.length / 64) % 2 ^ 32 := by
      omega
    have e1 : (c0 + 2 ^ 32 * c1 + inp.length / 64) / 2 ^ 32 % 2 ^ 32 =
        (c1 + (c0 + inp.length / 64) / 2 ^ 32) % 2 ^ 32 := by omega
    rw [e0, e1]
  have hbuf : (restAfter little s inp.length).buf =
      keyblock little s.key c2 c3 (c0 + 2 ^ 32 * c1 + inp.length / 64) := by
    simp only [restAfter, ctr64, hc, List.getD_cons_zero, List.getD_cons_succ, hr, ne_eq,
      not_false_eq_true, if_true]
  have hpl : (restAfter little s inp.length).partial_len = inp.length % 64 := by
    simp only [restAfter, hr, ne_eq, not_false_eq_true, if_true]
  refine ⟨by rw [hst, hpl], by rw [hst, hcnt], ?_, ?_, ?_, ?_, hgen⟩
  · rw [hst, hbuf, hcnt]
    simp only [keyblock, ctrWords]
    have e0 : (c0 + 2 ^ 32 * c1 + inp.length / 64) % 2 ^ 32 = (c0 + inp.length / 64) % 2 ^ 32 := by
      omega
    have e1 : (c0 + 2 ^ 32 * c1 + inp.length / 64) / 2 ^ 32 % 2 ^ 32 =
        (c1 + (c0 + inp.length / 64) / 2 ^ 32) % 2 ^ 32 := by omega
    rw [e0, e1]
  · rw [hst, hbuf]
    exact chacha20_core_length _ _
  · intro i hi
    rw [chacha_cipher_block_getD little s inp hs hp _ i (by omega) (by omega), hst, hbuf]
    simp only [ctr64, hc, List.getD_cons_zero, List.getD_cons_succ]
  · intro inp2 i hi
    have hw : (chacha_cipher little s inp).2.1.wf := by
      rw [hst]; exact (restAfter_props little s _).1
    have := hgen (chacha_cipher little s inp).2.1 inp2 i hw (by rw [hst, hpl]; omega)
      (by rw [hst, hpl]; exact hi)
    rw [this]
    congr 2
    rw [hst, hpl]

theorem lazy_tail_witness :
    (chacha_cipher true ⟨List.range 8, [0xFFFFFFFF, 5, 6, 7], List.range 64, 0⟩
      (List.range 70)).2.1.partial_len = (List.range 70).length % 64 ∧
    (chacha_cipher true ⟨List.range 8, [0xFFFFFFFF, 5, 6, 7], List.range 64, 0⟩
      (List.range 70)).2.1.counter =
      [(0xFFFFFFFF + (List.range 70).length / 64) % 2 ^ 32,
       (5 + (0xFFFFFFFF + (List.range 70).length / 64) / 2 ^ 32) % 2 ^ 32, 6, 7] ∧
    (chacha_cipher true ⟨List.range 8, [0xFFFFFFFF, 5, 6, 7], List.range 64, 0⟩
      (List.range 70)).2.1.buf =
      chacha20_core true
        (ChaCha20_ctr32_input
          (⟨List.range 8, [0xFFFFFFFF, 5, 6, 7], List.range 64, 0⟩ : EVP_CHACHA_KEY).key
          (chacha_cipher true ⟨List.range 8, [0xFFFFFFFF, 5, 6, 7], List.range 64, 0⟩
            (List.range 70)).2.1.counter) ∧
    (chacha_cipher true ⟨List.range 8, [0xFFFFFFFF, 5, 6, 7], List.range 64, 0⟩
      (List.range 70)).2.1.buf.length = 64 ∧
    (∀ i, i < (List.range 70).length % 64 →
      (chacha_cipher true ⟨List.range 8, [0xFFFFFFFF, 5, 6, 7], List.range 64, 0⟩
        (List.range 70)).2.2.getD (64 * ((List.range 70).length / 64) + i) 0 =
        (List.range 70).getD (64 * ((List.range 70).length / 64) + i) 0 ^^^
          (chacha_cipher true ⟨List.range 8, [0xFFFFFFFF, 5, 6, 7], List.range 64, 0⟩
            (List.range 70)).2.1.buf.getD i 0) ∧
    (∀ (inp2 : List Nat) (i : Nat), i < min inp2.length (64 - (List.range 70).length % 64) →
      (chacha_cipher true
        (chacha_cipher true ⟨List.range 8, [0xFFFFFFFF, 5, 6, 7], List.range 64, 0⟩
          (List.range 70)).2.1 inp2).2.2.getD i 0 =
        inp2.getD i 0 ^^^
          (chacha_cipher true ⟨List.range 8, [0xFFFFFFFF, 5, 6, 7], List.range 64, 0⟩
            (List.range 70)).2.1.buf.getD ((List.range 70).length % 64 + i) 0) ∧
    (∀ (t : EVP_CHACHA_KEY) (inp2 : List Nat) (i : Nat), t.wf → 0 < t.partial_len →
      i < min inp2.length (64 - t.partial_len) →
      (chacha_cipher true t inp2).2.2.getD i 0 =
        inp2.getD i 0 ^^^ t.buf.getD (t.partial_len + i) 0) :=
  lazy_tail true ⟨List.range 8, [0xFFFFFFFF, 5, 6, 7], List.range 64, 0⟩ 0xFFFFFFFF 5 6 7
    (List.range 70) rfl (by decide) (by decide) rfl (by decide)

/-- C14, as amended (fixed nonce words): words 2 and 3 of the counter block are
fixed for the session, and word 1 changes only by the carries out of word 0.
After `chacha_init_key` and any sequence of calls of `chacha_cipher`,
`counter[2]` and `counter[3]` are the values `chacha_init_key` loaded; and one
more call, which advances the block counter by some `k ≤ len / 64 + 1` blocks,
leaves `counter[0] = (c0 + k) % 2 ^ 32` and
`counter[1] = (c1 + (c0 + k) / 2 ^ 32) % 2 ^ 32`, so that `counter[1]` is
unchanged whenever `c0 + len / 64 + 1 < 2 ^ 32`. -/
theorem fixed_nonce_words (little : Bool) (ctx0 : EVP_CHACHA_KEY) (key iv : List Nat)
    (enc : Int) (pieces : List (List Nat)) (inp : List Nat) :
    (chacha_cipher_calls little (chacha_init_key ctx0 (some key) (some iv) enc).2
        pieces).1.counter.getD 2 0 =
      (chacha_init_key ctx0 (some key) (some iv) enc).2.counter.getD 2 0 ∧
    (chacha_cipher_calls little (chacha_init_key ctx0 (some key) (some iv) enc).2
        pieces).1.counter.getD 3 0 =
      (chacha_init_key ctx0 (some key) (some iv) enc).2.counter.getD 3 0 ∧
    (∃ k, k ≤ inp.length / 64 + 1 ∧
      (chacha_cipher little
        (chacha_cipher_calls little (chacha_init_key ctx0 (some key) (some iv) enc).2 pieces).1
        inp).2.1.counter.getD 0 0 =
        ((chacha_cipher_calls little (chacha_init_key ctx0 (some key) (some iv) enc).2
          pieces).1.counter.getD 0 0 + k) % 2 ^ 32 ∧
      (chacha_cipher little
        (chacha_cipher_calls little (chacha_init_key ctx0 (some key) (some iv) enc).2 pieces).1
        inp).2.1.counter.getD 1 0 =
        ((chacha_cipher_calls little (chacha_init_key ctx0 (some key) (some iv) enc).2
          pieces).1.counter.getD 1 0 +
          ((chacha_cipher_calls little (chacha_init_key ctx0 (some key) (some iv) enc).2
            pieces).1.counter.getD 0 0 + k) / 2 ^ 32) % 2 ^ 32) ∧
    ((chacha_cipher_calls little (chacha_init_key ctx0 (some key) (some iv) enc).2
        pieces).1.counter.getD 0 0 + inp.length / 64 + 1 < 2 ^ 32 →
      (chacha_cipher little
        (chacha_cipher_calls little (chacha_init_key ctx0 (some key) (some iv) enc).2 pieces).1
        inp).2.1.counter.getD 1 0 =
        (chacha_cipher_calls little (chacha_init_key ctx0 (some key) (some iv) enc).2
          pieces).1.counter.getD 1 0) := by
  have hw0 := (chacha_init_key_synced little ctx0 (some key) iv enc).1
  obtain ⟨_, _, f2, f3⟩ := chacha_cipher_calls_frame little pieces
    (chacha_init_key ctx0 (some key) (some iv) enc).2
  have hw := chacha_cipher_calls_wf little pieces _ hw0
  generalize (chacha_cipher_calls little (chacha_init_key ctx0 (some key) (some iv) enc).2
    pieces).1 = s at hw f2 f3 ⊢
  obtain ⟨k, hk, hk64⟩ := ctxAfter_ctr64 little s inp.length hw
  have hw' := ctxAfter_wf little s inp.length hw
  have hst : (chacha_cipher little s inp).2.1 = ctxAfter little s inp.length := by
    rw [chacha_cipher_eq little s inp hw]
  have a0 := hw.2.1
  have a1 := hw.2.2
  have b0 := hw'.2.1
  have b1 := hw'.2.2
  simp only [ctr64] at hk64
  have e0 : (ctxAfter little s inp.length).counter.getD 0 0 = (s.counter.getD 0 0 + k) % 2 ^ 32 := by
    omega
  have e1 : (ctxAfter little s inp.length).counter.getD 1 0 =
      (s.counter.getD 1 0 + (s.counter.getD 0 0 + k) / 2 ^ 32) % 2 ^ 32 := by
    omega
  refine ⟨f2, f3, ⟨k, hk, ?_, ?_⟩, ?_⟩
  · rw [hst]; exact e0
  · rw [hst]; exact e1
  · intro hsmall
    rw [hst, e1]
    omega

theorem fixed_nonce_words_witness :
    (chacha_cipher_calls true (chacha_init_key ⟨[], [], [], 0⟩ (some (List.range 32))
        (some (List.range 16)) 1).2 [[1, 2, 3]]).1.counter.getD 2 0 =
      (chacha_init_key ⟨[], [], [], 0⟩ (some (List.range 32))
        (some (List.range 16)) 1).2.counter.getD 2 0 ∧
    (chacha_cipher_calls true (chacha_init_key ⟨[], [], [], 0⟩ (some (List.range 32))
        (some (List.range 16)) 1).2 [[1, 2, 3]]).1.counter.getD 3 0 =
      (chacha_init_key ⟨[], [], [], 0⟩ (some (List.range 32))
        (some (List.range 16)) 1).2.counter.getD 3 0 ∧
    (∃ k, k ≤ (List.range 70).length / 64 + 1 ∧
      (chacha_cipher true
        (chacha_cipher_calls true (chacha_init_key ⟨[], [], [], 0⟩ (some (List.range 32))
          (some (List.range 16)) 1).2 [[1, 2, 3]]).1
        (List.range 70)).2.1.counter.getD 0 0 =
        ((chacha_cipher_calls true (chacha_init_key ⟨[], [], [], 0⟩ (some (List.range 32))
          (some (List.range 16)) 1).2 [[1, 2, 3]]).1.counter.getD 0 0 + k) % 2 ^ 32 ∧
      (chacha_cipher true
        (chacha_cipher_calls true (chacha_init_key ⟨[], [], [], 0⟩ (some (List.range 32))
          (some (List.range 16)) 1).2 [[1, 2, 3]]).1
        (List.range 70)).2.1.counter.getD 1 0 =
        ((chacha_cipher_calls true (chacha_init_key ⟨[], [], [], 0⟩ (some (List.range 32))
          (some (List.range 16)) 1).2 [[1, 2, 3]]).1.counter.getD 1 0 +
          ((chacha_cipher_calls true (chacha_init_key ⟨[], [], [], 0⟩ (some (List.range 32))
            (some (List.range 16)) 1).2 [[1, 2, 3]]).1.counter.getD 0 0 + k) / 2 ^ 32) %
            2 ^ 32) ∧
    ((chacha_cipher_calls true (chacha_init_key ⟨[], [], [], 0⟩ (some (List.range 32))
        (some (List.range 16)) 1).2 [[1, 2, 3]]).1.counter.getD 0 0 +
        (List.range 70).length / 64 + 1 < 2 ^ 32 →
      (chacha_cipher true
        (chacha_cipher_calls true (chacha_init_key ⟨[], [], [], 0⟩ (some (List.range 32))
          (some (List.range 16)) 1).2 [[1, 2, 3]]).1
        (List.range 70)).2.1.counter.getD 1 0 =
        (chacha_cipher_calls true (chacha_init_key ⟨[], [], [], 0⟩ (some (List.range 32))
          (some (List.range 16)) 1).2 [[1, 2, 3]]).1.counter.getD 1 0) :=
  fixed_nonce_words true ⟨[], [], [], 0⟩ (List.range 32) (List.range 16) 1 [[1, 2, 3]]
    (List.range 70)

/-- C14 as stated fails: after `chacha_init_key` with iv bytes
`ff ff ff ff 00 ... 00` (so `counter[0] = 0xFFFFFFFF`, `counter[1] = 0`), a call
with 64 bytes leaves `counter[1] = 1`, not the value `0` that was loaded. -/
theorem fixed_nonce_words_counterexample :
    (chacha_init_key ⟨[], [], [], 0⟩ (some (List.replicate 32 0))
      (some ([0xff, 0xff, 0xff, 0xff] ++ List.replicate 12 0)) 1).2.counter.getD 1 0 = 0 ∧
    (chacha_cipher true
      (chacha_init_key ⟨[], [], [], 0⟩ (some (List.replicate 32 0))
        (some ([0xff, 0xff, 0xff, 0xff] ++ List.replicate 12 0)) 1).2
      (List.replicate 64 0)).2.1.counter.getD 1 0 = 1 ∧
    ¬ ((chacha_cipher true
      (chacha_init_key ⟨[], [], [], 0⟩ (some (List.replicate 32 0))
        (some ([0xff, 0xff, 0xff, 0xff] ++ List.replicate 12 0)) 1).2
      (List.replicate 64 0)).2.1.counter.getD 1 0 =
      (chacha_init_key ⟨[], [], [], 0⟩ (some (List.replicate 32 0))
        (some ([0xff, 0xff, 0xff, 0xff] ++ List.replicate 12 0)) 1).2.counter.getD 1 0) := by
  decide

/-- C15 (frame of `chacha_cipher`): for every context and every input,
`chacha_cipher` leaves the key words and counter words 2 and 3 unchanged, and
the counter keeps its number of words; so only `counter[0]`, `counter[1]`,
`buf` and `partial_len` can change, and a carry out of `counter[1]` is dropped:
from counter words `(0xFFFFFFFF, 0xFFFFFFFF, c2, c3)` a call with 64 bytes
leaves `(0, 0, c2, c3)`. -/
theorem frame_of_process (little : Bool) (s : EVP_CHACHA_KEY) (inp : List Nat) (c2 c3 : Nat) :
    (chacha_cipher little s inp).2.1.key = s.key ∧
    (chacha_cipher little s inp).2.1.counter.length = s.counter.length ∧
    (chacha_cipher little s inp).2.1.counter.getD 2 0 = s.counter.getD 2 0 ∧
    (chacha_cipher little s inp).2.1.counter.getD 3 0 = s.counter.getD 3 0 ∧
    (chacha_cipher little ⟨s.key, [0xFFFFFFFF, 0xFFFFFFFF, c2, c3], s.buf, 0⟩
      (List.replicate 64 0)).2.1.counter = [0, 0, c2, c3] := by
  obtain ⟨h1, h2, h3, h4⟩ := chacha_cipher_frame little s inp
  refine ⟨h1, h2, h3, h4, ?_⟩
  have hw : (⟨s.key, [0xFFFFFFFF, 0xFFFFFFFF, c2, c3], s.buf, 0⟩ : EVP_CHACHA_KEY).wf :=
    ⟨rfl, by norm_num, by norm_num⟩
  rw [chacha_cipher_eq little _ _ hw]
  simp only [ctxAfter_of_partial_len_zero, restAfter, ctr64, ctrWords, List.length_replicate,
    List.getD_cons_zero, List.getD_cons_succ, List.cons.injEq, and_true]
  decide

/-- C16 (stream position): with `pos s = 64 * (counter[0] + 2 ^ 32 * counter[1]) +
partial_len`, for every well-formed context `s` with `partial_len ≤ 64` and
every input of length `L`, after `chacha_cipher` again `partial_len ≤ 64` and
`pos s' = pos s + L` modulo `2 ^ 70`.  When moreover the buffer is in step with
the counter (as it is after `chacha_init_key` and after every call from such a
context, `partial_len = 64` included), output byte `i` is input byte `i` xor
the keystream byte at position `pos s + i`, and the context left is in step
again: no keystream byte is skipped or used twice across calls. -/
theorem stream_position (little : Bool) (s : EVP_CHACHA_KEY) (inp : List Nat) (hs : s.wf)
    (hp : s.partial_len ≤ 64) :
    pos s = 64 * (s.counter.getD 0 0 + 2 ^ 32 * s.counter.getD 1 0) + s.partial_len ∧
    (chacha_cipher little s inp).2.1.partial_len ≤ 64 ∧
    pos (chacha_cipher little s inp).2.1 % 2 ^ 70 = (pos s + inp.length) % 2 ^ 70 ∧
    (Synced little s →
      Synced little (chacha_cipher little s inp).2.1 ∧
      (chacha_cipher little s inp).2.2.length = inp.length ∧
      ∀ i, i < inp.length →
        (chacha_cipher little s inp).2.2.getD i 0 =
          inp.getD i 0 ^^^
            keystream little s.key (s.counter.getD 2 0) (s.counter.getD 3 0) (pos s + i)) := by
  have hst : (chacha_cipher little s inp).2.1 = ctxAfter little s inp.length := by
    rw [chacha_cipher_eq little s inp hs]
  refine ⟨rfl, ?_, ?_, ?_⟩
  · rw [hst]; exact ctxAfter_partial_len_le little s _ hp
  · rw [hst]; exact ctxAfter_pos little s _ hp
  · intro hsy
    refine ⟨?_, ?_, ?_⟩
    · rw [hst]; exact ctxAfter_synced little s _ hsy
    · rw [chacha_cipher_synced little s inp hsy]; exact xorStream_length _ _ _
    · intro i hi
      rw [chacha_cipher_synced little s inp hsy]
      simp only
      rw [xorStream_getD _ _ _ _ hi]
      rfl

theorem stream_position_witness :
    pos ⟨List.range 8, [0xFFFFFFFF, 5, 6, 7], List.range 64, 64⟩ =
      64 * ((⟨List.range 8, [0xFFFFFFFF, 5, 6, 7], List.range 64, 64⟩ :
          EVP_CHACHA_KEY).counter.getD 0 0 +
        2 ^ 32 * (⟨List.range 8, [0xFFFFFFFF, 5, 6, 7], List.range 64, 64⟩ :
          EVP_CHACHA_KEY).counter.getD 1 0) +
        (⟨List.range 8, [0xFFFFFFFF, 5, 6, 7], List.range 64, 64⟩ :
          EVP_CHACHA_KEY).partial_len ∧
    (chacha_cipher true ⟨List.range 8, [0xFFFFFFFF, 5, 6, 7], List.range 64, 64⟩
      (List.range 70)).2.1.partial_len ≤ 64 ∧
    pos (chacha_cipher true ⟨List.range 8, [0xFFFFFFFF, 5, 6, 7], List.range 64, 64⟩
      (List.range 70)).2.1 % 2 ^ 70 =
      (pos ⟨List.range 8, [0xFFFFFFFF, 5, 6, 7], List.range 64, 64⟩ +
        (List.range 70).length) % 2 ^ 70 ∧
    (Synced true ⟨List.range 8, [0xFFFFFFFF, 5, 6, 7], List.range 64, 64⟩ →
      Synced true (chacha_cipher true ⟨List.range 8, [0xFFFFFFFF, 5, 6, 7], List.range 64, 64⟩
        (List.range 70)).2.1 ∧
      (chacha_cipher true ⟨List.range 8, [0xFFFFFFFF, 5, 6, 7], List.range 64, 64⟩
        (List.range 70)).2.2.length = (List.range 70).length ∧
      ∀ i, i < (List.range 70).length →
        (chacha_cipher true ⟨List.range 8, [0xFFFFFFFF, 5, 6, 7], List.range 64, 64⟩
          (List.range 70)).2.2.getD i 0 =
          (List.range 70).getD i 0 ^^^
            keystream true
              (⟨List.range 8, [0xFFFFFFFF, 5, 6, 7], List.range 64, 64⟩ : EVP_CHACHA_KEY).key
              ((⟨List.range 8, [0xFFFFFFFF, 5, 6, 7], List.range 64, 64⟩ :
                EVP_CHACHA_KEY).counter.getD 2 0)
              ((⟨List.range 8, [0xFFFFFFFF, 5, 6, 7], List.range 64, 64⟩ :
                EVP_CHACHA_KEY).counter.getD 3 0)
              (pos ⟨List.range 8, [0xFFFFFFFF, 5, 6, 7], List.range 64, 64⟩ + i)) :=
  stream_position true ⟨List.range 8, [0xFFFFFFFF, 5, 6, 7], List.range 64, 64⟩ (List.range 70)
    (by decide) (by decide)

/-- C17 (keystream independence from the data): for every well-formed context
`s` and two inputs of the same length, the contexts left by `chacha_cipher`
are identical (key, counter, `buf`, `partial_len`) and
`out1[i] xor m1[i] = out2[i] xor m2[i]` for every `i`. -/
theorem keystream_independent_of_data (little : Bool) (s : EVP_CHACHA_KEY) (m1 m2 : List Nat)
    (hs : s.wf) (hlen : m1.length = m2.length) :
    (chacha_cipher little s m1).2.1 = (chacha_cipher little s m2).2.1 ∧
    (chacha_cipher little s m1).2.2.length = m1.length ∧
    (chacha_cipher little s m2).2.2.length = m2.length ∧
    ∀ i, (chacha_cipher little s m1).2.2.getD i 0 ^^^ m1.getD i 0 =
      (chacha_cipher little s m2).2.2.getD i 0 ^^^ m2.getD i 0 := by
  rw [chacha_cipher_eq little s m1 hs, chacha_cipher_eq little s m2 hs]
  refine ⟨by rw [hlen], xorStream_length _ _ _, xorStream_length _ _ _, ?_⟩
  intro i
  simp only
  by_cases hi : i < m1.length
  · rw [xorStream_getD _ _ _ _ hi, xorStream_getD _ _ _ _ (hlen ▸ hi)]
    rw [Nat.xor_comm (m1.getD i 0), Nat.xor_assoc, Nat.xor_self, Nat.xor_zero,
      Nat.xor_comm (m2.getD i 0), Nat.xor_assoc, Nat.xor_self, Nat.xor_zero]
  · have h1 : ∀ l : List Nat, l.length ≤ i → l.getD i 0 = 0 := by
      intro l hl
      rw [List.getD_eq_getElem?_getD, List.getElem?_eq_none hl]; rfl
    rw [h1 (xorStream (ctxStream little s) 0 m1) (by rw [xorStream_length]; omega),
      h1 (xorStream (ctxStream little s) 0 m2) (by rw [xorStream_length]; omega),
      h1 m1 (by omega), h1 m2 (by omega)]

theorem keystream_independent_of_data_witness :
    (chacha_cipher true ⟨List.range 8, [0xFFFFFFFF, 5, 6, 7], List.range 64, 3⟩
        (List.range 70)).2.1 =
      (chacha_cipher true ⟨List.range 8, [0xFFFFFFFF, 5, 6, 7], List.range 64, 3⟩
        (List.replicate 70 9)).2.1 ∧
    (chacha_cipher true ⟨List.range 8, [0xFFFFFFFF, 5, 6, 7], List.range 64, 3⟩
        (List.range 70)).2.2.length = (List.range 70).length ∧
    (chacha_cipher true ⟨List.range 8, [0xFFFFFFFF, 5, 6, 7], List.range 64, 3⟩
        (List.replicate 70 9)).2.2.length = (List.replicate 70 9).length ∧
    ∀ i, (chacha_cipher true ⟨List.range 8, [0xFFFFFFFF, 5, 6, 7], List.range 64, 3⟩
        (List.range 70)).2.2.getD i 0 ^^^ (List.range 70).getD i 0 =
      (chacha_cipher true ⟨List.range 8, [0xFFFFFFFF, 5, 6, 7], List.range 64, 3⟩
        (List.replicate 70 9)).2.2.getD i 0 ^^^ (List.replicate 70 9).getD i 0 :=
  keystream_independent_of_data true ⟨List.range 8, [0xFFFFFFFF, 5, 6, 7], List.range 64, 3⟩
    (List.range 70) (List.replicate 70 9) (by decide) (by decide)

/-- C18 (the mixing rounds are a permutation): `QUARTERROUND` on pairwise
different indices is a bijection on arrays of 32-bit words, in particular on
4-tuples; hence the body of the loop of `chacha20_core` (quarter-rounds on the
columns `(0,4,8,12)`, `(1,5,9,13)`, `(2,6,10,14)`, `(3,7,11,15)`, then on the
diagonals `(0,5,10,15)`, `(1,6,11,12)`, `(2,7,8,13)`, `(3,4,9,14)`) and its 10
iterations, the working array before the feedforward, are bijections on
16-word states: two different input states never mix to the same working
array. -/
theorem mixing_is_permutation :
    (∀ n a b c d, a < n → b < n → c < n → d < n → a ≠ b → b ≠ c → c ≠ d → d ≠ a →
      Set.BijOn (QUARTERROUND a b c d) (Words n) (Words n)) ∧
    Set.BijOn (QUARTERROUND 0 1 2 3) (Words 4) (Words 4) ∧
    Set.BijOn chacha20_core_body (Words 16) (Words 16) ∧
    Set.BijOn chacha20_core_rounds (Words 16) (Words 16) ∧
    (∀ x y, x ∈ Words 16 → y ∈ Words 16 → x ≠ y →
      chacha20_core_rounds x ≠ chacha20_core_rounds y) := by
  refine ⟨fun n a b c d ha hb hc hd hab hbc hcd hda =>
      QUARTERROUND_bijOn n a b c d ha hb hc hd hab hbc hcd hda,
    QUARTERROUND_bijOn 4 0 1 2 3 (by decide) (by decide) (by decide) (by decide) (by decide)
      (by decide) (by decide) (by decide),
    chacha20_core_body_bijOn, chacha20_core_rounds_bijOn, ?_⟩
  intro x y hx hy hne heq
  exact hne (chacha20_core_rounds_bijOn.injOn hx hy heq)

theorem mixing_is_permutation_witness :
    List.replicate 16 0 ∈ Words 16 ∧ List.replicate 16 1 ∈ Words 16 ∧
    chacha20_core_rounds (List.replicate 16 0) ≠ chacha20_core_rounds (List.replicate 16 1) :=
  ⟨⟨rfl, by decide⟩, ⟨rfl, by decide⟩,
    mixing_is_permutation.2.2.2.2 (List.replicate 16 0) (List.replicate 16 1) ⟨rfl, by decide⟩
      ⟨rfl, by decide⟩ (by decide)⟩

end Chacha
